import Mathlib

/-!
Shallow embedding of `src/sorting_algorithms.py`: five sorting engines that
yield visualization snapshots (`SortState`).  Python generators are modelled
as pure functions returning the list of all yielded snapshots together with
the final state of the mutable working array; `for`/`while` loops become
structural recursions on the number of remaining iterations; Python lists of
integers become `List Int` mutated with `List.set`.  The Python `set` of
finalized indices is modelled as a `List Nat` accumulator (the engines only
ever add elements and never query the set, so insertion order is
irrelevant); `_state`'s `tuple(sorted(set(...)))` is the normalizing
`sortedSet` below.  f-string descriptions are modelled as explicit string
concatenations (right-associated).
-/

namespace SortingViz

/-- `HighlightType` enumeration (sorting_algorithms.py lines 17-24). -/
inductive HighlightType : Type
  | DEFAULT
  | COMPARE
  | SWAP
  | PIVOT
  | SORTED
deriving DecidableEq

/-- `SortState` frozen dataclass (lines 27-41): an immutable snapshot.
`highlights` is the Python dict as an association list in key-insertion
order; `sorted_indices` is the tuple of indices "known to be in their
final position". -/
structure SortState (α : Type) where
  array : List α
  highlights : List (Nat × HighlightType)
  sorted_indices : List Nat
  description : String
deriving DecidableEq

/-- One Python dict insertion: an existing key is overwritten in place,
a new key is appended (dict-comprehension semantics). -/
def dictInsert (d : List (Nat × HighlightType)) (k : Nat) (v : HighlightType) :
    List (Nat × HighlightType) :=
  if d.any (fun p => p.1 == k) then d.map (fun p => if p.1 == k then (k, v) else p)
  else d ++ [(k, v)]

/-- The dict comprehension `{idx: hl for idx, hl in highlights}` (line 54). -/
def dictOfPairs (ps : List (Nat × HighlightType)) : List (Nat × HighlightType) :=
  ps.foldl (fun d p => dictInsert d p.1 p.2) []

/-- Ordered duplicate-free insertion into an ascending index list. -/
def setInsert (k : Nat) : List Nat → List Nat
  | [] => [k]
  | a :: t => if k < a then k :: a :: t else if k = a then a :: t else a :: setInsert k t

/-- `sorted(set(xs))` (line 56): the ascending deduplicated list of the
collected indices. -/
def sortedSet (xs : List Nat) : List Nat := xs.foldr setInsert []

/-- `_state` helper (lines 44-62): builds a snapshot, normalizing the
finalized indices with `tuple(sorted(set(...)))`. -/
def _state (α : Type) (array : List α) (highlights : List (Nat × HighlightType))
    (sorted_indices : List Nat) (description : String) : SortState α :=
  { array := array
    highlights := dictOfPairs highlights
    sorted_indices := sortedSet sorted_indices
    description := description }

/-- `arr[i], arr[j] = arr[j], arr[i]` on a list of ints. -/
def listSwap (l : List Int) (i j : Nat) : List Int :=
  (l.set i (l.getD j 0)).set j (l.getD i 0)

/-! ## Bubble sort (lines 65-101) -/

/-- Inner loop of `bubble_sort` (`for j in range(0, n - i - 1)`, lines
79-93): `j` is the loop variable, `rem` the number of remaining
iterations.  Returns the yielded snapshots and the array after the pass. -/
def bubbleInner (arr : List Int) (si : List Nat) (j : Nat) :
    Nat → List (SortState Int) × List Int
  | 0 => ([], arr)
  | rem + 1 =>
    let cmp := _state Int arr [(j, HighlightType.COMPARE), (j + 1, HighlightType.COMPARE)] si
      ("Comparing indices " ++ (toString j ++ (" and " ++ toString (j + 1))))
    if arr.getD j 0 > arr.getD (j + 1) 0 then
      let arr2 := listSwap arr j (j + 1)
      let sw := _state Int arr2 [(j, HighlightType.SWAP), (j + 1, HighlightType.SWAP)] si
        ("Swapped indices " ++ (toString j ++ (" and " ++ toString (j + 1))))
      let rest := bubbleInner arr2 si (j + 1) rem
      (cmp :: sw :: rest.1, rest.2)
    else
      let rest := bubbleInner arr si (j + 1) rem
      (cmp :: rest.1, rest.2)

/-- Outer loop of `bubble_sort` (`for i in range(n)`, lines 78-100). -/
def bubbleOuter (arr : List Int) (si : List Nat) (n i : Nat) :
    Nat → List (SortState Int) × List Int
  | 0 => ([], arr)
  | rem + 1 =>
    let inner := bubbleInner arr si 0 (n - i - 1)
    let si2 := si ++ [n - i - 1]
    let st := _state Int inner.2 [(n - i - 1, HighlightType.SORTED)] si2
      ("Position " ++ (toString (n - i - 1) ++ " is sorted"))
    let rest := bubbleOuter inner.2 si2 n (i + 1) rem
    (inner.1 ++ st :: rest.1, rest.2)

/-- `bubble_sort` engine (lines 65-101). -/
def bubble_sort (data : List Int) : List (SortState Int) :=
  let n := data.length
  let run := bubbleOuter data [] n 0 n
  run.1 ++ [_state Int run.2 [] (List.range n) "Bubble sort complete"]

/-! ## Insertion sort (lines 104-150) -/

/-- Shift loop of `insertion_sort` (`while j >= 0 and arr[j] > key`, lines
125-139), recursing on `j1 = j + 1` so the loop counter stays a `Nat`.
Returns the yielded snapshots, the array after the shifts, and the final
`j + 1` (the insertion position). -/
def insInner (si : List Nat) (key : Int) :
    List Int → Nat → List (SortState Int) × List Int × Nat
  | arr, 0 => ([], arr, 0)
  | arr, j + 1 =>
    if arr.getD j 0 > key then
      let cmp := _state Int arr [(j, HighlightType.COMPARE), (j + 1, HighlightType.COMPARE)] si
        ("Comparing key with index " ++ toString j)
      let arr2 := arr.set (j + 1) (arr.getD j 0)
      let sw := _state Int arr2 [(j, HighlightType.SWAP), (j + 1, HighlightType.SWAP)] si
        ("Shifting value at index " ++ (toString j ++ (" to index " ++ toString (j + 1))))
      let rest := insInner si key arr2 j
      (cmp :: sw :: rest.1, rest.2)
    else ([], arr, j + 1)

/-- Outer loop of `insertion_sort` (`for i in range(1, len(arr))`, lines
116-147): `i` is the loop variable, `rem` the remaining iterations. -/
def insOuter (arr : List Int) (si : List Nat) (i : Nat) :
    Nat → List (SortState Int) × List Int
  | 0 => ([], arr)
  | rem + 1 =>
    let key := arr.getD i 0
    let pv := _state Int arr [(i, HighlightType.PIVOT)] si
      ("Selecting key at index " ++ toString i)
    let inner := insInner si key arr i
    let arr2 := inner.2.1
    let j1 := inner.2.2
    let arr3 := arr2.set j1 key
    let si2 := si ++ List.range (i + 1)
    let ins := _state Int arr3 [(j1, HighlightType.SWAP)] si2
      ("Inserted key at index " ++ toString j1)
    let rest := insOuter arr3 si2 (i + 1) rem
    (pv :: (inner.1 ++ ins :: rest.1), rest.2)

/-- `insertion_sort` engine (lines 104-150). -/
def insertion_sort (data : List Int) : List (SortState Int) :=
  let run := insOuter data [] 1 (data.length - 1)
  run.1 ++ [_state Int run.2 [] (List.range data.length) "Insertion sort complete"]

/-! ## Selection sort (lines 153-191) -/

/-- Inner loop of `selection_sort` (`for j in range(i + 1, n)`, lines
168-182), threading the current `min_idx`.  Returns the yielded snapshots
and the final minimum index. -/
def selInner (arr : List Int) (si : List Nat) (i : Nat) :
    Nat → Nat → Nat → List (SortState Int) × Nat
  | min_idx, _, 0 => ([], min_idx)
  | min_idx, j, rem + 1 =>
    let cmp := _state Int arr [(min_idx, HighlightType.PIVOT), (j, HighlightType.COMPARE)] si
      ("Finding minimum from index " ++ (toString i ++ " onward"))
    if arr.getD j 0 < arr.getD min_idx 0 then
      let nm := _state Int arr [(j, HighlightType.PIVOT)] si
        ("New minimum at index " ++ toString j)
      let rest := selInner arr si i j (j + 1) rem
      (cmp :: nm :: rest.1, rest.2)
    else
      let rest := selInner arr si i min_idx (j + 1) rem
      (cmp :: rest.1, rest.2)

/-- Outer loop of `selection_sort` (`for i in range(n)`, lines 166-190). -/
def selOuter (arr : List Int) (si : List Nat) (n i : Nat) :
    Nat → List (SortState Int) × List Int
  | 0 => ([], arr)
  | rem + 1 =>
    let inner := selInner arr si i i (i + 1) (n - i - 1)
    let m := inner.2
    let arr2 := listSwap arr i m
    let si2 := si ++ [i]
    let st := _state Int arr2 [(i, HighlightType.SORTED), (m, HighlightType.SWAP)] si2
      ("Swapped minimum into position " ++ toString i)
    let rest := selOuter arr2 si2 n (i + 1) rem
    (inner.1 ++ st :: rest.1, rest.2)

/-- `selection_sort` engine (lines 153-191). -/
def selection_sort (data : List Int) : List (SortState Int) :=
  let n := data.length
  let run := selOuter data [] n 0 n
  run.1 ++ [_state Int run.2 [] (List.range n) "Selection sort complete"]

/-! ## Quick sort (lines 194-254)

The Python recursion uses int bounds that may go negative (`high = -1` for
the empty array, `i = low - 1`), so `low`, `high`, `i`, `j` are `Int` here
and are converted with `Int.toNat` exactly where Python indexes the list. -/

/-- Partition loop of `_quick_sort` (`for j in range(low, high)`, lines
219-234): `rem` is the number of remaining iterations, `i` the Lomuto
boundary.  Returns the yielded snapshots, the array, and the final `i`. -/
def partLoop (si : List Nat) (pivot : Int) (high : Int) :
    List Int → Int → Int → Nat → List (SortState Int) × List Int × Int
  | arr, i, _, 0 => ([], arr, i)
  | arr, i, j, rem + 1 =>
    let cmp := _state Int arr [(j.toNat, HighlightType.COMPARE), (high.toNat, HighlightType.PIVOT)] si
      ("Comparing index " ++ (toString j ++ " with pivot"))
    if arr.getD j.toNat 0 ≤ pivot then
      let arr2 := listSwap arr (i + 1).toNat j.toNat
      let sw := _state Int arr2 [((i + 1).toNat, HighlightType.SWAP), (j.toNat, HighlightType.SWAP)] si
        ("Swapped indices " ++ (toString (i + 1) ++ (" and " ++ toString j)))
      let rest := partLoop si pivot high arr2 (i + 1) (j + 1) rem
      (cmp :: sw :: rest.1, rest.2)
    else
      let rest := partLoop si pivot high arr i (j + 1) rem
      (cmp :: rest.1, rest.2)

/-- `_quick_sort` (lines 194-245): recursive quick sort with Lomuto
partition.  Returns the yielded snapshots, the array, and the grown
finalized-index accumulator.  The recursion is bounded by an explicit
`fuel` counter so that it is structural; every call made from `quick_sort`
satisfies `(high - low + 1).toNat < fuel`, which keeps the fuel from ever
running out (`_quick_sort_fuel_irrelevant` below), so the `fuel = 0` branch
is unreachable from the engine. -/
def _quick_sort (fuel : Nat) (arr : List Int) (low high : Int) (si : List Nat) :
    List (SortState Int) × List Int × List Nat :=
  match fuel with
  | 0 => ([], arr, si)
  | fuel + 1 =>
  if low ≥ high then
    if low = high then
      let si2 := si ++ [low.toNat]
      ([_state Int arr [(low.toNat, HighlightType.SORTED)] si2
          ("Index " ++ (toString low ++ " is sorted"))], arr, si2)
    else ([], arr, si)
  else
    let pivot := arr.getD high.toNat 0
    let pv := _state Int arr [(high.toNat, HighlightType.PIVOT)] si
      ("Pivot chosen at index " ++ toString high)
    let part := partLoop si pivot high arr (low - 1) low (high - low).toNat
    let arr2 := part.2.1
    let i := part.2.2
    let arr3 := listSwap arr2 (i + 1).toNat high.toNat
    let pivot_idx := i + 1
    let si2 := si ++ [pivot_idx.toNat]
    let settled := _state Int arr3 [(pivot_idx.toNat, HighlightType.SORTED)] si2
      ("Pivot settled at index " ++ toString pivot_idx)
    let left := _quick_sort fuel arr3 low (pivot_idx - 1) si2
    let right := _quick_sort fuel left.2.1 (pivot_idx + 1) high left.2.2
    (pv :: (part.1 ++ settled :: (left.1 ++ right.1)), right.2.1, right.2.2)

/-- `quick_sort` engine (lines 248-254). -/
def quick_sort (data : List Int) : List (SortState Int) :=
  let run := _quick_sort (data.length + 1) data 0 ((data.length : Int) - 1) []
  run.1 ++ [_state Int run.2.1 [] (List.range data.length) "Quick sort complete"]

/-! ## Merge sort (lines 257-354)

The merge family is parametrized by the boolean comparison `le` used at the
single comparison site `left[i] <= right[j]` (line 280); the engine of the
source is the instance `le := intLe` below.  The generic form lets the
spec's stability check run on values tagged with their original position. -/

/-- The `<=` comparison of the source, as a boolean function on `Int`. -/
def intLe (a b : Int) : Bool := a ≤ b

/-- Comparison on `(value, tag)` pairs looking only at the value: used to
tag duplicates and observe stability of the merge. -/
def tagLe (a b : Int × Nat) : Bool := a.1 ≤ b.1

/-- The three `while` loops of `_merge` (lines 269-314) as one recursion on
the unconsumed suffixes `ls` (of `left`) and `rs` (of `right`): when both
are nonempty this is the main comparison loop, when exactly one is nonempty
it is the corresponding drain loop.  `i`, `j`, `k` are the source's
cursors, kept for the highlight and write positions.  One element is
consumed per iteration, so the recursion is made structural on a `fuel`
counter; `_merge` supplies `fuel = ls.length + rs.length`, which is exactly
enough, so the shortcut taken when fuel runs out is never exercised.
Returns the yielded snapshots and the array. -/
def mergeWrite {α : Type} (le : α → α → Bool) (si : List Nat) (start mid endd : Nat) :
    Nat → List α → List α → List α → Nat → Nat → Nat → List (SortState α) × List α
  | 0, arr, _, _, _, _, _ => ([], arr)
  | _ + 1, arr, [], [], _, _, _ => ([], arr)
  | fuel + 1, arr, [], b :: rs, i, j, k =>
    let arr2 := arr.set k b
    let st := _state α arr2 [(k, HighlightType.SWAP)] si
      ("Copying remaining right element to index " ++ toString k)
    let rest := mergeWrite le si start mid endd fuel arr2 [] rs i (j + 1) (k + 1)
    (st :: rest.1, rest.2)
  | fuel + 1, arr, a :: ls, [], i, j, k =>
    let arr2 := arr.set k a
    let st := _state α arr2 [(k, HighlightType.SWAP)] si
      ("Copying remaining left element to index " ++ toString k)
    let rest := mergeWrite le si start mid endd fuel arr2 ls [] (i + 1) j (k + 1)
    (st :: rest.1, rest.2)
  | fuel + 1, arr, a :: ls, b :: rs, i, j, k =>
    let cmp := _state α arr
      [(k, HighlightType.COMPARE), (start + i, HighlightType.COMPARE),
        (mid + 1 + j, HighlightType.COMPARE)] si
      ("Merging indices " ++ (toString start ++ (" to " ++ toString endd)))
    if le a b then
      let arr2 := arr.set k a
      let st := _state α arr2 [(k, HighlightType.SWAP)] si
        ("Placed value at index " ++ toString k)
      let rest := mergeWrite le si start mid endd fuel arr2 ls (b :: rs) (i + 1) j (k + 1)
      (cmp :: st :: rest.1, rest.2)
    else
      let arr2 := arr.set k b
      let st := _state α arr2 [(k, HighlightType.SWAP)] si
        ("Placed value at index " ++ toString k)
      let rest := mergeWrite le si start mid endd fuel arr2 (a :: ls) rs i (j + 1) (k + 1)
      (cmp :: st :: rest.1, rest.2)

/-- `_merge` (lines 257-322): copies the two halves, merges them back into
`arr`, then finalizes the whole merged range with one SORTED snapshot. -/
def _merge {α : Type} (le : α → α → Bool) (arr : List α) (start mid endd : Nat)
    (si : List Nat) : List (SortState α) × List α × List Nat :=
  let left := (arr.take (mid + 1)).drop start
  let right := (arr.take (endd + 1)).drop (mid + 1)
  let w := mergeWrite le si start mid endd (left.length + right.length) arr left right 0 0 start
  let si2 := si ++ List.range' start (endd + 1 - start)
  let st := _state α w.2
    ((List.range' start (endd + 1 - start)).map (fun idx => (idx, HighlightType.SORTED))) si2
    ("Segment " ++ (toString start ++ (":" ++ (toString endd ++ " sorted"))))
  (w.1 ++ [st], w.2, si2)

/-- `_merge_sort` (lines 325-344): recursive splitting; a single index is
finalized immediately.  As with `_quick_sort`, the recursion is bounded by
an explicit `fuel` counter so it is structural; every call made from
`merge_sort` satisfies `endd - start < fuel`, so the `fuel = 0` branch is
unreachable from the engine. -/
def _merge_sort {α : Type} (le : α → α → Bool) (fuel : Nat) (arr : List α)
    (start endd : Nat) (si : List Nat) : List (SortState α) × List α × List Nat :=
  match fuel with
  | 0 => ([], arr, si)
  | fuel + 1 =>
  if start ≥ endd then
    let si2 := si ++ [start]
    ([_state α arr [(start, HighlightType.SORTED)] si2
        ("Index " ++ (toString start ++ " is trivially sorted"))], arr, si2)
  else
    let mid := (start + endd) / 2
    let l := _merge_sort le fuel arr start mid si
    let r := _merge_sort le fuel l.2.1 (mid + 1) endd l.2.2
    let m := _merge le r.2.1 start mid endd r.2.2
    (l.1 ++ (r.1 ++ m.1), m.2.1, m.2.2)

/-- `merge_sort` engine (lines 347-354); the `if arr:` guard skips the
recursion for the empty input. -/
def merge_sort {α : Type} (le : α → α → Bool) (data : List α) : List (SortState α) :=
  let run := if data.isEmpty then ([], data, ([] : List Nat))
    else _merge_sort le data.length data 0 (data.length - 1) []
  run.1 ++ [_state α run.2.1 [] (List.range data.length) "Merge sort complete"]

/-! ## Heap model for input non-mutation

Python lists are mutable heap objects, so the claim that an engine never
mutates the caller's sequence is stated against a minimal heap: a store of
lists addressed by index.  Each engine's line `arr = list(data)` allocates
a fresh cell holding a copy of the caller's list, and every array the
engine ever exposes (each snapshot's array, and the final array) is written
only to that fresh cell. -/

/-- `bubble_sort`'s run as (all snapshots, final working array). -/
def bubbleCore (data : List Int) : List (SortState Int) × List Int :=
  (bubble_sort data, (bubbleOuter data [] data.length 0 data.length).2)

/-- `insertion_sort`'s run as (all snapshots, final working array). -/
def insertionCore (data : List Int) : List (SortState Int) × List Int :=
  (insertion_sort data, (insOuter data [] 1 (data.length - 1)).2)

/-- `selection_sort`'s run as (all snapshots, final working array). -/
def selectionCore (data : List Int) : List (SortState Int) × List Int :=
  (selection_sort data, (selOuter data [] data.length 0 data.length).2)

/-- `quick_sort`'s run as (all snapshots, final working array). -/
def quickCore (data : List Int) : List (SortState Int) × List Int :=
  (quick_sort data, (_quick_sort (data.length + 1) data 0 ((data.length : Int) - 1) []).2.1)

/-- `merge_sort`'s run as (all snapshots, final working array). -/
def mergeCore (data : List Int) : List (SortState Int) × List Int :=
  (merge_sort intLe data,
    if data.isEmpty then data else (_merge_sort intLe data.length data 0 (data.length - 1) []).2.1)

/-- `arr = list(data)` followed by the whole run, against the heap: the
caller's list lives at `dataRef`; the engine allocates its private copy at
the fresh cell `store.length` and every intermediate array (one per
snapshot) and the final array are written there and nowhere else. -/
def runOnHeap (core : List Int → List (SortState Int) × List Int)
    (store : List (List Int)) (dataRef : Nat) : List (SortState Int) × List (List Int) :=
  let data := store.getD dataRef []
  let arrRef := store.length
  let store1 := store ++ [data]
  let run := core data
  let store2 := (run.1.map SortState.array).foldl (fun st a => st.set arrRef a) store1
  (run.1, store2.set arrRef run.2)

/-- The finalized-index set of a snapshot, as a `Finset`. -/
def siF {α : Type} (s : SortState α) : Finset Nat := s.sorted_indices.toFinset

/-- The spec's demand on the very last snapshot of a run over `data`: it
exists, its array is sorted ascending and a permutation of the input, and
its finalized-index set is the full index range. -/
def finalSnapshotOK (data : List Int) (states : List (SortState Int)) : Prop :=
  ∃ last, states.getLast? = some last ∧
    List.Sorted (· ≤ ·) last.array ∧
    List.Perm last.array data ∧
    last.sorted_indices = List.range data.length

/-! ## Basic lemmas about the step-model helpers -/

theorem mem_setInsert (m k : Nat) : ∀ l : List Nat, m ∈ setInsert k l ↔ m = k ∨ m ∈ l := by
  intro l
  induction l with
  | nil => simp [setInsert]
  | cons a t ih =>
    simp only [setInsert]
    by_cases h1 : k < a
    · simp [h1]
    · by_cases h2 : k = a
      · subst h2
        simp [h1]
      · simp only [if_neg h1, if_neg h2, List.mem_cons, ih]
        tauto

theorem setInsert_sorted {l : List Nat} (k : Nat) (h : l.Sorted (· < ·)) :
    (setInsert k l).Sorted (· < ·) := by
  induction l with
  | nil => simp [setInsert]
  | cons a t ih =>
    simp only [setInsert]
    by_cases h1 : k < a
    · simp only [if_pos h1]
      refine List.sorted_cons.2 ⟨?_, h⟩
      intro b hb
      rcases List.mem_cons.1 hb with rfl | hb
      · exact h1
      · exact h1.trans (List.rel_of_sorted_cons h b hb)
    · by_cases h2 : k = a
      · simp only [if_neg h1, if_pos h2]
        exact h
      · simp only [if_neg h1, if_neg h2]
        have ht := ih (List.Sorted.of_cons h)
        refine List.sorted_cons.2 ⟨?_, ht⟩
        intro b hb
        rcases (mem_setInsert b k _).1 hb with rfl | hb
        · omega
        · exact List.rel_of_sorted_cons h b hb

theorem sortedSet_sorted (xs : List Nat) : (sortedSet xs).Sorted (· < ·) := by
  induction xs with
  | nil => simp [sortedSet]
  | cons a t ih => exact setInsert_sorted a ih

theorem mem_sortedSet (m : Nat) (xs : List Nat) : m ∈ sortedSet xs ↔ m ∈ xs := by
  induction xs with
  | nil => simp [sortedSet]
  | cons a t ih =>
    show m ∈ setInsert a (sortedSet t) ↔ _
    rw [mem_setInsert, ih]
    simp

theorem sortedSet_nodup (xs : List Nat) : (sortedSet xs).Nodup :=
  (sortedSet_sorted xs).nodup

theorem sortedSet_toFinset (xs : List Nat) : (sortedSet xs).toFinset = xs.toFinset := by
  ext m
  simp [List.mem_toFinset, mem_sortedSet]

theorem setInsert_head_lt {t : List Nat} (k : Nat) (h : ∀ b ∈ t, k < b) :
    setInsert k t = k :: t := by
  cases t with
  | nil => rfl
  | cons a t =>
    have : k < a := h a (by simp)
    simp [setInsert, this]

theorem sortedSet_eq_self {l : List Nat} (h : l.Sorted (· < ·)) : sortedSet l = l := by
  induction l with
  | nil => rfl
  | cons a t ih =>
    show setInsert a (sortedSet t) = a :: t
    rw [ih (List.Sorted.of_cons h)]
    exact setInsert_head_lt a (fun b hb => List.rel_of_sorted_cons h b hb)

theorem sortedSet_range (n : Nat) : sortedSet (List.range n) = List.range n :=
  sortedSet_eq_self (List.sorted_lt_range n)

theorem state_array {α : Type} (a : List α) (h : List (Nat × HighlightType))
    (si : List Nat) (d : String) : (_state α a h si d).array = a := rfl

theorem state_sorted_indices {α : Type} (a : List α) (h : List (Nat × HighlightType))
    (si : List Nat) (d : String) : (_state α a h si d).sorted_indices = sortedSet si := rfl

theorem state_description {α : Type} (a : List α) (h : List (Nat × HighlightType))
    (si : List Nat) (d : String) : (_state α a h si d).description = d := rfl

theorem state_highlights {α : Type} (a : List α) (h : List (Nat × HighlightType))
    (si : List Nat) (d : String) : (_state α a h si d).highlights = dictOfPairs h := rfl

theorem mem_dictInsert (p : Nat × HighlightType) (d : List (Nat × HighlightType))
    (k : Nat) (v : HighlightType) (hp : p ∈ dictInsert d k v) : p.1 = k ∨ p ∈ d := by
  unfold dictInsert at hp
  by_cases hd : d.any (fun q => q.1 == k)
  · rw [if_pos hd] at hp
    rcases List.mem_map.1 hp with ⟨q, hq, he⟩
    by_cases hqk : q.1 == k
    · rw [if_pos hqk] at he
      left
      rw [← he]
    · rw [if_neg hqk] at he
      right
      rw [← he]
      exact hq
  · rw [if_neg hd] at hp
    rcases List.mem_append.1 hp with hp | hp
    · right
      exact hp
    · left
      simp at hp
      rw [hp]

theorem mem_dictOfPairs (p : Nat × HighlightType) (ps : List (Nat × HighlightType))
    (hp : p ∈ dictOfPairs ps) : p.1 ∈ ps.map Prod.fst := by
  suffices h : ∀ acc : List (Nat × HighlightType),
      p ∈ ps.foldl (fun d q => dictInsert d q.1 q.2) acc →
        p.1 ∈ ps.map Prod.fst ∨ p ∈ acc by
    rcases h [] hp with h1 | h1
    · exact h1
    · simp at h1
  clear hp
  induction ps with
  | nil =>
    intro acc hacc
    right
    exact hacc
  | cons q ps ih =>
    intro acc hacc
    rcases ih (dictInsert acc q.1 q.2) hacc with h1 | h1
    · left
      simp only [List.map_cons, List.mem_cons]
      right
      exact h1
    · rcases mem_dictInsert p acc q.1 q.2 h1 with h2 | h2
      · left
        simp only [List.map_cons, List.mem_cons]
        left
        exact h2
      · right
        exact h2

theorem length_listSwap (l : List Int) (i j : Nat) : (listSwap l i j).length = l.length := by
  simp [listSwap]

theorem listSwap_getD_fst (l : List Int) {i j : Nat} (hi : i < l.length)
    (hij : i ≠ j) : (listSwap l i j).getD i 0 = l.getD j 0 := by
  simp [listSwap, List.getD_eq_getElem?_getD, List.getElem?_set_ne hij.symm,
    List.getElem?_set_self hi]

theorem listSwap_getD_snd (l : List Int) {i j : Nat} (hj : j < l.length) :
    (listSwap l i j).getD j 0 = l.getD i 0 := by
  have h1 : ((l.set i (l.getD j 0)).set j (l.getD i 0))[j]? = some (l.getD i 0) :=
    List.getElem?_set_self (by simpa using hj)
  simp [listSwap, List.getD_eq_getElem?_getD] at h1 ⊢
  simp [h1]

theorem listSwap_getD_other (l : List Int) {i j t : Nat} (hti : t ≠ i) (htj : t ≠ j) :
    (listSwap l i j).getD t 0 = l.getD t 0 := by
  simp [listSwap, List.getD_eq_getElem?_getD, List.getElem?_set_ne (Ne.symm hti),
    List.getElem?_set_ne (Ne.symm htj)]

theorem set_getD_self (l : List Int) {i : Nat} (hi : i < l.length) :
    l.set i (l.getD i 0) = l := by
  apply List.ext_getElem?
  intro n
  by_cases hn : n = i
  · subst hn
    simp [List.getElem?_set_self hi, List.getD_eq_getElem?_getD, List.getElem?_eq_getElem hi]
  · simp [List.getElem?_set_ne (Ne.symm hn)]

theorem listSwap_self (l : List Int) {i : Nat} (hi : i < l.length) : listSwap l i i = l := by
  unfold listSwap
  rw [List.set_set, set_getD_self l hi]

theorem cons_perm_getD_set (a : Int) : ∀ (t : List Int) (k : Nat), k < t.length →
    List.Perm (a :: t) (t.getD k 0 :: t.set k a) := by
  intro t
  induction t with
  | nil => intro k hk; simp at hk
  | cons b t ih =>
    intro k hk
    cases k with
    | zero =>
      simp only [List.getD_cons_zero, List.set_cons_zero]
      exact List.Perm.swap b a t
    | succ k =>
      simp only [List.getD_cons_succ, List.set_cons_succ]
      have h1 : List.Perm (a :: b :: t) (b :: a :: t) := List.Perm.swap b a t
      refine h1.trans ?_
      have h2 : List.Perm (a :: t) (t.getD k 0 :: t.set k a) := ih k (by simpa using hk)
      refine (h2.cons b).trans ?_
      exact List.Perm.swap (t.getD k 0) b (t.set k a)

theorem listSwap_perm (l : List Int) : ∀ (i j : Nat), i < l.length → j < l.length →
    List.Perm (listSwap l i j) l := by
  suffices hle : ∀ (i j : Nat), i ≤ j → i < l.length → j < l.length →
      List.Perm (listSwap l i j) l by
    intro i j hi hj
    by_cases hij : i ≤ j
    · exact hle i j hij hi hj
    · have h1 := hle j i (by omega) hj hi
      have he : listSwap l i j = listSwap l j i := by
        unfold listSwap
        by_cases he2 : i = j
        · rw [he2]
        · rw [List.set_comm _ _ _ he2]
      rw [he]
      exact h1
  intro i j hij hi hj
  rcases Nat.eq_or_lt_of_le hij with rfl | hlt
  · rw [listSwap_self l hi]
  · clear hij hi
    induction l generalizing i j with
    | nil => simp at hj
    | cons b t ih =>
      cases i with
      | zero =>
        cases j with
        | zero => omega
        | succ k =>
          have hk : k < t.length := by simpa using hj
          unfold listSwap
          simp only [List.getD_cons_succ, List.set_cons_zero, List.set_cons_succ,
            List.getD_cons_zero]
          exact (cons_perm_getD_set b t k hk).symm
      | succ i2 =>
        cases j with
        | zero => omega
        | succ k =>
          have hk : k < t.length := by simpa using hj
          unfold listSwap
          simp only [List.getD_cons_succ, List.set_cons_succ]
          exact List.Perm.cons b (ih i2 k hk (by omega))

theorem append_singleton_ne_nil {β : Type} (l : List β) (x : β) : l ++ [x] ≠ [] := by
  simp

theorem siF_state {α : Type} (a : List α) (h : List (Nat × HighlightType))
    (si : List Nat) (d : String) : siF (_state α a h si d) = si.toFinset := by
  show (sortedSet si).toFinset = si.toFinset
  exact sortedSet_toFinset si

/-! ## Chains of finalized-index sets -/

theorem chain_sub_const {a b : Finset Nat} (l : List (Finset Nat)) (hl : ∀ x ∈ l, x = a)
    (hab : a ⊆ b) : List.Chain (· ⊆ ·) a (l ++ [b]) := by
  induction l with
  | nil => exact List.Chain.cons hab List.Chain.nil
  | cons x t ih =>
    have hx : x = a := hl x (List.mem_cons_self x t)
    subst hx
    exact List.Chain.cons (Finset.Subset.refl x)
      (ih fun y hy => hl y (List.mem_cons_of_mem x hy))

theorem chain_snoc_weaken {a b c : Finset Nat} :
    ∀ {l : List (Finset Nat)}, List.Chain (· ⊆ ·) a (l ++ [b]) → b ⊆ c →
      List.Chain (· ⊆ ·) a (l ++ [c]) := by
  intro l
  induction l generalizing a with
  | nil =>
    intro h hbc
    rw [List.nil_append] at h ⊢
    rcases List.chain_cons.1 h with ⟨hab, _⟩
    exact List.Chain.cons (hab.trans hbc) List.Chain.nil
  | cons x t ih =>
    intro h hbc
    rcases List.chain_cons.1 h with ⟨hax, ht⟩
    exact List.Chain.cons hax (ih ht hbc)

theorem chain_sub_all {a b : Finset Nat} :
    ∀ {l : List (Finset Nat)}, List.Chain (· ⊆ ·) a (l ++ [b]) →
      a ⊆ b ∧ ∀ x ∈ l, x ⊆ b := by
  intro l
  induction l generalizing a with
  | nil =>
    intro h
    rcases List.chain_cons.1 h with ⟨hab, _⟩
    exact ⟨hab, by simp⟩
  | cons x t ih =>
    intro h
    rcases List.chain_cons.1 h with ⟨hax, ht⟩
    rcases ih ht with ⟨hxb, hall⟩
    refine ⟨hax.trans hxb, ?_⟩
    intro y hy
    rcases List.mem_cons.1 hy with rfl | hy
    · exact hxb
    · exact hall y hy

theorem bubbleInner_si (si : List Nat) :
    ∀ (rem : Nat) (arr : List Int) (j : Nat),
      ∀ s ∈ (bubbleInner arr si j rem).1, s.sorted_indices = sortedSet si := by
  intro rem
  induction rem with
  | zero => intro arr j s hs; simp [bubbleInner] at hs
  | succ rem ih =>
    intro arr j s hs
    simp only [bubbleInner] at hs
    by_cases h : arr.getD j 0 > arr.getD (j + 1) 0
    · rw [if_pos h] at hs
      rcases List.mem_cons.1 hs with rfl | hs
      · rfl
      · rcases List.mem_cons.1 hs with rfl | hs
        · rfl
        · exact ih _ _ s hs
    · rw [if_neg h] at hs
      rcases List.mem_cons.1 hs with rfl | hs
      · rfl
      · exact ih _ _ s hs

theorem bubbleOuter_chain (n : Nat) :
    ∀ (rem : Nat) (arr : List Int) (si : List Nat) (i : Nat), i + rem = n →
      List.Chain (· ⊆ ·) si.toFinset
        (((bubbleOuter arr si n i rem).1.map siF) ++ [si.toFinset ∪ Finset.range rem]) := by
  intro rem
  induction rem with
  | zero =>
    intro arr si i _
    simp only [bubbleOuter, List.map_nil, List.nil_append, Finset.range_zero,
      Finset.union_empty]
    exact List.Chain.cons (Finset.Subset.refl _) List.Chain.nil
  | succ rem ih =>
    intro arr si i hn
    have hm : n - i - 1 = rem := by omega
    simp only [bubbleOuter, hm, List.map_append, List.map_cons]
    rw [List.append_assoc, List.cons_append]
    refine (List.chain_split).2 ⟨?_, ?_⟩
    · apply chain_sub_const
      · intro x hx
        rcases List.mem_map.1 hx with ⟨s, hs, rfl⟩
        rw [siF, bubbleInner_si si _ _ _ s hs, sortedSet_toFinset]
      · rw [siF_state]
        intro x hx
        simp only [List.toFinset_append, Finset.mem_union]
        left
        exact hx
    · rw [siF_state]
      have h2 := ih (bubbleInner arr si 0 rem).2 (si ++ [rem]) (i + 1) (by omega)
      have he : (si ++ [rem]).toFinset ∪ Finset.range rem =
          si.toFinset ∪ Finset.range (rem + 1) := by
        ext x
        simp only [List.toFinset_append, Finset.mem_union, Finset.mem_range,
          List.mem_toFinset, List.mem_singleton]
        constructor
        · intro h
          rcases h with (h | h) | h
          · left; exact h
          · right; omega
          · right; omega
        · intro h
          rcases h with h | h
          · left; left; exact h
          · by_cases hx : x = rem
            · left; right; simp [hx]
            · right; omega
      rw [he] at h2
      exact h2

theorem chain_snoc_replace {a c : Finset Nat} {b : Finset Nat} :
    ∀ {l : List (Finset Nat)}, List.Chain (· ⊆ ·) a (l ++ [b]) → (∀ x ∈ l, x ⊆ c) →
      a ⊆ c → List.Chain (· ⊆ ·) a (l ++ [c]) := by
  intro l
  induction l generalizing a with
  | nil =>
    intro _ _ hac
    exact List.Chain.cons hac List.Chain.nil
  | cons x t ih =>
    intro h hall hac
    rcases List.chain_cons.1 h with ⟨hax, ht⟩
    refine List.Chain.cons hax (ih ht ?_ (hall x (List.mem_cons_self x t)))
    intro y hy
    exact hall y (List.mem_cons_of_mem x hy)

theorem toFinset_list_range (n : Nat) : (List.range n).toFinset = Finset.range n := by
  ext x
  simp

theorem insInner_si (si : List Nat) (key : Int) :
    ∀ (j1 : Nat) (arr : List Int),
      ∀ s ∈ (insInner si key arr j1).1, s.sorted_indices = sortedSet si := by
  intro j1
  induction j1 with
  | zero => intro arr s hs; simp [insInner] at hs
  | succ j ih =>
    intro arr s hs
    simp only [insInner] at hs
    by_cases h : arr.getD j 0 > key
    · rw [if_pos h] at hs
      rcases List.mem_cons.1 hs with rfl | hs
      · rfl
      · rcases List.mem_cons.1 hs with rfl | hs
        · rfl
        · exact ih _ s hs
    · rw [if_neg h] at hs
      simp at hs

theorem insOuter_chain :
    ∀ (rem : Nat) (arr : List Int) (si : List Nat) (i : Nat),
      List.Chain (· ⊆ ·) si.toFinset
        (((insOuter arr si i rem).1.map siF) ++ [si.toFinset ∪ Finset.range (i + rem)]) := by
  intro rem
  induction rem with
  | zero =>
    intro arr si i
    simp only [insOuter, List.map_nil, List.nil_append]
    exact List.Chain.cons Finset.subset_union_left List.Chain.nil
  | succ rem ih =>
    intro arr si i
    simp only [insOuter, List.map_cons, List.map_append, List.cons_append]
    refine List.Chain.cons ?_ ?_
    · simp only [siF_state]
      exact Finset.Subset.refl _
    · rw [List.append_assoc, List.cons_append]
      refine (List.chain_split).2 ⟨?_, ?_⟩
      · simp only [siF_state]
        apply chain_sub_const
        · intro x hx
          rcases List.mem_map.1 hx with ⟨s, hs, rfl⟩
          rw [siF, insInner_si si _ _ _ s hs, sortedSet_toFinset]
        · intro x hx
          simp only [List.toFinset_append, Finset.mem_union]
          left
          exact hx
      · rw [siF_state]
        have h2 := ih ((insInner si (arr.getD i 0) arr i).2.1.set
          (insInner si (arr.getD i 0) arr i).2.2 (arr.getD i 0)) (si ++ List.range (i + 1)) (i + 1)
        have he : (si ++ List.range (i + 1)).toFinset ∪ Finset.range (i + 1 + rem) =
            si.toFinset ∪ Finset.range (i + (rem + 1)) := by
          ext x
          simp only [List.toFinset_append, Finset.mem_union, Finset.mem_range,
            List.mem_toFinset, List.mem_range]
          constructor
          · intro h
            rcases h with (h | h) | h
            · left; exact h
            · right; omega
            · right; omega
          · intro h
            rcases h with h | h
            · left; left; exact h
            · by_cases hx : x < i + 1
              · left; right; omega
              · right; omega
        rw [he] at h2
        exact h2

theorem selInner_si (arr : List Int) (si : List Nat) (i : Nat) :
    ∀ (rem : Nat) (min_idx j : Nat),
      ∀ s ∈ (selInner arr si i min_idx j rem).1, s.sorted_indices = sortedSet si := by
  intro rem
  induction rem with
  | zero => intro min_idx j s hs; simp [selInner] at hs
  | succ rem ih =>
    intro min_idx j s hs
    simp only [selInner] at hs
    by_cases h : arr.getD j 0 < arr.getD min_idx 0
    · rw [if_pos h] at hs
      rcases List.mem_cons.1 hs with rfl | hs
      · rfl
      · rcases List.mem_cons.1 hs with rfl | hs
        · rfl
        · exact ih _ _ s hs
    · rw [if_neg h] at hs
      rcases List.mem_cons.1 hs with rfl | hs
      · rfl
      · exact ih _ _ s hs

theorem selOuter_chain (n : Nat) :
    ∀ (rem : Nat) (arr : List Int) (si : List Nat) (i : Nat),
      List.Chain (· ⊆ ·) si.toFinset
        (((selOuter arr si n i rem).1.map siF) ++ [si.toFinset ∪ Finset.Ico i (i + rem)]) := by
  intro rem
  induction rem with
  | zero =>
    intro arr si i
    simp only [selOuter, List.map_nil, List.nil_append]
    exact List.Chain.cons Finset.subset_union_left List.Chain.nil
  | succ rem ih =>
    intro arr si i
    simp only [selOuter, List.map_append, List.map_cons]
    rw [List.append_assoc, List.cons_append]
    refine (List.chain_split).2 ⟨?_, ?_⟩
    · rw [siF_state]
      apply chain_sub_const
      · intro x hx
        rcases List.mem_map.1 hx with ⟨s, hs, rfl⟩
        rw [siF, selInner_si arr si i _ _ _ s hs, sortedSet_toFinset]
      · intro x hx
        simp only [List.toFinset_append, Finset.mem_union]
        left
        exact hx
    · rw [siF_state]
      have h2 := ih (listSwap arr i (selInner arr si i i (i + 1) (n - i - 1)).2)
        (si ++ [i]) (i + 1)
      have he : (si ++ [i]).toFinset ∪ Finset.Ico (i + 1) (i + 1 + rem) =
          si.toFinset ∪ Finset.Ico i (i + (rem + 1)) := by
        ext x
        simp only [List.toFinset_append, Finset.mem_union, Finset.mem_Ico,
          List.mem_toFinset, List.mem_singleton]
        constructor
        · intro h
          rcases h with (h | h) | h
          · left; exact h
          · right; omega
          · right; omega
        · intro h
          rcases h with h | h
          · left; left; exact h
          · by_cases hx : x = i
            · left; right; exact hx
            · right; omega
      rw [he] at h2
      exact h2

theorem chain_head_weaken {a b : Finset Nat} {l : List (Finset Nat)}
    (hab : a ⊆ b) (h : List.Chain (· ⊆ ·) b l) : List.Chain (· ⊆ ·) a l := by
  cases l with
  | nil => exact List.Chain.nil
  | cons x t =>
    rcases List.chain_cons.1 h with ⟨hbx, ht⟩
    exact List.Chain.cons (hab.trans hbx) ht

theorem chain_trans_glue {b : Finset Nat} :
    ∀ {l₁ : List (Finset Nat)} {a : Finset Nat} {l₂ : List (Finset Nat)},
      List.Chain (· ⊆ ·) a (l₁ ++ [b]) → List.Chain (· ⊆ ·) b l₂ → l₂ ≠ [] →
        List.Chain (· ⊆ ·) a (l₁ ++ l₂) := by
  intro l₁
  induction l₁ with
  | nil =>
    intro a l₂ h1 h2 hne
    rcases List.chain_cons.1 h1 with ⟨hab, _⟩
    rw [List.nil_append]
    exact chain_head_weaken hab h2
  | cons x t ih =>
    intro a l₂ h1 h2 hne
    rcases List.chain_cons.1 h1 with ⟨hax, ht⟩
    exact List.Chain.cons hax (ih ht h2 hne)

theorem chain'_of_chain {a : Finset Nat} {l : List (Finset Nat)}
    (h : List.Chain (· ⊆ ·) a l) : List.Chain' (· ⊆ ·) l := by
  have h2 : List.Chain' (· ⊆ ·) (a :: l) := h
  exact h2.tail

/-- The final Lomuto boundary returned by `partLoop` is between `i` and
`i + rem`. -/
theorem partLoop_le (si : List Nat) (pivot high : Int) :
    ∀ (arr : List Int) (i j : Int) (rem : Nat),
      i ≤ (partLoop si pivot high arr i j rem).2.2 ∧
        (partLoop si pivot high arr i j rem).2.2 ≤ i + rem := by
  intro arr i j rem
  induction rem generalizing arr i j with
  | zero => simp [partLoop]
  | succ rem ih =>
    simp only [partLoop]
    by_cases h : arr.getD j.toNat 0 ≤ pivot
    · simp only [if_pos h]
      have := ih (listSwap arr (i + 1).toNat j.toNat) (i + 1) (j + 1)
      constructor
      · exact le_trans (by omega) this.1
      · have h2 := this.2
        omega
    · simp only [if_neg h]
      have := ih arr i (j + 1)
      constructor
      · exact this.1
      · have h2 := this.2
        omega

theorem partLoop_si (si : List Nat) (pivot high : Int) :
    ∀ (rem : Nat) (arr : List Int) (i j : Int),
      ∀ s ∈ (partLoop si pivot high arr i j rem).1, s.sorted_indices = sortedSet si := by
  intro rem
  induction rem with
  | zero => intro arr i j s hs; simp [partLoop] at hs
  | succ rem ih =>
    intro arr i j s hs
    simp only [partLoop] at hs
    by_cases h : arr.getD j.toNat 0 ≤ pivot
    · rw [if_pos h] at hs
      rcases List.mem_cons.1 hs with rfl | hs
      · rfl
      · rcases List.mem_cons.1 hs with rfl | hs
        · rfl
        · exact ih _ _ _ s hs
    · rw [if_neg h] at hs
      rcases List.mem_cons.1 hs with rfl | hs
      · rfl
      · exact ih _ _ _ s hs

theorem _quick_sort_chain :
    ∀ (fuel : Nat) (arr : List Int) (low high : Int) (si : List Nat), 0 ≤ low →
      List.Chain (· ⊆ ·) si.toFinset
        (((_quick_sort fuel arr low high si).1.map siF) ++
          [(_quick_sort fuel arr low high si).2.2.toFinset]) ∧
      (_quick_sort fuel arr low high si).2.2.toFinset ⊆
        si.toFinset ∪ Finset.Ico low.toNat (high + 1).toNat := by
  intro fuel
  induction fuel with
  | zero =>
    intro arr low high si _
    refine ⟨List.Chain.cons (Finset.Subset.refl _) List.Chain.nil, Finset.subset_union_left⟩
  | succ fuel ih =>
    intro arr low high si hlow
    by_cases hbase : low ≥ high
    · by_cases heq : low = high
      · simp only [_quick_sort, if_pos hbase, if_pos heq, List.map_cons, List.map_nil,
          List.nil_append, siF_state]
        constructor
        · refine List.Chain.cons ?_ (List.Chain.cons (Finset.Subset.refl _) List.Chain.nil)
          intro x hx
          simp only [List.toFinset_append, Finset.mem_union]
          left
          exact hx
        · intro x hx
          simp only [List.toFinset_append, Finset.mem_union, List.mem_toFinset,
            List.mem_singleton, Finset.mem_Ico] at hx ⊢
          rcases hx with hx | hx
          · left; exact hx
          · right; omega
      · simp only [_quick_sort, if_pos hbase, if_neg heq, List.map_nil, List.nil_append]
        exact ⟨List.Chain.cons (Finset.Subset.refl _) List.Chain.nil, Finset.subset_union_left⟩
    · have hlh : low < high := by omega
      have hp := partLoop_le si (arr.getD high.toNat 0) high arr (low - 1) low
        (high - low).toNat
      have hpl : low ≤ (partLoop si (arr.getD high.toNat 0) high arr (low - 1) low
          (high - low).toNat).2.2 + 1 := by omega
      have hph : (partLoop si (arr.getD high.toNat 0) high arr (low - 1) low
          (high - low).toNat).2.2 + 1 ≤ high := by omega
      simp only [_quick_sort, if_neg hbase, List.map_cons, List.map_append, siF_state]
      rw [List.cons_append, List.append_assoc, List.cons_append]
      have hL := ih (listSwap (partLoop si (arr.getD high.toNat 0) high arr (low - 1) low
          (high - low).toNat).2.1
          ((partLoop si (arr.getD high.toNat 0) high arr (low - 1) low
            (high - low).toNat).2.2 + 1).toNat high.toNat)
        low ((partLoop si (arr.getD high.toNat 0) high arr (low - 1) low
          (high - low).toNat).2.2 + 1 - 1)
        (si ++ [((partLoop si (arr.getD high.toNat 0) high arr (low - 1) low
          (high - low).toNat).2.2 + 1).toNat]) hlow
      have hR := ih (_quick_sort fuel (listSwap (partLoop si (arr.getD high.toNat 0) high arr
            (low - 1) low (high - low).toNat).2.1
            ((partLoop si (arr.getD high.toNat 0) high arr (low - 1) low
              (high - low).toNat).2.2 + 1).toNat high.toNat)
          low ((partLoop si (arr.getD high.toNat 0) high arr (low - 1) low
            (high - low).toNat).2.2 + 1 - 1)
          (si ++ [((partLoop si (arr.getD high.toNat 0) high arr (low - 1) low
            (high - low).toNat).2.2 + 1).toNat])).2.1
        ((partLoop si (arr.getD high.toNat 0) high arr (low - 1) low
          (high - low).toNat).2.2 + 1 + 1) high
        (_quick_sort fuel (listSwap (partLoop si (arr.getD high.toNat 0) high arr
            (low - 1) low (high - low).toNat).2.1
            ((partLoop si (arr.getD high.toNat 0) high arr (low - 1) low
              (high - low).toNat).2.2 + 1).toNat high.toNat)
          low ((partLoop si (arr.getD high.toNat 0) high arr (low - 1) low
            (high - low).toNat).2.2 + 1 - 1)
          (si ++ [((partLoop si (arr.getD high.toNat 0) high arr (low - 1) low
            (high - low).toNat).2.2 + 1).toNat])).2.2 (by omega)
      constructor
      · refine List.Chain.cons (Finset.Subset.refl _) ?_
        refine (List.chain_split).2 ⟨?_, ?_⟩
        · apply chain_sub_const
          · intro x hx
            rcases List.mem_map.1 hx with ⟨s, hs, rfl⟩
            rw [siF, partLoop_si si _ _ _ _ _ _ s hs, sortedSet_toFinset]
          · intro x hx
            simp only [List.toFinset_append, Finset.mem_union]
            left
            exact hx
        · rw [List.append_assoc]
          exact chain_trans_glue hL.1 hR.1 (append_singleton_ne_nil _ _)
      · refine Finset.Subset.trans hR.2 ?_
        intro x hx
        rcases Finset.mem_union.1 hx with hx | hx
        · have hx2 := hL.2 hx
          rcases Finset.mem_union.1 hx2 with hx2 | hx2
          · simp only [List.toFinset_append, Finset.mem_union, List.mem_toFinset,
              List.mem_singleton] at hx2
            rcases hx2 with hx2 | hx2
            · exact Finset.mem_union_left _ (List.mem_toFinset.2 hx2)
            · refine Finset.mem_union_right _ ?_
              rw [Finset.mem_Ico]
              omega
          · refine Finset.mem_union_right _ ?_
            rw [Finset.mem_Ico] at hx2 ⊢
            omega
        · refine Finset.mem_union_right _ ?_
          rw [Finset.mem_Ico] at hx ⊢
          omega

theorem mergeWrite_si {α : Type} (le : α → α → Bool) (si : List Nat) (start mid endd : Nat) :
    ∀ (fuel : Nat) (arr ls rs : List α) (i j k : Nat),
      ∀ s ∈ (mergeWrite le si start mid endd fuel arr ls rs i j k).1,
        s.sorted_indices = sortedSet si := by
  intro fuel
  induction fuel with
  | zero => intro arr ls rs i j k s hs; simp [mergeWrite] at hs
  | succ fuel ih =>
    intro arr ls rs i j k s hs
    match ls, rs with
    | [], [] => simp [mergeWrite] at hs
    | [], b :: rs =>
      simp only [mergeWrite] at hs
      rcases List.mem_cons.1 hs with rfl | hs
      · rfl
      · exact ih _ _ _ _ _ _ s hs
    | a :: ls, [] =>
      simp only [mergeWrite] at hs
      rcases List.mem_cons.1 hs with rfl | hs
      · rfl
      · exact ih _ _ _ _ _ _ s hs
    | a :: ls, b :: rs =>
      simp only [mergeWrite] at hs
      by_cases h : le a b
      · rw [if_pos h] at hs
        rcases List.mem_cons.1 hs with rfl | hs
        · rfl
        · rcases List.mem_cons.1 hs with rfl | hs
          · rfl
          · exact ih _ _ _ _ _ _ s hs
      · rw [if_neg h] at hs
        rcases List.mem_cons.1 hs with rfl | hs
        · rfl
        · rcases List.mem_cons.1 hs with rfl | hs
          · rfl
          · exact ih _ _ _ _ _ _ s hs

theorem _merge_chain {α : Type} (le : α → α → Bool) (arr : List α) (start mid endd : Nat)
    (si : List Nat) :
    List.Chain (· ⊆ ·) si.toFinset
      (((_merge le arr start mid endd si).1.map siF) ++
        [(_merge le arr start mid endd si).2.2.toFinset]) ∧
    (_merge le arr start mid endd si).2.2.toFinset ⊆
      si.toFinset ∪ Finset.Icc start endd := by
  constructor
  · simp only [_merge, List.map_append, List.map_cons, List.map_nil, siF_state]
    rw [List.append_assoc]
    refine (List.chain_split).2 ⟨?_, ?_⟩
    · apply chain_sub_const
      · intro x hx
        rcases List.mem_map.1 hx with ⟨s, hs, rfl⟩
        rw [siF, mergeWrite_si le si start mid endd _ _ _ _ _ _ _ s hs, sortedSet_toFinset]
      · intro x hx
        simp only [List.toFinset_append, Finset.mem_union]
        left
        exact hx
    · exact List.Chain.cons (Finset.Subset.refl _) List.Chain.nil
  · intro x hx
    simp only [_merge, List.toFinset_append, Finset.mem_union, List.mem_toFinset,
      List.mem_range'] at hx
    rcases hx with hx | ⟨i2, hi2, rfl⟩
    · exact Finset.mem_union_left _ (List.mem_toFinset.2 hx)
    · refine Finset.mem_union_right _ ?_
      rw [Finset.mem_Icc]
      omega

theorem _merge_sort_chain {α : Type} (le : α → α → Bool) :
    ∀ (fuel : Nat) (arr : List α) (start endd : Nat) (si : List Nat), start ≤ endd →
      List.Chain (· ⊆ ·) si.toFinset
        (((_merge_sort le fuel arr start endd si).1.map siF) ++
          [(_merge_sort le fuel arr start endd si).2.2.toFinset]) ∧
      (_merge_sort le fuel arr start endd si).2.2.toFinset ⊆
        si.toFinset ∪ Finset.Icc start endd := by
  intro fuel
  induction fuel with
  | zero =>
    intro arr start endd si _
    exact ⟨List.Chain.cons (Finset.Subset.refl _) List.Chain.nil, Finset.subset_union_left⟩
  | succ fuel ih =>
    intro arr start endd si hse
    by_cases hbase : start ≥ endd
    · simp only [_merge_sort, if_pos hbase, List.map_cons, List.map_nil, List.nil_append,
        siF_state]
      constructor
      · refine List.Chain.cons ?_ (List.Chain.cons (Finset.Subset.refl _) List.Chain.nil)
        intro x hx
        simp only [List.toFinset_append, Finset.mem_union]
        left
        exact hx
      · intro x hx
        simp only [List.toFinset_append, Finset.mem_union, List.mem_toFinset,
          List.mem_singleton] at hx
        rcases hx with hx | hx
        · exact Finset.mem_union_left _ (List.mem_toFinset.2 hx)
        · refine Finset.mem_union_right _ ?_
          rw [Finset.mem_Icc]
          omega
    · have hlt : start < endd := by omega
      have hm1 : start ≤ (start + endd) / 2 := by omega
      have hm2 : (start + endd) / 2 + 1 ≤ endd := by omega
      have hL := ih arr start ((start + endd) / 2) si hm1
      have hR := ih (_merge_sort le fuel arr start ((start + endd) / 2) si).2.1
        ((start + endd) / 2 + 1) endd
        (_merge_sort le fuel arr start ((start + endd) / 2) si).2.2 hm2
      have hM := _merge_chain le
        (_merge_sort le fuel (_merge_sort le fuel arr start ((start + endd) / 2) si).2.1
          ((start + endd) / 2 + 1) endd
          (_merge_sort le fuel arr start ((start + endd) / 2) si).2.2).2.1
        start ((start + endd) / 2) endd
        (_merge_sort le fuel (_merge_sort le fuel arr start ((start + endd) / 2) si).2.1
          ((start + endd) / 2 + 1) endd
          (_merge_sort le fuel arr start ((start + endd) / 2) si).2.2).2.2
      constructor
      · simp only [_merge_sort, if_neg hbase, List.map_append]
        rw [List.append_assoc, List.append_assoc]
        refine chain_trans_glue hL.1 ?_ ?_
        · exact chain_trans_glue hR.1 hM.1 (append_singleton_ne_nil _ _)
        · intro hc
          rcases List.append_eq_nil.1 hc with ⟨_, hc2⟩
          rcases List.append_eq_nil.1 hc2 with ⟨_, hc3⟩
          simp at hc3
      · simp only [_merge_sort, if_neg hbase]
        refine Finset.Subset.trans hM.2 ?_
        intro x hx
        rcases Finset.mem_union.1 hx with hx | hx
        · have hx2 := hR.2 hx
          rcases Finset.mem_union.1 hx2 with hx2 | hx2
          · have hx3 := hL.2 hx2
            rcases Finset.mem_union.1 hx3 with hx3 | hx3
            · exact Finset.mem_union_left _ hx3
            · refine Finset.mem_union_right _ ?_
              rw [Finset.mem_Icc] at hx3 ⊢
              omega
          · refine Finset.mem_union_right _ ?_
            rw [Finset.mem_Icc] at hx2 ⊢
            omega
        · refine Finset.mem_union_right _ ?_
          rw [Finset.mem_Icc] at hx ⊢
          omega

theorem engine_chain_conclusions {β : Type} (body : List (SortState β)) (n : Nat)
    (fin : SortState β) (hf : siF fin = Finset.range n)
    (hchain : List.Chain (· ⊆ ·) ∅ ((body.map siF) ++ [Finset.range n])) :
    List.Chain' (fun s t => siF s ⊆ siF t) (body ++ [fin]) ∧
    List.Chain' (fun s t => (siF s).card ≤ (siF t).card) (body ++ [fin]) ∧
    (body ++ [fin]).getLast? = some fin := by
  have hmap : (body ++ [fin]).map siF = (body.map siF) ++ [Finset.range n] := by
    rw [List.map_append, List.map_cons, List.map_nil, hf]
  have h1 : List.Chain' (· ⊆ ·) ((body ++ [fin]).map siF) := by
    rw [hmap]
    exact chain'_of_chain hchain
  have h2 := (List.chain'_map siF).1 h1
  refine ⟨h2, ?_, List.getLast?_concat body⟩
  exact h2.imp (fun a b hab => Finset.card_le_card hab)

/-- C3 (amended): for every engine and input, the finalized-index set is
non-decreasing (under inclusion, hence in size) from each snapshot to the
next, and the last snapshot's finalized indices are the full index range
`0..n-1`; full coverage can, however, already occur before the final
snapshot (see the counterexample theorem). -/
theorem C3_finalized_monotonicity (data : List Int) :
    (List.Chain' (fun s t => siF s ⊆ siF t) (bubble_sort data) ∧
      List.Chain' (fun s t => (siF s).card ≤ (siF t).card) (bubble_sort data) ∧
      (∃ fin, (bubble_sort data).getLast? = some fin ∧
        fin.sorted_indices = List.range data.length)) ∧
    (List.Chain' (fun s t => siF s ⊆ siF t) (insertion_sort data) ∧
      List.Chain' (fun s t => (siF s).card ≤ (siF t).card) (insertion_sort data) ∧
      (∃ fin, (insertion_sort data).getLast? = some fin ∧
        fin.sorted_indices = List.range data.length)) ∧
    (List.Chain' (fun s t => siF s ⊆ siF t) (selection_sort data) ∧
      List.Chain' (fun s t => (siF s).card ≤ (siF t).card) (selection_sort data) ∧
      (∃ fin, (selection_sort data).getLast? = some fin ∧
        fin.sorted_indices = List.range data.length)) ∧
    (List.Chain' (fun s t => siF s ⊆ siF t) (quick_sort data) ∧
      List.Chain' (fun s t => (siF s).card ≤ (siF t).card) (quick_sort data) ∧
      (∃ fin, (quick_sort data).getLast? = some fin ∧
        fin.sorted_indices = List.range data.length)) ∧
    (List.Chain' (fun s t => siF s ⊆ siF t) (merge_sort intLe data) ∧
      List.Chain' (fun s t => (siF s).card ≤ (siF t).card) (merge_sort intLe data) ∧
      (∃ fin, (merge_sort intLe data).getLast? = some fin ∧
        fin.sorted_indices = List.range data.length)) := by
  have hfinsi : ∀ (a : List Int), (_state Int a [] (List.range data.length) "").sorted_indices
      = List.range data.length := by
    intro a
    rw [state_sorted_indices, sortedSet_range]
  refine ⟨?_, ?_, ?_, ?_, ?_⟩
  · have hch := bubbleOuter_chain data.length data.length data [] 0 (by omega)
    rw [List.toFinset_nil, Finset.empty_union] at hch
    have hc := engine_chain_conclusions (bubbleOuter data [] data.length 0 data.length).1
      data.length
      (_state Int (bubbleOuter data [] data.length 0 data.length).2 []
        (List.range data.length) "Bubble sort complete")
      (by rw [siF_state, toFinset_list_range]) hch
    exact ⟨hc.1, hc.2.1, ⟨_, hc.2.2, by rw [state_sorted_indices, sortedSet_range]⟩⟩
  · have hch := insOuter_chain (data.length - 1) data [] 1
    rw [List.toFinset_nil, Finset.empty_union] at hch
    by_cases hn : data.length = 0
    · have hv : 1 + (data.length - 1) = data.length ∨ data.length = 0 := by omega
      have hrem : data.length - 1 = 0 := by omega
      rw [hrem] at hch
      have hrun : (insOuter data [] 1 0).1 = [] := rfl
      have hc := engine_chain_conclusions (insOuter data [] 1 (data.length - 1)).1
        data.length
        (_state Int (insOuter data [] 1 (data.length - 1)).2 []
          (List.range data.length) "Insertion sort complete")
        (by rw [siF_state, toFinset_list_range])
        (by
          rw [hrem, hrun, List.map_nil, List.nil_append, hn]
          exact List.Chain.cons (Finset.Subset.refl _) List.Chain.nil)
      exact ⟨hc.1, hc.2.1, ⟨_, hc.2.2, by rw [state_sorted_indices, sortedSet_range]⟩⟩
    · have he : 1 + (data.length - 1) = data.length := by omega
      rw [he] at hch
      have hc := engine_chain_conclusions (insOuter data [] 1 (data.length - 1)).1
        data.length
        (_state Int (insOuter data [] 1 (data.length - 1)).2 []
          (List.range data.length) "Insertion sort complete")
        (by rw [siF_state, toFinset_list_range]) hch
      exact ⟨hc.1, hc.2.1, ⟨_, hc.2.2, by rw [state_sorted_indices, sortedSet_range]⟩⟩
  · have hch := selOuter_chain data.length data.length data [] 0
    rw [List.toFinset_nil, Finset.empty_union] at hch
    have hico : Finset.Ico 0 (0 + data.length) = Finset.range data.length := by
      ext x
      simp only [Finset.mem_Ico, Finset.mem_range]
      omega
    rw [hico] at hch
    have hc := engine_chain_conclusions (selOuter data [] data.length 0 data.length).1
      data.length
      (_state Int (selOuter data [] data.length 0 data.length).2 []
        (List.range data.length) "Selection sort complete")
      (by rw [siF_state, toFinset_list_range]) hch
    exact ⟨hc.1, hc.2.1, ⟨_, hc.2.2, by rw [state_sorted_indices, sortedSet_range]⟩⟩
  · have hq := _quick_sort_chain (data.length + 1) data 0 ((data.length : Int) - 1) []
      (by omega)
    rw [List.toFinset_nil, Finset.empty_union] at hq
    have hico : Finset.Ico (0 : Int).toNat (((data.length : Int) - 1) + 1).toNat =
        Finset.range data.length := by
      ext x
      simp only [Finset.mem_Ico, Finset.mem_range]
      omega
    rw [hico] at hq
    have hall := chain_sub_all hq.1
    have hrepl := chain_snoc_replace hq.1
      (fun x hx => (hall.2 x hx).trans hq.2) (Finset.empty_subset _)
    have hc := engine_chain_conclusions
      (_quick_sort (data.length + 1) data 0 ((data.length : Int) - 1) []).1
      data.length
      (_state Int (_quick_sort (data.length + 1) data 0 ((data.length : Int) - 1) []).2.1 []
        (List.range data.length) "Quick sort complete")
      (by rw [siF_state, toFinset_list_range]) hrepl
    exact ⟨hc.1, hc.2.1, ⟨_, hc.2.2, by rw [state_sorted_indices, sortedSet_range]⟩⟩
  · by_cases hemp : data.isEmpty
    · have hn : data.length = 0 := by
        rw [List.isEmpty_iff] at hemp
        rw [hemp]
        rfl
      have hrun : merge_sort intLe data =
          [] ++ [_state Int data [] (List.range data.length) "Merge sort complete"] := by
        simp only [merge_sort, if_pos hemp]
      rw [hrun]
      have hc := engine_chain_conclusions []
        data.length
        (_state Int data [] (List.range data.length) "Merge sort complete")
        (by rw [siF_state, toFinset_list_range])
        (by
          rw [List.map_nil, List.nil_append]
          exact List.Chain.cons (Finset.empty_subset _) List.Chain.nil)
      exact ⟨hc.1, hc.2.1, ⟨_, hc.2.2, by rw [state_sorted_indices, sortedSet_range]⟩⟩
    · have hn : 1 ≤ data.length := by
        cases data with
        | nil => simp at hemp
        | cons a t => simp
      have hm := _merge_sort_chain intLe data.length data 0 (data.length - 1) []
        (by omega)
      rw [List.toFinset_nil, Finset.empty_union] at hm
      have hicc : Finset.Icc 0 (data.length - 1) = Finset.range data.length := by
        ext x
        simp only [Finset.mem_Icc, Finset.mem_range]
        omega
      rw [hicc] at hm
      have hall := chain_sub_all hm.1
      have hrepl := chain_snoc_replace hm.1
        (fun x hx => (hall.2 x hx).trans hm.2) (Finset.empty_subset _)
      have hrun : merge_sort intLe data =
          (_merge_sort intLe data.length data 0 (data.length - 1) []).1 ++
            [_state Int (_merge_sort intLe data.length data 0 (data.length - 1) []).2.1 []
              (List.range data.length) "Merge sort complete"] := by
        simp only [merge_sort, if_neg hemp]
      rw [hrun]
      have hc := engine_chain_conclusions
        (_merge_sort intLe data.length data 0 (data.length - 1) []).1
        data.length
        (_state Int (_merge_sort intLe data.length data 0 (data.length - 1) []).2.1 []
          (List.range data.length) "Merge sort complete")
        (by rw [siF_state, toFinset_list_range]) hrepl
      exact ⟨hc.1, hc.2.1, ⟨_, hc.2.2, by rw [state_sorted_indices, sortedSet_range]⟩⟩

/-! ## Description lemmas: no intermediate snapshot carries the completion
description of its engine -/

theorem str_prefix_ne (p t : String) (h : p.data ≠ t.data.take p.data.length) :
    ∀ x : String, p ++ x ≠ t := by
  intro x he
  apply h
  have hd : p.data ++ x.data = t.data := by rw [← String.data_append, he]
  rw [← hd, List.take_left]

theorem bubbleInner_desc (si : List Nat) :
    ∀ (rem : Nat) (arr : List Int) (j : Nat),
      ∀ s ∈ (bubbleInner arr si j rem).1, s.description ≠ "Bubble sort complete" := by
  intro rem
  induction rem with
  | zero => intro arr j s hs; simp [bubbleInner] at hs
  | succ rem ih =>
    intro arr j s hs
    simp only [bubbleInner] at hs
    by_cases h : arr.getD j 0 > arr.getD (j + 1) 0
    · rw [if_pos h] at hs
      rcases List.mem_cons.1 hs with rfl | hs
      · exact str_prefix_ne "Comparing indices " _ (by decide) _
      · rcases List.mem_cons.1 hs with rfl | hs
        · exact str_prefix_ne "Swapped indices " _ (by decide) _
        · exact ih _ _ s hs
    · rw [if_neg h] at hs
      rcases List.mem_cons.1 hs with rfl | hs
      · exact str_prefix_ne "Comparing indices " _ (by decide) _
      · exact ih _ _ s hs

theorem bubbleOuter_desc (n : Nat) :
    ∀ (rem : Nat) (arr : List Int) (si : List Nat) (i : Nat),
      ∀ s ∈ (bubbleOuter arr si n i rem).1, s.description ≠ "Bubble sort complete" := by
  intro rem
  induction rem with
  | zero => intro arr si i s hs; simp [bubbleOuter] at hs
  | succ rem ih =>
    intro arr si i s hs
    simp only [bubbleOuter] at hs
    rcases List.mem_append.1 hs with hs | hs
    · exact bubbleInner_desc si _ _ _ s hs
    · rcases List.mem_cons.1 hs with rfl | hs
      · exact str_prefix_ne "Position " _ (by decide) _
      · exact ih _ _ _ s hs

theorem insInner_desc (si : List Nat) (key : Int) :
    ∀ (j1 : Nat) (arr : List Int),
      ∀ s ∈ (insInner si key arr j1).1, s.description ≠ "Insertion sort complete" := by
  intro j1
  induction j1 with
  | zero => intro arr s hs; simp [insInner] at hs
  | succ j ih =>
    intro arr s hs
    simp only [insInner] at hs
    by_cases h : arr.getD j 0 > key
    · rw [if_pos h] at hs
      rcases List.mem_cons.1 hs with rfl | hs
      · exact str_prefix_ne "Comparing key with index " _ (by decide) _
      · rcases List.mem_cons.1 hs with rfl | hs
        · exact str_prefix_ne "Shifting value at index " _ (by decide) _
        · exact ih _ s hs
    · rw [if_neg h] at hs
      simp at hs

theorem insOuter_desc :
    ∀ (rem : Nat) (arr : List Int) (si : List Nat) (i : Nat),
      ∀ s ∈ (insOuter arr si i rem).1, s.description ≠ "Insertion sort complete" := by
  intro rem
  induction rem with
  | zero => intro arr si i s hs; simp [insOuter] at hs
  | succ rem ih =>
    intro arr si i s hs
    simp only [insOuter] at hs
    rcases List.mem_cons.1 hs with rfl | hs
    · exact str_prefix_ne "Selecting key at index " _ (by decide) _
    · rcases List.mem_append.1 hs with hs | hs
      · exact insInner_desc si _ _ _ s hs
      · rcases List.mem_cons.1 hs with rfl | hs
        · exact str_prefix_ne "Inserted key at index " _ (by decide) _
        · exact ih _ _ _ s hs

theorem selInner_desc (arr : List Int) (si : List Nat) (i : Nat) :
    ∀ (rem : Nat) (min_idx j : Nat),
      ∀ s ∈ (selInner arr si i min_idx j rem).1,
        s.description ≠ "Selection sort complete" := by
  intro rem
  induction rem with
  | zero => intro min_idx j s hs; simp [selInner] at hs
  | succ rem ih =>
    intro min_idx j s hs
    simp only [selInner] at hs
    by_cases h : arr.getD j 0 < arr.getD min_idx 0
    · rw [if_pos h] at hs
      rcases List.mem_cons.1 hs with rfl | hs
      · exact str_prefix_ne "Finding minimum from index " _ (by decide) _
      · rcases List.mem_cons.1 hs with rfl | hs
        · exact str_prefix_ne "New minimum at index " _ (by decide) _
        · exact ih _ _ s hs
    · rw [if_neg h] at hs
      rcases List.mem_cons.1 hs with rfl | hs
      · exact str_prefix_ne "Finding minimum from index " _ (by decide) _
      · exact ih _ _ s hs

theorem selOuter_desc (n : Nat) :
    ∀ (rem : Nat) (arr : List Int) (si : List Nat) (i : Nat),
      ∀ s ∈ (selOuter arr si n i rem).1, s.description ≠ "Selection sort complete" := by
  intro rem
  induction rem with
  | zero => intro arr si i s hs; simp [selOuter] at hs
  | succ rem ih =>
    intro arr si i s hs
    simp only [selOuter] at hs
    rcases List.mem_append.1 hs with hs | hs
    · exact selInner_desc arr si i _ _ _ s hs
    · rcases List.mem_cons.1 hs with rfl | hs
      · exact str_prefix_ne "Swapped minimum into position " _ (by decide) _
      · exact ih _ _ _ s hs

theorem partLoop_desc (si : List Nat) (pivot high : Int) :
    ∀ (rem : Nat) (arr : List Int) (i j : Int),
      ∀ s ∈ (partLoop si pivot high arr i j rem).1,
        s.description ≠ "Quick sort complete" := by
  intro rem
  induction rem with
  | zero => intro arr i j s hs; simp [partLoop] at hs
  | succ rem ih =>
    intro arr i j s hs
    simp only [partLoop] at hs
    by_cases h : arr.getD j.toNat 0 ≤ pivot
    · rw [if_pos h] at hs
      rcases List.mem_cons.1 hs with rfl | hs
      · exact str_prefix_ne "Comparing index " _ (by decide) _
      · rcases List.mem_cons.1 hs with rfl | hs
        · exact str_prefix_ne "Swapped indices " _ (by decide) _
        · exact ih _ _ _ s hs
    · rw [if_neg h] at hs
      rcases List.mem_cons.1 hs with rfl | hs
      · exact str_prefix_ne "Comparing index " _ (by decide) _
      · exact ih _ _ _ s hs

theorem _quick_sort_desc :
    ∀ (fuel : Nat) (arr : List Int) (low high : Int) (si : List Nat),
      ∀ s ∈ (_quick_sort fuel arr low high si).1,
        s.description ≠ "Quick sort complete" := by
  intro fuel
  induction fuel with
  | zero => intro arr low high si s hs; simp [_quick_sort] at hs
  | succ fuel ih =>
    intro arr low high si s hs
    simp only [_quick_sort] at hs
    by_cases hbase : low ≥ high
    · rw [if_pos hbase] at hs
      by_cases heq : low = high
      · rw [if_pos heq] at hs
        rcases List.mem_cons.1 hs with rfl | hs
        · exact str_prefix_ne "Index " _ (by decide) _
        · simp at hs
      · rw [if_neg heq] at hs
        simp at hs
    · rw [if_neg hbase] at hs
      rcases List.mem_cons.1 hs with rfl | hs
      · exact str_prefix_ne "Pivot chosen at index " _ (by decide) _
      · rcases List.mem_append.1 hs with hs | hs
        · exact partLoop_desc si _ _ _ _ _ _ s hs
        · rcases List.mem_cons.1 hs with rfl | hs
          · exact str_prefix_ne "Pivot settled at index " _ (by decide) _
          · rcases List.mem_append.1 hs with hs | hs
            · exact ih _ _ _ _ s hs
            · exact ih _ _ _ _ s hs

theorem mergeWrite_desc {α : Type} (le : α → α → Bool) (si : List Nat)
    (start mid endd : Nat) :
    ∀ (fuel : Nat) (arr ls rs : List α) (i j k : Nat),
      ∀ s ∈ (mergeWrite le si start mid endd fuel arr ls rs i j k).1,
        s.description ≠ "Merge sort complete" := by
  intro fuel
  induction fuel with
  | zero => intro arr ls rs i j k s hs; simp [mergeWrite] at hs
  | succ fuel ih =>
    intro arr ls rs i j k s hs
    match ls, rs with
    | [], [] => simp [mergeWrite] at hs
    | [], b :: rs =>
      simp only [mergeWrite] at hs
      rcases List.mem_cons.1 hs with rfl | hs
      · exact str_prefix_ne "Copying remaining right element to index " _ (by decide) _
      · exact ih _ _ _ _ _ _ s hs
    | a :: ls, [] =>
      simp only [mergeWrite] at hs
      rcases List.mem_cons.1 hs with rfl | hs
      · exact str_prefix_ne "Copying remaining left element to index " _ (by decide) _
      · exact ih _ _ _ _ _ _ s hs
    | a :: ls, b :: rs =>
      simp only [mergeWrite] at hs
      by_cases h : le a b
      · rw [if_pos h] at hs
        rcases List.mem_cons.1 hs with rfl | hs
        · exact str_prefix_ne "Merging indices " _ (by decide) _
        · rcases List.mem_cons.1 hs with rfl | hs
          · exact str_prefix_ne "Placed value at index " _ (by decide) _
          · exact ih _ _ _ _ _ _ s hs
      · rw [if_neg h] at hs
        rcases List.mem_cons.1 hs with rfl | hs
        · exact str_prefix_ne "Merging indices " _ (by decide) _
        · rcases List.mem_cons.1 hs with rfl | hs
          · exact str_prefix_ne "Placed value at index " _ (by decide) _
          · exact ih _ _ _ _ _ _ s hs

theorem _merge_desc {α : Type} (le : α → α → Bool) (arr : List α) (start mid endd : Nat)
    (si : List Nat) :
    ∀ s ∈ (_merge le arr start mid endd si).1, s.description ≠ "Merge sort complete" := by
  intro s hs
  simp only [_merge] at hs
  rcases List.mem_append.1 hs with hs | hs
  · exact mergeWrite_desc le si start mid endd _ _ _ _ _ _ _ s hs
  · rcases List.mem_cons.1 hs with rfl | hs
    · exact str_prefix_ne "Segment " _ (by decide) _
    · simp at hs

theorem _merge_sort_desc {α : Type} (le : α → α → Bool) :
    ∀ (fuel : Nat) (arr : List α) (start endd : Nat) (si : List Nat),
      ∀ s ∈ (_merge_sort le fuel arr start endd si).1,
        s.description ≠ "Merge sort complete" := by
  intro fuel
  induction fuel with
  | zero => intro arr start endd si s hs; simp [_merge_sort] at hs
  | succ fuel ih =>
    intro arr start endd si s hs
    simp only [_merge_sort] at hs
    by_cases hbase : start ≥ endd
    · rw [if_pos hbase] at hs
      rcases List.mem_cons.1 hs with rfl | hs
      · exact str_prefix_ne "Index " _ (by decide) _
      · simp at hs
    · rw [if_neg hbase] at hs
      rcases List.mem_append.1 hs with hs | hs
      · exact ih _ _ _ _ s hs
      · rcases List.mem_append.1 hs with hs | hs
        · exact ih _ _ _ _ s hs
        · exact _merge_desc le _ _ _ _ _ s hs

/-- C9: every engine's run is nonempty, its last snapshot carries the
engine-naming completion description and the full finalized range, and no
earlier snapshot equals the last one or carries its description — so
end-of-run is detectable by description or by exhaustion. -/
theorem C9_completion_snapshot (data : List Int) :
    (∃ fin, (bubble_sort data).getLast? = some fin ∧
      fin.description = "Bubble sort complete" ∧
      fin.sorted_indices = List.range data.length ∧
      ∀ s ∈ (bubble_sort data).dropLast,
        s.description ≠ fin.description ∧ s ≠ fin) ∧
    (∃ fin, (insertion_sort data).getLast? = some fin ∧
      fin.description = "Insertion sort complete" ∧
      fin.sorted_indices = List.range data.length ∧
      ∀ s ∈ (insertion_sort data).dropLast,
        s.description ≠ fin.description ∧ s ≠ fin) ∧
    (∃ fin, (selection_sort data).getLast? = some fin ∧
      fin.description = "Selection sort complete" ∧
      fin.sorted_indices = List.range data.length ∧
      ∀ s ∈ (selection_sort data).dropLast,
        s.description ≠ fin.description ∧ s ≠ fin) ∧
    (∃ fin, (quick_sort data).getLast? = some fin ∧
      fin.description = "Quick sort complete" ∧
      fin.sorted_indices = List.range data.length ∧
      ∀ s ∈ (quick_sort data).dropLast,
        s.description ≠ fin.description ∧ s ≠ fin) ∧
    (∃ fin, (merge_sort intLe data).getLast? = some fin ∧
      fin.description = "Merge sort complete" ∧
      fin.sorted_indices = List.range data.length ∧
      ∀ s ∈ (merge_sort intLe data).dropLast,
        s.description ≠ fin.description ∧ s ≠ fin) := by
  refine ⟨?_, ?_, ?_, ?_, ?_⟩
  · have hrun : bubble_sort data = (bubbleOuter data [] data.length 0 data.length).1 ++
        [_state Int (bubbleOuter data [] data.length 0 data.length).2 []
          (List.range data.length) "Bubble sort complete"] := rfl
    rw [hrun]
    refine ⟨_, List.getLast?_concat _, rfl, ?_, ?_⟩
    · rw [state_sorted_indices, sortedSet_range]
    · intro s hs
      rw [List.dropLast_concat] at hs
      have hd := bubbleOuter_desc data.length data.length data [] 0 s hs
      refine ⟨hd, ?_⟩
      intro he
      apply hd
      rw [he]
      exact state_description _ _ _ _
  · have hrun : insertion_sort data = (insOuter data [] 1 (data.length - 1)).1 ++
        [_state Int (insOuter data [] 1 (data.length - 1)).2 []
          (List.range data.length) "Insertion sort complete"] := rfl
    rw [hrun]
    refine ⟨_, List.getLast?_concat _, rfl, ?_, ?_⟩
    · rw [state_sorted_indices, sortedSet_range]
    · intro s hs
      rw [List.dropLast_concat] at hs
      have hd := insOuter_desc (data.length - 1) data [] 1 s hs
      refine ⟨hd, ?_⟩
      intro he
      apply hd
      rw [he]
      exact state_description _ _ _ _
  · have hrun : selection_sort data = (selOuter data [] data.length 0 data.length).1 ++
        [_state Int (selOuter data [] data.length 0 data.length).2 []
          (List.range data.length) "Selection sort complete"] := rfl
    rw [hrun]
    refine ⟨_, List.getLast?_concat _, rfl, ?_, ?_⟩
    · rw [state_sorted_indices, sortedSet_range]
    · intro s hs
      rw [List.dropLast_concat] at hs
      have hd := selOuter_desc data.length data.length data [] 0 s hs
      refine ⟨hd, ?_⟩
      intro he
      apply hd
      rw [he]
      exact state_description _ _ _ _
  · have hrun : quick_sort data =
        (_quick_sort (data.length + 1) data 0 ((data.length : Int) - 1) []).1 ++
          [_state Int (_quick_sort (data.length + 1) data 0 ((data.length : Int) - 1) []).2.1
            [] (List.range data.length) "Quick sort complete"] := rfl
    rw [hrun]
    refine ⟨_, List.getLast?_concat _, rfl, ?_, ?_⟩
    · rw [state_sorted_indices, sortedSet_range]
    · intro s hs
      rw [List.dropLast_concat] at hs
      have hd := _quick_sort_desc (data.length + 1) data 0 ((data.length : Int) - 1) [] s hs
      refine ⟨hd, ?_⟩
      intro he
      apply hd
      rw [he]
      exact state_description _ _ _ _
  · by_cases hemp : data.isEmpty
    · have hrun : merge_sort intLe data =
          [] ++ [_state Int data [] (List.range data.length) "Merge sort complete"] := by
        simp only [merge_sort, if_pos hemp]
      rw [hrun]
      refine ⟨_, List.getLast?_concat _, rfl, ?_, ?_⟩
      · rw [state_sorted_indices, sortedSet_range]
      · intro s hs
        rw [List.dropLast_concat] at hs
        simp at hs
    · have hrun : merge_sort intLe data =
          (_merge_sort intLe data.length data 0 (data.length - 1) []).1 ++
            [_state Int (_merge_sort intLe data.length data 0 (data.length - 1) []).2.1 []
              (List.range data.length) "Merge sort complete"] := by
        simp only [merge_sort, if_neg hemp]
      rw [hrun]
      refine ⟨_, List.getLast?_concat _, rfl, ?_, ?_⟩
      · rw [state_sorted_indices, sortedSet_range]
      · intro s hs
        rw [List.dropLast_concat] at hs
        have hd := _merge_sort_desc intLe data.length data 0 (data.length - 1) [] s hs
        refine ⟨hd, ?_⟩
        intro he
        apply hd
        rw [he]
        exact state_description _ _ _ _

/-! ## Well-formedness: array lengths and highlight-key bounds -/

theorem bubbleInner_wf (si : List Nat) :
    ∀ (rem : Nat) (arr : List Int) (j : Nat),
      (bubbleInner arr si j rem).2.length = arr.length ∧
      ∀ s ∈ (bubbleInner arr si j rem).1, s.array.length = arr.length ∧
        ∀ p ∈ s.highlights, p.1 ≤ j + rem := by
  intro rem
  induction rem with
  | zero => intro arr j; refine ⟨rfl, ?_⟩; intro s hs; simp [bubbleInner] at hs
  | succ rem ih =>
    intro arr j
    simp only [bubbleInner]
    by_cases h : arr.getD j 0 > arr.getD (j + 1) 0
    · simp only [if_pos h]
      have hlen := length_listSwap arr j (j + 1)
      have hi := ih (listSwap arr j (j + 1)) (j + 1)
      refine ⟨by rw [hi.1, hlen], ?_⟩
      intro s hs
      rcases List.mem_cons.1 hs with rfl | hs
      · refine ⟨rfl, ?_⟩
        intro p hp
        have := mem_dictOfPairs p _ hp
        simp only [List.map_cons, List.map_nil, List.mem_cons, List.mem_singleton] at this
        rcases this with h1 | h1 | h1
        · omega
        · omega
        · simp at h1
      · rcases List.mem_cons.1 hs with rfl | hs
        · refine ⟨by rw [state_array, hlen], ?_⟩
          intro p hp
          have := mem_dictOfPairs p _ hp
          simp only [List.map_cons, List.map_nil, List.mem_cons, List.mem_singleton] at this
          rcases this with h1 | h1 | h1
          · omega
          · omega
          · simp at h1
        · have h2 := (hi.2 s hs)
          refine ⟨by rw [h2.1, hlen], ?_⟩
          intro p hp
          have := h2.2 p hp
          omega
    · simp only [if_neg h]
      have hi := ih arr (j + 1)
      refine ⟨hi.1, ?_⟩
      intro s hs
      rcases List.mem_cons.1 hs with rfl | hs
      · refine ⟨rfl, ?_⟩
        intro p hp
        have := mem_dictOfPairs p _ hp
        simp only [List.map_cons, List.map_nil, List.mem_cons, List.mem_singleton] at this
        rcases this with h1 | h1 | h1
        · omega
        · omega
        · simp at h1
      · have h2 := (hi.2 s hs)
        refine ⟨h2.1, ?_⟩
        intro p hp
        have := h2.2 p hp
        omega

theorem bubbleOuter_wf (n : Nat) :
    ∀ (rem : Nat) (arr : List Int) (si : List Nat) (i : Nat), i + rem = n →
      (bubbleOuter arr si n i rem).2.length = arr.length ∧
      ∀ s ∈ (bubbleOuter arr si n i rem).1, s.array.length = arr.length ∧
        ∀ p ∈ s.highlights, p.1 < n := by
  intro rem
  induction rem with
  | zero => intro arr si i _; refine ⟨rfl, ?_⟩; intro s hs; simp [bubbleOuter] at hs
  | succ rem ih =>
    intro arr si i hn
    have hm : n - i - 1 = rem := by omega
    simp only [bubbleOuter, hm]
    have hInr := bubbleInner_wf si rem arr 0
    have hOut := ih (bubbleInner arr si 0 rem).2 (si ++ [rem]) (i + 1) (by omega)
    refine ⟨by rw [hOut.1, hInr.1], ?_⟩
    intro s hs
    rcases List.mem_append.1 hs with hs | hs
    · have h2 := hInr.2 s hs
      refine ⟨h2.1, ?_⟩
      intro p hp
      have := h2.2 p hp
      omega
    · rcases List.mem_cons.1 hs with rfl | hs
      · refine ⟨by rw [state_array, hInr.1], ?_⟩
        intro p hp
        have := mem_dictOfPairs p _ hp
        simp only [List.map_cons, List.map_nil, List.mem_cons, List.mem_singleton] at this
        rcases this with h1 | h1
        · omega
        · simp at h1
      · have h2 := hOut.2 s hs
        refine ⟨by rw [h2.1, hInr.1], h2.2⟩

theorem insInner_wf (si : List Nat) (key : Int) :
    ∀ (j1 : Nat) (arr : List Int),
      (insInner si key arr j1).2.1.length = arr.length ∧
      (insInner si key arr j1).2.2 ≤ j1 ∧
      ∀ s ∈ (insInner si key arr j1).1, s.array.length = arr.length ∧
        ∀ p ∈ s.highlights, p.1 ≤ j1 := by
  intro j1
  induction j1 with
  | zero =>
    intro arr
    refine ⟨rfl, Nat.le_refl 0, ?_⟩
    intro s hs
    simp [insInner] at hs
  | succ j ih =>
    intro arr
    simp only [insInner]
    by_cases h : arr.getD j 0 > key
    · simp only [if_pos h]
      have hi := ih (arr.set (j + 1) (arr.getD j 0))
      have hlen : (arr.set (j + 1) (arr.getD j 0)).length = arr.length := by simp
      refine ⟨by rw [hi.1, hlen], by omega, ?_⟩
      intro s hs
      rcases List.mem_cons.1 hs with rfl | hs
      · refine ⟨rfl, ?_⟩
        intro p hp
        have := mem_dictOfPairs p _ hp
        simp only [List.map_cons, List.map_nil, List.mem_cons, List.mem_singleton] at this
        rcases this with h1 | h1 | h1
        · omega
        · omega
        · simp at h1
      · rcases List.mem_cons.1 hs with rfl | hs
        · refine ⟨by rw [state_array, hlen], ?_⟩
          intro p hp
          have := mem_dictOfPairs p _ hp
          simp only [List.map_cons, List.map_nil, List.mem_cons, List.mem_singleton] at this
          rcases this with h1 | h1 | h1
          · omega
          · omega
          · simp at h1
        · have h2 := hi.2.2 s hs
          refine ⟨by rw [h2.1, hlen], ?_⟩
          intro p hp
          have := h2.2 p hp
          omega
    · simp only [if_neg h]
      refine ⟨trivial, Nat.le_refl _, ?_⟩
      intro s hs
      simp at hs

theorem insOuter_wf :
    ∀ (rem : Nat) (arr : List Int) (si : List Nat) (i : Nat), i + rem ≤ arr.length →
      (insOuter arr si i rem).2.length = arr.length ∧
      ∀ s ∈ (insOuter arr si i rem).1, s.array.length = arr.length ∧
        ∀ p ∈ s.highlights, p.1 < arr.length := by
  intro rem
  induction rem with
  | zero => intro arr si i _; refine ⟨rfl, ?_⟩; intro s hs; simp [insOuter] at hs
  | succ rem ih =>
    intro arr si i hn
    have hi : i < arr.length := by omega
    simp only [insOuter]
    have hInn := insInner_wf si (arr.getD i 0) i arr
    have hlen3 : ((insInner si (arr.getD i 0) arr i).2.1.set
        (insInner si (arr.getD i 0) arr i).2.2 (arr.getD i 0)).length = arr.length := by
      rw [List.length_set, hInn.1]
    have hOut := ih ((insInner si (arr.getD i 0) arr i).2.1.set
        (insInner si (arr.getD i 0) arr i).2.2 (arr.getD i 0))
      (si ++ List.range (i + 1)) (i + 1) (by omega)
    refine ⟨by rw [hOut.1, hlen3], ?_⟩
    intro s hs
    rcases List.mem_cons.1 hs with rfl | hs
    · refine ⟨rfl, ?_⟩
      intro p hp
      have := mem_dictOfPairs p _ hp
      simp only [List.map_cons, List.map_nil, List.mem_cons, List.mem_singleton] at this
      rcases this with h1 | h1
      · omega
      · simp at h1
    · rcases List.mem_append.1 hs with hs | hs
      · have h2 := hInn.2.2 s hs
        refine ⟨h2.1, ?_⟩
        intro p hp
        have := h2.2 p hp
        omega
      · rcases List.mem_cons.1 hs with rfl | hs
        · refine ⟨by rw [state_array, hlen3], ?_⟩
          intro p hp
          have := mem_dictOfPairs p _ hp
          simp only [List.map_cons, List.map_nil, List.mem_cons, List.mem_singleton] at this
          have hj1 := hInn.2.1
          rcases this with h1 | h1
          · omega
          · simp at h1
        · have h2 := hOut.2 s hs
          refine ⟨by rw [h2.1, hlen3], ?_⟩
          intro p hp
          have := h2.2 p hp
          omega

theorem selInner_min (arr : List Int) (si : List Nat) (i : Nat) :
    ∀ (rem : Nat) (min_idx j : Nat),
      ((selInner arr si i min_idx j rem).2 = min_idx ∨
        (j ≤ (selInner arr si i min_idx j rem).2 ∧
          (selInner arr si i min_idx j rem).2 < j + rem)) := by
  intro rem
  induction rem with
  | zero => intro min_idx j; left; rfl
  | succ rem ih =>
    intro min_idx j
    simp only [selInner]
    by_cases h : arr.getD j 0 < arr.getD min_idx 0
    · simp only [if_pos h]
      rcases ih j (j + 1) with h1 | h1
      · right
        rw [h1]
        omega
      · right
        omega
    · simp only [if_neg h]
      rcases ih min_idx (j + 1) with h1 | h1
      · left
        exact h1
      · right
        omega

theorem selInner_wf (arr : List Int) (si : List Nat) (i : Nat) :
    ∀ (rem : Nat) (min_idx j : Nat),
      ∀ s ∈ (selInner arr si i min_idx j rem).1, s.array.length = arr.length ∧
        ∀ p ∈ s.highlights, p.1 ≤ min_idx ∨ p.1 < j + rem := by
  intro rem
  induction rem with
  | zero => intro min_idx j s hs; simp [selInner] at hs
  | succ rem ih =>
    intro min_idx j s hs
    simp only [selInner] at hs
    by_cases h : arr.getD j 0 < arr.getD min_idx 0
    · rw [if_pos h] at hs
      rcases List.mem_cons.1 hs with rfl | hs
      · refine ⟨rfl, ?_⟩
        intro p hp
        have := mem_dictOfPairs p _ hp
        simp only [List.map_cons, List.map_nil, List.mem_cons, List.mem_singleton] at this
        rcases this with h1 | h1 | h1
        · left; omega
        · right; omega
        · simp at h1
      · rcases List.mem_cons.1 hs with rfl | hs
        · refine ⟨rfl, ?_⟩
          intro p hp
          have := mem_dictOfPairs p _ hp
          simp only [List.map_cons, List.map_nil, List.mem_cons, List.mem_singleton] at this
          rcases this with h1 | h1
          · right; omega
          · simp at h1
        · have h2 := ih j (j + 1) s hs
          refine ⟨h2.1, ?_⟩
          intro p hp
          rcases h2.2 p hp with h1 | h1
          · right; omega
          · right; omega
    · rw [if_neg h] at hs
      rcases List.mem_cons.1 hs with rfl | hs
      · refine ⟨rfl, ?_⟩
        intro p hp
        have := mem_dictOfPairs p _ hp
        simp only [List.map_cons, List.map_nil, List.mem_cons, List.mem_singleton] at this
        rcases this with h1 | h1 | h1
        · left; omega
        · right; omega
        · simp at h1
      · have h2 := ih min_idx (j + 1) s hs
        refine ⟨h2.1, ?_⟩
        intro p hp
        rcases h2.2 p hp with h1 | h1
        · left; exact h1
        · right; omega

theorem selOuter_wf (n : Nat) :
    ∀ (rem : Nat) (arr : List Int) (si : List Nat) (i : Nat), i + rem = n →
      (selOuter arr si n i rem).2.length = arr.length ∧
      ∀ s ∈ (selOuter arr si n i rem).1, s.array.length = arr.length ∧
        ∀ p ∈ s.highlights, p.1 < n := by
  intro rem
  induction rem with
  | zero => intro arr si i _; refine ⟨rfl, ?_⟩; intro s hs; simp [selOuter] at hs
  | succ rem ih =>
    intro arr si i hn
    simp only [selOuter]
    have hmin : (selInner arr si i i (i + 1) (n - i - 1)).2 < n := by
      rcases selInner_min arr si i (n - i - 1) i (i + 1) with h1 | h1
      · omega
      · omega
    have hlen2 : (listSwap arr i (selInner arr si i i (i + 1) (n - i - 1)).2).length =
        arr.length := length_listSwap _ _ _
    have hOut := ih (listSwap arr i (selInner arr si i i (i + 1) (n - i - 1)).2)
      (si ++ [i]) (i + 1) (by omega)
    refine ⟨by rw [hOut.1, hlen2], ?_⟩
    intro s hs
    rcases List.mem_append.1 hs with hs | hs
    · have h2 := selInner_wf arr si i (n - i - 1) i (i + 1) s hs
      refine ⟨h2.1, ?_⟩
      intro p hp
      rcases h2.2 p hp with h1 | h1
      · omega
      · omega
    · rcases List.mem_cons.1 hs with rfl | hs
      · refine ⟨by rw [state_array, hlen2], ?_⟩
        intro p hp
        have := mem_dictOfPairs p _ hp
        simp only [List.map_cons, List.map_nil, List.mem_cons, List.mem_singleton] at this
        rcases this with h1 | h1 | h1
        · omega
        · omega
        · simp at h1
      · have h2 := hOut.2 s hs
        refine ⟨by rw [h2.1, hlen2], h2.2⟩

theorem partLoop_wf (si : List Nat) (pivot high : Int) :
    ∀ (rem : Nat) (arr : List Int) (i j : Int), 0 ≤ j → i < j → j + rem ≤ high →
      (partLoop si pivot high arr i j rem).2.1.length = arr.length ∧
      ∀ s ∈ (partLoop si pivot high arr i j rem).1, s.array.length = arr.length ∧
        ∀ p ∈ s.highlights, p.1 ≤ high.toNat := by
  intro rem
  induction rem with
  | zero => intro arr i j _ _ _; refine ⟨rfl, ?_⟩; intro s hs; simp [partLoop] at hs
  | succ rem ih =>
    intro arr i j hj hij hrem
    simp only [partLoop]
    by_cases h : arr.getD j.toNat 0 ≤ pivot
    · simp only [if_pos h]
      have hlen := length_listSwap arr (i + 1).toNat j.toNat
      have hi := ih (listSwap arr (i + 1).toNat j.toNat) (i + 1) (j + 1)
        (by omega) (by omega) (by omega)
      refine ⟨by rw [hi.1, hlen], ?_⟩
      intro s hs
      rcases List.mem_cons.1 hs with rfl | hs
      · refine ⟨rfl, ?_⟩
        intro p hp
        have := mem_dictOfPairs p _ hp
        simp only [List.map_cons, List.map_nil, List.mem_cons, List.mem_singleton] at this
        rcases this with h1 | h1 | h1
        · omega
        · omega
        · simp at h1
      · rcases List.mem_cons.1 hs with rfl | hs
        · refine ⟨by rw [state_array, hlen], ?_⟩
          intro p hp
          have := mem_dictOfPairs p _ hp
          simp only [List.map_cons, List.map_nil, List.mem_cons, List.mem_singleton] at this
          rcases this with h1 | h1 | h1
          · omega
          · omega
          · simp at h1
        · have h2 := hi.2 s hs
          refine ⟨by rw [h2.1, hlen], h2.2⟩
    · simp only [if_neg h]
      have hi := ih arr i (j + 1) (by omega) (by omega) (by omega)
      refine ⟨hi.1, ?_⟩
      intro s hs
      rcases List.mem_cons.1 hs with rfl | hs
      · refine ⟨rfl, ?_⟩
        intro p hp
        have := mem_dictOfPairs p _ hp
        simp only [List.map_cons, List.map_nil, List.mem_cons, List.mem_singleton] at this
        rcases this with h1 | h1 | h1
        · omega
        · omega
        · simp at h1
      · exact hi.2 s hs

theorem _quick_sort_wf :
    ∀ (fuel : Nat) (arr : List Int) (low high : Int) (si : List Nat), 0 ≤ low →
      (_quick_sort fuel arr low high si).2.1.length = arr.length ∧
      ∀ s ∈ (_quick_sort fuel arr low high si).1, s.array.length = arr.length ∧
        ∀ p ∈ s.highlights, p.1 ≤ high.toNat := by
  intro fuel
  induction fuel with
  | zero =>
    intro arr low high si _
    refine ⟨rfl, ?_⟩
    intro s hs
    simp [_quick_sort] at hs
  | succ fuel ih =>
    intro arr low high si hlow
    simp only [_quick_sort]
    by_cases hbase : low ≥ high
    · simp only [if_pos hbase]
      by_cases heq : low = high
      · simp only [if_pos heq]
        refine ⟨trivial, ?_⟩
        intro s hs
        rcases List.mem_cons.1 hs with rfl | hs
        · refine ⟨rfl, ?_⟩
          intro p hp
          have := mem_dictOfPairs p _ hp
          simp only [List.map_cons, List.map_nil, List.mem_cons, List.mem_singleton] at this
          rcases this with h1 | h1
          · omega
          · simp at h1
        · simp at hs
      · simp only [if_neg heq]
        refine ⟨trivial, ?_⟩
        intro s hs
        simp at hs
    · simp only [if_neg hbase]
      have hlh : low < high := by omega
      have hple := partLoop_le si (arr.getD high.toNat 0) high arr (low - 1) low
        (high - low).toNat
      have hpwf := partLoop_wf si (arr.getD high.toNat 0) high (high - low).toNat arr
        (low - 1) low (by omega) (by omega) (by omega)
      have hlen3 : (listSwap (partLoop si (arr.getD high.toNat 0) high arr (low - 1) low
          (high - low).toNat).2.1
          ((partLoop si (arr.getD high.toNat 0) high arr (low - 1) low
            (high - low).toNat).2.2 + 1).toNat high.toNat).length = arr.length := by
        rw [length_listSwap, hpwf.1]
      have hLwf := ih (listSwap (partLoop si (arr.getD high.toNat 0) high arr (low - 1) low
          (high - low).toNat).2.1
          ((partLoop si (arr.getD high.toNat 0) high arr (low - 1) low
            (high - low).toNat).2.2 + 1).toNat high.toNat)
        low ((partLoop si (arr.getD high.toNat 0) high arr (low - 1) low
          (high - low).toNat).2.2 + 1 - 1)
        (si ++ [((partLoop si (arr.getD high.toNat 0) high arr (low - 1) low
          (high - low).toNat).2.2 + 1).toNat]) hlow
      have hRwf := ih (_quick_sort fuel (listSwap (partLoop si (arr.getD high.toNat 0) high
            arr (low - 1) low (high - low).toNat).2.1
            ((partLoop si (arr.getD high.toNat 0) high arr (low - 1) low
              (high - low).toNat).2.2 + 1).toNat high.toNat)
          low ((partLoop si (arr.getD high.toNat 0) high arr (low - 1) low
            (high - low).toNat).2.2 + 1 - 1)
          (si ++ [((partLoop si (arr.getD high.toNat 0) high arr (low - 1) low
            (high - low).toNat).2.2 + 1).toNat])).2.1
        ((partLoop si (arr.getD high.toNat 0) high arr (low - 1) low
          (high - low).toNat).2.2 + 1 + 1) high
        (_quick_sort fuel (listSwap (partLoop si (arr.getD high.toNat 0) high arr
            (low - 1) low (high - low).toNat).2.1
            ((partLoop si (arr.getD high.toNat 0) high arr (low - 1) low
              (high - low).toNat).2.2 + 1).toNat high.toNat)
          low ((partLoop si (arr.getD high.toNat 0) high arr (low - 1) low
            (high - low).toNat).2.2 + 1 - 1)
          (si ++ [((partLoop si (arr.getD high.toNat 0) high arr (low - 1) low
            (high - low).toNat).2.2 + 1).toNat])).2.2 (by omega)
      refine ⟨by rw [hRwf.1, hLwf.1, hlen3], ?_⟩
      intro s hs
      rcases List.mem_cons.1 hs with rfl | hs
      · refine ⟨rfl, ?_⟩
        intro p hp
        have := mem_dictOfPairs p _ hp
        simp only [List.map_cons, List.map_nil, List.mem_cons, List.mem_singleton] at this
        rcases this with h1 | h1
        · omega
        · simp at h1
      · rcases List.mem_append.1 hs with hs | hs
        · have h2 := hpwf.2 s hs
          exact ⟨h2.1, h2.2⟩
        · rcases List.mem_cons.1 hs with rfl | hs
          · refine ⟨by rw [state_array, hlen3], ?_⟩
            intro p hp
            have := mem_dictOfPairs p _ hp
            simp only [List.map_cons, List.map_nil, List.mem_cons, List.mem_singleton] at this
            rcases this with h1 | h1
            · omega
            · simp at h1
          · rcases List.mem_append.1 hs with hs | hs
            · have h2 := hLwf.2 s hs
              refine ⟨by rw [h2.1, hlen3], ?_⟩
              intro p hp
              have := h2.2 p hp
              omega
            · have h2 := hRwf.2 s hs
              refine ⟨by rw [h2.1, hLwf.1, hlen3], h2.2⟩

theorem mergeWrite_wf {α : Type} (le : α → α → Bool) (si : List Nat) (start mid endd : Nat) :
    ∀ (fuel : Nat) (arr ls rs : List α) (i j k : Nat),
      start + i + ls.length = mid + 1 → mid + 1 + j + rs.length = endd + 1 →
      k + ls.length + rs.length = endd + 1 →
        (mergeWrite le si start mid endd fuel arr ls rs i j k).2.length = arr.length ∧
        ∀ s ∈ (mergeWrite le si start mid endd fuel arr ls rs i j k).1,
          s.array.length = arr.length ∧ ∀ p ∈ s.highlights, p.1 ≤ endd := by
  intro fuel
  induction fuel with
  | zero =>
    intro arr ls rs i j k _ _ _
    refine ⟨rfl, ?_⟩
    intro s hs
    simp [mergeWrite] at hs
  | succ fuel ih =>
    intro arr ls rs i j k h1 h2 h3
    match ls, rs with
    | [], [] =>
      refine ⟨rfl, ?_⟩
      intro s hs
      simp [mergeWrite] at hs
    | [], b :: rs =>
      simp only [mergeWrite]
      have hi := ih (arr.set k b) [] rs i (j + 1) (k + 1)
        (by simpa using h1) (by simp at h2 ⊢; omega) (by simp at h3 ⊢; omega)
      refine ⟨by rw [hi.1, List.length_set], ?_⟩
      intro s hs
      rcases List.mem_cons.1 hs with rfl | hs
      · refine ⟨by rw [state_array, List.length_set], ?_⟩
        intro p hp
        have := mem_dictOfPairs p _ hp
        simp only [List.map_cons, List.map_nil, List.mem_cons, List.mem_singleton] at this
        rcases this with hq | hq
        · simp only [List.length_cons] at h3
          omega
        · simp at hq
      · have hq := hi.2 s hs
        refine ⟨by rw [hq.1, List.length_set], hq.2⟩
    | a :: ls, [] =>
      simp only [mergeWrite]
      have hi := ih (arr.set k a) ls [] (i + 1) j (k + 1)
        (by simp at h1 ⊢; omega) (by simpa using h2) (by simp at h3 ⊢; omega)
      refine ⟨by rw [hi.1, List.length_set], ?_⟩
      intro s hs
      rcases List.mem_cons.1 hs with rfl | hs
      · refine ⟨by rw [state_array, List.length_set], ?_⟩
        intro p hp
        have := mem_dictOfPairs p _ hp
        simp only [List.map_cons, List.map_nil, List.mem_cons, List.mem_singleton] at this
        rcases this with hq | hq
        · simp only [List.length_cons] at h3
          omega
        · simp at hq
      · have hq := hi.2 s hs
        refine ⟨by rw [hq.1, List.length_set], hq.2⟩
    | a :: ls, b :: rs =>
      simp only [mergeWrite]
      have hkeys : ∀ p : Nat × HighlightType,
          p ∈ dictOfPairs [(k, HighlightType.COMPARE), (start + i, HighlightType.COMPARE),
            (mid + 1 + j, HighlightType.COMPARE)] → p.1 ≤ endd := by
        intro p hp
        have := mem_dictOfPairs p _ hp
        simp only [List.map_cons, List.map_nil, List.mem_cons, List.mem_singleton] at this
        simp only [List.length_cons] at h1 h2 h3
        rcases this with hq | hq | hq | hq
        · omega
        · omega
        · omega
        · simp at hq
      by_cases h : le a b
      · simp only [if_pos h]
        have hi := ih (arr.set k a) ls (b :: rs) (i + 1) j (k + 1)
          (by simp at h1 ⊢; omega) (by simpa using h2) (by simp at h3 ⊢; omega)
        refine ⟨by rw [hi.1, List.length_set], ?_⟩
        intro s hs
        rcases List.mem_cons.1 hs with rfl | hs
        · exact ⟨rfl, hkeys⟩
        · rcases List.mem_cons.1 hs with rfl | hs
          · refine ⟨by rw [state_array, List.length_set], ?_⟩
            intro p hp
            have := mem_dictOfPairs p _ hp
            simp only [List.map_cons, List.map_nil, List.mem_cons,
              List.mem_singleton] at this
            rcases this with hq | hq
            · simp only [List.length_cons] at h3
              omega
            · simp at hq
          · have hq := hi.2 s hs
            refine ⟨by rw [hq.1, List.length_set], hq.2⟩
      · simp only [if_neg h]
        have hi := ih (arr.set k b) (a :: ls) rs i (j + 1) (k + 1)
          (by simpa using h1) (by simp at h2 ⊢; omega) (by simp at h3 ⊢; omega)
        refine ⟨by rw [hi.1, List.length_set], ?_⟩
        intro s hs
        rcases List.mem_cons.1 hs with rfl | hs
        · exact ⟨rfl, hkeys⟩
        · rcases List.mem_cons.1 hs with rfl | hs
          · refine ⟨by rw [state_array, List.length_set], ?_⟩
            intro p hp
            have := mem_dictOfPairs p _ hp
            simp only [List.map_cons, List.map_nil, List.mem_cons,
              List.mem_singleton] at this
            rcases this with hq | hq
            · simp only [List.length_cons] at h3
              omega
            · simp at hq
          · have hq := hi.2 s hs
            refine ⟨by rw [hq.1, List.length_set], hq.2⟩

theorem _merge_wf {α : Type} (le : α → α → Bool) (arr : List α) (start mid endd : Nat)
    (si : List Nat) (hsm : start ≤ mid) (hme : mid ≤ endd) (hlen : endd < arr.length) :
    (_merge le arr start mid endd si).2.1.length = arr.length ∧
    ∀ s ∈ (_merge le arr start mid endd si).1, s.array.length = arr.length ∧
      ∀ p ∈ s.highlights, p.1 ≤ endd := by
  have hll : ((arr.take (mid + 1)).drop start).length = mid + 1 - start := by
    simp only [List.length_drop, List.length_take]
    omega
  have hrl : ((arr.take (endd + 1)).drop (mid + 1)).length = endd - mid := by
    simp only [List.length_drop, List.length_take]
    omega
  have hw := mergeWrite_wf le si start mid endd
    (((arr.take (mid + 1)).drop start).length + ((arr.take (endd + 1)).drop (mid + 1)).length)
    arr ((arr.take (mid + 1)).drop start) ((arr.take (endd + 1)).drop (mid + 1)) 0 0 start
    (by rw [hll]; omega) (by rw [hrl]; omega) (by rw [hll, hrl]; omega)
  constructor
  · simp only [_merge]
    exact hw.1
  · intro s hs
    simp only [_merge] at hs
    rcases List.mem_append.1 hs with hs | hs
    · exact hw.2 s hs
    · rcases List.mem_cons.1 hs with rfl | hs
      · refine ⟨by rw [state_array, hw.1], ?_⟩
        intro p hp
        have := mem_dictOfPairs p _ hp
        rw [List.map_map] at this
        rcases List.mem_map.1 this with ⟨idx, hidx, heq⟩
        rw [List.mem_range'] at hidx
        rcases hidx with ⟨step, hstep, hqe⟩
        simp only [Function.comp] at heq
        omega
      · simp at hs

theorem _merge_sort_wf {α : Type} (le : α → α → Bool) :
    ∀ (fuel : Nat) (arr : List α) (start endd : Nat) (si : List Nat),
      start ≤ endd → endd < arr.length →
        (_merge_sort le fuel arr start endd si).2.1.length = arr.length ∧
        ∀ s ∈ (_merge_sort le fuel arr start endd si).1, s.array.length = arr.length ∧
          ∀ p ∈ s.highlights, p.1 ≤ endd := by
  intro fuel
  induction fuel with
  | zero =>
    intro arr start endd si _ _
    refine ⟨rfl, ?_⟩
    intro s hs
    simp [_merge_sort] at hs
  | succ fuel ih =>
    intro arr start endd si hse hel
    simp only [_merge_sort]
    by_cases hbase : start ≥ endd
    · simp only [if_pos hbase]
      refine ⟨trivial, ?_⟩
      intro s hs
      rcases List.mem_cons.1 hs with rfl | hs
      · refine ⟨rfl, ?_⟩
        intro p hp
        have := mem_dictOfPairs p _ hp
        simp only [List.map_cons, List.map_nil, List.mem_cons, List.mem_singleton] at this
        rcases this with h1 | h1
        · omega
        · simp at h1
      · simp at hs
    · simp only [if_neg hbase]
      have hlt : start < endd := by omega
      have hL := ih arr start ((start + endd) / 2) si (by omega) (by omega)
      have hR := ih (_merge_sort le fuel arr start ((start + endd) / 2) si).2.1
        ((start + endd) / 2 + 1) endd
        (_merge_sort le fuel arr start ((start + endd) / 2) si).2.2
        (by omega) (by rw [hL.1]; omega)
      have hM := _merge_wf le
        (_merge_sort le fuel (_merge_sort le fuel arr start ((start + endd) / 2) si).2.1
          ((start + endd) / 2 + 1) endd
          (_merge_sort le fuel arr start ((start + endd) / 2) si).2.2).2.1
        start ((start + endd) / 2) endd
        (_merge_sort le fuel (_merge_sort le fuel arr start ((start + endd) / 2) si).2.1
          ((start + endd) / 2 + 1) endd
          (_merge_sort le fuel arr start ((start + endd) / 2) si).2.2).2.2
        (by omega) (by omega) (by rw [hR.1, hL.1]; omega)
      refine ⟨by rw [hM.1, hR.1, hL.1], ?_⟩
      intro s hs
      rcases List.mem_append.1 hs with hs | hs
      · have h2 := hL.2 s hs
        refine ⟨h2.1, ?_⟩
        intro p hp
        have := h2.2 p hp
        omega
      · rcases List.mem_append.1 hs with hs | hs
        · have h2 := hR.2 s hs
          refine ⟨by rw [h2.1, hL.1], h2.2⟩
        · have h2 := hM.2 s hs
          refine ⟨by rw [h2.1, hR.1, hL.1], h2.2⟩

theorem state_si_sorted {α : Type} (a : List α) (h : List (Nat × HighlightType))
    (si : List Nat) (d : String) :
    (_state α a h si d).sorted_indices.Sorted (· < ·) := by
  rw [state_sorted_indices]
  exact sortedSet_sorted si

theorem bubbleOuter_sorted (n : Nat) :
    ∀ (rem : Nat) (arr : List Int) (si : List Nat) (i : Nat),
      ∀ s ∈ (bubbleOuter arr si n i rem).1, s.sorted_indices.Sorted (· < ·) := by
  intro rem
  induction rem with
  | zero => intro arr si i s hs; simp [bubbleOuter] at hs
  | succ rem ih =>
    intro arr si i s hs
    simp only [bubbleOuter] at hs
    rcases List.mem_append.1 hs with hs | hs
    · rw [bubbleInner_si si _ _ _ s hs]
      exact sortedSet_sorted si
    · rcases List.mem_cons.1 hs with rfl | hs
      · exact state_si_sorted _ _ _ _
      · exact ih _ _ _ s hs

theorem insOuter_sorted :
    ∀ (rem : Nat) (arr : List Int) (si : List Nat) (i : Nat),
      ∀ s ∈ (insOuter arr si i rem).1, s.sorted_indices.Sorted (· < ·) := by
  intro rem
  induction rem with
  | zero => intro arr si i s hs; simp [insOuter] at hs
  | succ rem ih =>
    intro arr si i s hs
    simp only [insOuter] at hs
    rcases List.mem_cons.1 hs with rfl | hs
    · exact state_si_sorted _ _ _ _
    · rcases List.mem_append.1 hs with hs | hs
      · rw [insInner_si si _ _ _ s hs]
        exact sortedSet_sorted si
      · rcases List.mem_cons.1 hs with rfl | hs
        · exact state_si_sorted _ _ _ _
        · exact ih _ _ _ s hs

theorem selOuter_sorted (n : Nat) :
    ∀ (rem : Nat) (arr : List Int) (si : List Nat) (i : Nat),
      ∀ s ∈ (selOuter arr si n i rem).1, s.sorted_indices.Sorted (· < ·) := by
  intro rem
  induction rem with
  | zero => intro arr si i s hs; simp [selOuter] at hs
  | succ rem ih =>
    intro arr si i s hs
    simp only [selOuter] at hs
    rcases List.mem_append.1 hs with hs | hs
    · rw [selInner_si arr si i _ _ _ s hs]
      exact sortedSet_sorted si
    · rcases List.mem_cons.1 hs with rfl | hs
      · exact state_si_sorted _ _ _ _
      · exact ih _ _ _ s hs

theorem _quick_sort_sorted :
    ∀ (fuel : Nat) (arr : List Int) (low high : Int) (si : List Nat),
      ∀ s ∈ (_quick_sort fuel arr low high si).1, s.sorted_indices.Sorted (· < ·) := by
  intro fuel
  induction fuel with
  | zero => intro arr low high si s hs; simp [_quick_sort] at hs
  | succ fuel ih =>
    intro arr low high si s hs
    simp only [_quick_sort] at hs
    by_cases hbase : low ≥ high
    · rw [if_pos hbase] at hs
      by_cases heq : low = high
      · rw [if_pos heq] at hs
        rcases List.mem_cons.1 hs with rfl | hs
        · exact state_si_sorted _ _ _ _
        · simp at hs
      · rw [if_neg heq] at hs
        simp at hs
    · rw [if_neg hbase] at hs
      rcases List.mem_cons.1 hs with rfl | hs
      · exact state_si_sorted _ _ _ _
      · rcases List.mem_append.1 hs with hs | hs
        · rw [partLoop_si si _ _ _ _ _ _ s hs]
          exact sortedSet_sorted si
        · rcases List.mem_cons.1 hs with rfl | hs
          · exact state_si_sorted _ _ _ _
          · rcases List.mem_append.1 hs with hs | hs
            · exact ih _ _ _ _ s hs
            · exact ih _ _ _ _ s hs

theorem _merge_sorted {α : Type} (le : α → α → Bool) (arr : List α) (start mid endd : Nat)
    (si : List Nat) :
    ∀ s ∈ (_merge le arr start mid endd si).1, s.sorted_indices.Sorted (· < ·) := by
  intro s hs
  simp only [_merge] at hs
  rcases List.mem_append.1 hs with hs | hs
  · rw [mergeWrite_si le si start mid endd _ _ _ _ _ _ _ s hs]
    exact sortedSet_sorted si
  · rcases List.mem_cons.1 hs with rfl | hs
    · exact state_si_sorted _ _ _ _
    · simp at hs

theorem _merge_sort_sorted {α : Type} (le : α → α → Bool) :
    ∀ (fuel : Nat) (arr : List α) (start endd : Nat) (si : List Nat),
      ∀ s ∈ (_merge_sort le fuel arr start endd si).1,
        s.sorted_indices.Sorted (· < ·) := by
  intro fuel
  induction fuel with
  | zero => intro arr start endd si s hs; simp [_merge_sort] at hs
  | succ fuel ih =>
    intro arr start endd si s hs
    simp only [_merge_sort] at hs
    by_cases hbase : start ≥ endd
    · rw [if_pos hbase] at hs
      rcases List.mem_cons.1 hs with rfl | hs
      · exact state_si_sorted _ _ _ _
      · simp at hs
    · rw [if_neg hbase] at hs
      rcases List.mem_append.1 hs with hs | hs
      · exact ih _ _ _ _ s hs
      · rcases List.mem_append.1 hs with hs | hs
        · exact ih _ _ _ _ s hs
        · exact _merge_sorted le _ _ _ _ _ s hs

theorem engine_siF_bound {β : Type} (body : List (SortState β)) (n : Nat)
    (fin : SortState β) (hf : siF fin = Finset.range n)
    (hchain : List.Chain (· ⊆ ·) ∅ ((body.map siF) ++ [Finset.range n])) :
    ∀ s ∈ body ++ [fin], siF s ⊆ Finset.range n := by
  intro s hs
  rcases List.mem_append.1 hs with hs | hs
  · exact (chain_sub_all hchain).2 (siF s) (List.mem_map_of_mem siF hs)
  · rcases List.mem_cons.1 hs with rfl | hs
    · rw [hf]
    · simp at hs

/-- C10: in every snapshot of every engine, the highlight keys and the
finalized indices are valid indices of the snapshot's array, and the
finalized indices are a deduplicated ascending sequence (strictly sorted),
as produced by the `_state` constructor. -/
theorem C10_snapshot_well_formed (data : List Int) :
    (∀ s ∈ bubble_sort data, s.array.length = data.length ∧
      (∀ p ∈ s.highlights, p.1 < s.array.length) ∧
      (∀ idx ∈ s.sorted_indices, idx < s.array.length) ∧
      s.sorted_indices.Sorted (· < ·)) ∧
    (∀ s ∈ insertion_sort data, s.array.length = data.length ∧
      (∀ p ∈ s.highlights, p.1 < s.array.length) ∧
      (∀ idx ∈ s.sorted_indices, idx < s.array.length) ∧
      s.sorted_indices.Sorted (· < ·)) ∧
    (∀ s ∈ selection_sort data, s.array.length = data.length ∧
      (∀ p ∈ s.highlights, p.1 < s.array.length) ∧
      (∀ idx ∈ s.sorted_indices, idx < s.array.length) ∧
      s.sorted_indices.Sorted (· < ·)) ∧
    (∀ s ∈ quick_sort data, s.array.length = data.length ∧
      (∀ p ∈ s.highlights, p.1 < s.array.length) ∧
      (∀ idx ∈ s.sorted_indices, idx < s.array.length) ∧
      s.sorted_indices.Sorted (· < ·)) ∧
    (∀ s ∈ merge_sort intLe data, s.array.length = data.length ∧
      (∀ p ∈ s.highlights, p.1 < s.array.length) ∧
      (∀ idx ∈ s.sorted_indices, idx < s.array.length) ∧
      s.sorted_indices.Sorted (· < ·)) := by
  refine ⟨?_, ?_, ?_, ?_, ?_⟩
  · -- bubble sort
    have hwf := bubbleOuter_wf data.length data.length data [] 0 (by omega)
    have hch := bubbleOuter_chain data.length data.length data [] 0 (by omega)
    rw [List.toFinset_nil, Finset.empty_union] at hch
    have hbound := engine_siF_bound (bubbleOuter data [] data.length 0 data.length).1
      data.length
      (_state Int (bubbleOuter data [] data.length 0 data.length).2 []
        (List.range data.length) "Bubble sort complete")
      (by rw [siF_state, toFinset_list_range]) hch
    intro s hs
    have hlen : s.array.length = data.length := by
      rcases List.mem_append.1 hs with hs2 | hs2
      · exact (hwf.2 s hs2).1
      · rcases List.mem_cons.1 hs2 with rfl | hs2
        · rw [state_array, hwf.1]
        · simp at hs2
    refine ⟨hlen, ?_, ?_, ?_⟩
    · intro p hp
      rw [hlen]
      rcases List.mem_append.1 hs with hs2 | hs2
      · exact (hwf.2 s hs2).2 p hp
      · rcases List.mem_cons.1 hs2 with rfl | hs2
        · rw [state_highlights] at hp
          simp [dictOfPairs] at hp
        · simp at hs2
    · intro idx hidx
      rw [hlen]
      have := hbound s hs (List.mem_toFinset.2 hidx)
      exact Finset.mem_range.1 this
    · rcases List.mem_append.1 hs with hs2 | hs2
      · exact bubbleOuter_sorted data.length data.length data [] 0 s hs2
      · rcases List.mem_cons.1 hs2 with rfl | hs2
        · exact state_si_sorted _ _ _ _
        · simp at hs2
  · -- insertion sort
    have hch := insOuter_chain (data.length - 1) data [] 1
    rw [List.toFinset_nil, Finset.empty_union] at hch
    by_cases hn : data.length = 0
    · intro s hs
      have hd : data = [] := List.length_eq_zero.1 hn
      subst hd
      have hs2 : s = _state Int [] [] (List.range 0) "Insertion sort complete" := by
        rcases List.mem_cons.1 hs with h | h
        · exact h
        · simp at h
      subst hs2
      refine ⟨rfl, ?_, ?_, state_si_sorted _ _ _ _⟩
      · intro p hp
        rw [state_highlights] at hp
        simp [dictOfPairs] at hp
      · intro idx hidx
        rw [state_sorted_indices, sortedSet_range] at hidx
        simp at hidx
    · have hwf := insOuter_wf (data.length - 1) data [] 1 (by omega)
      have he : 1 + (data.length - 1) = data.length := by omega
      rw [he] at hch
      have hbound := engine_siF_bound (insOuter data [] 1 (data.length - 1)).1
        data.length
        (_state Int (insOuter data [] 1 (data.length - 1)).2 []
          (List.range data.length) "Insertion sort complete")
        (by rw [siF_state, toFinset_list_range]) hch
      intro s hs
      have hlen : s.array.length = data.length := by
        rcases List.mem_append.1 hs with hs2 | hs2
        · exact (hwf.2 s hs2).1
        · rcases List.mem_cons.1 hs2 with rfl | hs2
          · rw [state_array, hwf.1]
          · simp at hs2
      refine ⟨hlen, ?_, ?_, ?_⟩
      · intro p hp
        rw [hlen]
        rcases List.mem_append.1 hs with hs2 | hs2
        · exact (hwf.2 s hs2).2 p hp
        · rcases List.mem_cons.1 hs2 with rfl | hs2
          · rw [state_highlights] at hp
            simp [dictOfPairs] at hp
          · simp at hs2
      · intro idx hidx
        rw [hlen]
        have := hbound s hs (List.mem_toFinset.2 hidx)
        exact Finset.mem_range.1 this
      · rcases List.mem_append.1 hs with hs2 | hs2
        · exact insOuter_sorted (data.length - 1) data [] 1 s hs2
        · rcases List.mem_cons.1 hs2 with rfl | hs2
          · exact state_si_sorted _ _ _ _
          · simp at hs2
  · -- selection sort
    have hwf := selOuter_wf data.length data.length data [] 0 (by omega)
    have hch := selOuter_chain data.length data.length data [] 0
    rw [List.toFinset_nil, Finset.empty_union] at hch
    have hico : Finset.Ico 0 (0 + data.length) = Finset.range data.length := by
      ext x
      simp only [Finset.mem_Ico, Finset.mem_range]
      omega
    rw [hico] at hch
    have hbound := engine_siF_bound (selOuter data [] data.length 0 data.length).1
      data.length
      (_state Int (selOuter data [] data.length 0 data.length).2 []
        (List.range data.length) "Selection sort complete")
      (by rw [siF_state, toFinset_list_range]) hch
    intro s hs
    have hlen : s.array.length = data.length := by
      rcases List.mem_append.1 hs with hs2 | hs2
      · exact (hwf.2 s hs2).1
      · rcases List.mem_cons.1 hs2 with rfl | hs2
        · rw [state_array, hwf.1]
        · simp at hs2
    refine ⟨hlen, ?_, ?_, ?_⟩
    · intro p hp
      rw [hlen]
      rcases List.mem_append.1 hs with hs2 | hs2
      · exact (hwf.2 s hs2).2 p hp
      · rcases List.mem_cons.1 hs2 with rfl | hs2
        · rw [state_highlights] at hp
          simp [dictOfPairs] at hp
        · simp at hs2
    · intro idx hidx
      rw [hlen]
      have := hbound s hs (List.mem_toFinset.2 hidx)
      exact Finset.mem_range.1 this
    · rcases List.mem_append.1 hs with hs2 | hs2
      · exact selOuter_sorted data.length data.length data [] 0 s hs2
      · rcases List.mem_cons.1 hs2 with rfl | hs2
        · exact state_si_sorted _ _ _ _
        · simp at hs2
  · -- quick sort
    by_cases hn : data.length = 0
    · intro s hs
      have hd : data = [] := List.length_eq_zero.1 hn
      subst hd
      have hs2 : s = _state Int [] [] (List.range 0) "Quick sort complete" := by
        rcases List.mem_cons.1 hs with h | h
        · exact h
        · simp at h
      subst hs2
      refine ⟨rfl, ?_, ?_, state_si_sorted _ _ _ _⟩
      · intro p hp
        rw [state_highlights] at hp
        simp [dictOfPairs] at hp
      · intro idx hidx
        rw [state_sorted_indices, sortedSet_range] at hidx
        simp at hidx
    · have hwf := _quick_sort_wf (data.length + 1) data 0 ((data.length : Int) - 1) []
        (by omega)
      have hq := _quick_sort_chain (data.length + 1) data 0 ((data.length : Int) - 1) []
        (by omega)
      rw [List.toFinset_nil, Finset.empty_union] at hq
      have hico : Finset.Ico (0 : Int).toNat (((data.length : Int) - 1) + 1).toNat =
          Finset.range data.length := by
        ext x
        simp only [Finset.mem_Ico, Finset.mem_range]
        omega
      rw [hico] at hq
      have hall := chain_sub_all hq.1
      have hrepl := chain_snoc_replace hq.1
        (fun x hx => (hall.2 x hx).trans hq.2) (Finset.empty_subset _)
      have hbound := engine_siF_bound
        (_quick_sort (data.length + 1) data 0 ((data.length : Int) - 1) []).1
        data.length
        (_state Int (_quick_sort (data.length + 1) data 0 ((data.length : Int) - 1) []).2.1
          [] (List.range data.length) "Quick sort complete")
        (by rw [siF_state, toFinset_list_range]) hrepl
      intro s hs
      have hlen : s.array.length = data.length := by
        rcases List.mem_append.1 hs with hs2 | hs2
        · exact (hwf.2 s hs2).1
        · rcases List.mem_cons.1 hs2 with rfl | hs2
          · rw [state_array, hwf.1]
          · simp at hs2
      refine ⟨hlen, ?_, ?_, ?_⟩
      · intro p hp
        rw [hlen]
        rcases List.mem_append.1 hs with hs2 | hs2
        · have := (hwf.2 s hs2).2 p hp
          omega
        · rcases List.mem_cons.1 hs2 with rfl | hs2
          · rw [state_highlights] at hp
            simp [dictOfPairs] at hp
          · simp at hs2
      · intro idx hidx
        rw [hlen]
        have := hbound s hs (List.mem_toFinset.2 hidx)
        exact Finset.mem_range.1 this
      · rcases List.mem_append.1 hs with hs2 | hs2
        · exact _quick_sort_sorted (data.length + 1) data 0 ((data.length : Int) - 1) []
            s hs2
        · rcases List.mem_cons.1 hs2 with rfl | hs2
          · exact state_si_sorted _ _ _ _
          · simp at hs2
  · -- merge sort
    by_cases hemp : data.isEmpty
    · intro s hs
      have hd : data = [] := List.isEmpty_iff.1 hemp
      subst hd
      have hs2 : s = _state Int [] [] (List.range 0) "Merge sort complete" := by
        rcases List.mem_cons.1 hs with h | h
        · exact h
        · simp at h
      subst hs2
      refine ⟨rfl, ?_, ?_, state_si_sorted _ _ _ _⟩
      · intro p hp
        rw [state_highlights] at hp
        simp [dictOfPairs] at hp
      · intro idx hidx
        rw [state_sorted_indices, sortedSet_range] at hidx
        simp at hidx
    · have hn : 1 ≤ data.length := by
        cases data with
        | nil => simp at hemp
        | cons a t => simp
      have hwf := _merge_sort_wf intLe data.length data 0 (data.length - 1) []
        (by omega) (by omega)
      have hm := _merge_sort_chain intLe data.length data 0 (data.length - 1) []
        (by omega)
      rw [List.toFinset_nil, Finset.empty_union] at hm
      have hicc : Finset.Icc 0 (data.length - 1) = Finset.range data.length := by
        ext x
        simp only [Finset.mem_Icc, Finset.mem_range]
        omega
      rw [hicc] at hm
      have hall := chain_sub_all hm.1
      have hrepl := chain_snoc_replace hm.1
        (fun x hx => (hall.2 x hx).trans hm.2) (Finset.empty_subset _)
      have hbound := engine_siF_bound
        (_merge_sort intLe data.length data 0 (data.length - 1) []).1
        data.length
        (_state Int (_merge_sort intLe data.length data 0 (data.length - 1) []).2.1 []
          (List.range data.length) "Merge sort complete")
        (by rw [siF_state, toFinset_list_range]) hrepl
      have hrun : merge_sort intLe data =
          (_merge_sort intLe data.length data 0 (data.length - 1) []).1 ++
            [_state Int (_merge_sort intLe data.length data 0 (data.length - 1) []).2.1 []
              (List.range data.length) "Merge sort complete"] := by
        simp only [merge_sort, if_neg hemp]
      rw [hrun]
      intro s hs
      have hlen : s.array.length = data.length := by
        rcases List.mem_append.1 hs with hs2 | hs2
        · exact (hwf.2 s hs2).1
        · rcases List.mem_cons.1 hs2 with rfl | hs2
          · rw [state_array, hwf.1]
          · simp at hs2
      refine ⟨hlen, ?_, ?_, ?_⟩
      · intro p hp
        rw [hlen]
        rcases List.mem_append.1 hs with hs2 | hs2
        · have := (hwf.2 s hs2).2 p hp
          omega
        · rcases List.mem_cons.1 hs2 with rfl | hs2
          · rw [state_highlights] at hp
            simp [dictOfPairs] at hp
          · simp at hs2
      · intro idx hidx
        rw [hlen]
        have := hbound s hs (List.mem_toFinset.2 hidx)
        exact Finset.mem_range.1 this
      · rcases List.mem_append.1 hs with hs2 | hs2
        · exact _merge_sort_sorted intLe data.length data 0 (data.length - 1) [] s hs2
        · rcases List.mem_cons.1 hs2 with rfl | hs2
          · exact state_si_sorted _ _ _ _
          · simp at hs2

theorem getD_set_ne_store (st : List (List Int)) (arrRef dataRef : Nat)
    (hne : dataRef ≠ arrRef) (a : List Int) :
    (st.set arrRef a).getD dataRef [] = st.getD dataRef [] := by
  simp [List.getD_eq_getElem?_getD, List.getElem?_set_ne (Ne.symm hne)]

theorem foldl_set_frame (arrRef dataRef : Nat) (hne : dataRef ≠ arrRef) :
    ∀ (xs : List (List Int)) (st : List (List Int)),
      (xs.foldl (fun st a => st.set arrRef a) st).getD dataRef [] =
        st.getD dataRef [] := by
  intro xs
  induction xs with
  | nil => intro st; rfl
  | cons x t ih =>
    intro st
    rw [List.foldl_cons, ih, getD_set_ne_store st arrRef dataRef hne]

/-- C4: against the heap model, running any of the five engines — to
completion, and also after any prefix of its snapshot-by-snapshot writes
(partial consumption) — leaves the caller's list at `dataRef` unchanged:
every write hits only the engine's private fresh cell. -/
theorem C4_input_not_mutated (store : List (List Int)) (dataRef : Nat)
    (h : dataRef < store.length) :
    ∀ core ∈ ([bubbleCore, insertionCore, selectionCore, quickCore, mergeCore] :
        List (List Int → List (SortState Int) × List Int)),
      (runOnHeap core store dataRef).2.getD dataRef [] = store.getD dataRef [] ∧
      ∀ m : Nat,
        (((((core (store.getD dataRef [])).1.take m).map SortState.array).foldl
            (fun st a => st.set store.length a)
            (store ++ [store.getD dataRef []])).getD dataRef []) =
          store.getD dataRef [] := by
  have hne : dataRef ≠ store.length := by omega
  have hleft : (store ++ [store.getD dataRef []]).getD dataRef [] =
      store.getD dataRef [] := by
    simp [List.getD_eq_getElem?_getD, List.getElem?_append_left h]
  intro core _
  constructor
  · show ((((core (store.getD dataRef [])).1.map SortState.array).foldl
        (fun st a => st.set store.length a)
        (store ++ [store.getD dataRef []])).set store.length
          (core (store.getD dataRef [])).2).getD dataRef [] = _
    rw [getD_set_ne_store _ _ _ hne, foldl_set_frame _ _ hne, hleft]
  · intro m
    rw [foldl_set_frame _ _ hne, hleft]

/-- Witness for C4 at the concrete store `[[3, 1, 2]]` with the caller's
list at cell 0. -/
theorem C4_input_not_mutated_witness :
    0 < ([[3, 1, 2]] : List (List Int)).length ∧
    (runOnHeap bubbleCore [[3, 1, 2]] 0).2.getD 0 [] = [3, 1, 2] ∧
    (((((bubbleCore [3, 1, 2]).1.take 2).map SortState.array).foldl
        (fun st a => st.set 1 a) [[3, 1, 2], [3, 1, 2]]).getD 0 []) = [3, 1, 2] := by
  refine ⟨by decide, ?_, ?_⟩
  · have h1 := (C4_input_not_mutated [[3, 1, 2]] 0 (by decide) bubbleCore (by simp)).1
    simpa using h1
  · have h2 := (C4_input_not_mutated [[3, 1, 2]] 0 (by decide) bubbleCore (by simp)).2 2
    simpa using h2

/-! ## List toolkit for the correctness proofs -/

theorem getD_set_self2 {l : List Int} {k : Nat} (hk : k < l.length) (v : Int) :
    (l.set k v).getD k 0 = v := by
  simp [List.getD_eq_getElem?_getD, List.getElem?_set_self hk]

theorem getD_set_ne2 {l : List Int} {k m : Nat} (hk : k ≠ m) (v : Int) :
    (l.set k v).getD m 0 = l.getD m 0 := by
  simp [List.getD_eq_getElem?_getD, List.getElem?_set_ne hk]

theorem set_decomp {α : Type} (v : α) :
    ∀ (l : List α) (k : Nat), k < l.length →
      l.set k v = l.take k ++ v :: l.drop (k + 1) := by
  intro l
  induction l with
  | nil => intro k hk; simp at hk
  | cons a t ih =>
    intro k hk
    cases k with
    | zero => simp
    | succ k =>
      simp only [List.set_cons_succ, List.take_succ_cons, List.drop_succ_cons,
        List.cons_append]
      rw [ih k (by simpa using hk)]

theorem take_set_of_le {α : Type} (l : List α) (k m : Nat) (h : m ≤ k) (v : α) :
    (l.set k v).take m = l.take m := by
  rw [List.set_take]
  apply List.set_eq_of_length_le
  simp only [List.length_take]
  omega

theorem drop_set_of_lt {α : Type} (l : List α) (k m : Nat) (h : k < m) (v : α) :
    (l.set k v).drop m = l.drop m := by
  rw [List.drop_set, if_pos h]

theorem drop_set_self {α : Type} (l : List α) (k : Nat) (hk : k < l.length) (v : α) :
    (l.set k v).drop k = v :: l.drop (k + 1) := by
  rw [set_decomp v l k hk, List.drop_append_of_le_length (by simp; omega)]
  have : (l.take k).drop k = [] := by
    apply List.drop_eq_nil_of_le
    simp
  rw [this, List.nil_append]

theorem take_succ_getD (l : List Int) (k : Nat) (hk : k < l.length) :
    l.take (k + 1) = l.take k ++ [l.getD k 0] := by
  rw [List.take_succ]
  congr 1
  rw [List.getElem?_eq_getElem hk]
  simp [List.getD_eq_getElem?_getD, List.getElem?_eq_getElem hk]

theorem getD_take {l : List Int} {m idx : Nat} (h : idx < m) :
    (l.take m).getD idx 0 = l.getD idx 0 := by
  simp [List.getD_eq_getElem?_getD, List.getElem?_take_of_lt h]

theorem getD_drop (l : List Int) (a idx : Nat) :
    (l.drop a).getD idx 0 = l.getD (a + idx) 0 := by
  simp [List.getD_eq_getElem?_getD, List.getElem?_drop]

theorem getD_seg (l : List Int) {a b idx : Nat} (h : a + idx < b) :
    ((l.take b).drop a).getD idx 0 = l.getD (a + idx) 0 := by
  rw [getD_drop, getD_take h]

theorem drop_eq_of_agree {l₁ l₂ : List Int} (hlen : l₁.length = l₂.length)
    (m : Nat) (h : ∀ t, m ≤ t → l₁.getD t 0 = l₂.getD t 0) :
    l₁.drop m = l₂.drop m := by
  apply List.ext_getElem?
  intro n
  rw [List.getElem?_drop, List.getElem?_drop]
  by_cases hb : m + n < l₁.length
  · have h1 := h (m + n) (by omega)
    rw [List.getD_eq_getElem?_getD, List.getD_eq_getElem?_getD,
      List.getElem?_eq_getElem hb, List.getElem?_eq_getElem (by omega : m + n < l₂.length)]
      at h1
    simp only [Option.getD_some] at h1
    rw [List.getElem?_eq_getElem hb, List.getElem?_eq_getElem (by omega : m + n < l₂.length),
      h1]
  · rw [List.getElem?_eq_none (by omega), List.getElem?_eq_none (by omega)]

theorem take_eq_of_agree {l₁ l₂ : List Int} (hlen : l₁.length = l₂.length)
    (m : Nat) (h : ∀ t, t < m → l₁.getD t 0 = l₂.getD t 0) :
    l₁.take m = l₂.take m := by
  apply List.ext_getElem?
  intro n
  by_cases hn : n < m
  · rw [List.getElem?_take_of_lt hn, List.getElem?_take_of_lt hn]
    by_cases hb : n < l₁.length
    · have h1 := h n hn
      rw [List.getD_eq_getElem?_getD, List.getD_eq_getElem?_getD,
        List.getElem?_eq_getElem hb, List.getElem?_eq_getElem (by omega : n < l₂.length)]
        at h1
      simp only [Option.getD_some] at h1
      rw [List.getElem?_eq_getElem hb, List.getElem?_eq_getElem (by omega : n < l₂.length),
        h1]
    · rw [List.getElem?_eq_none (by omega), List.getElem?_eq_none (by omega)]
  · rw [List.getElem?_take_eq_none (by omega), List.getElem?_take_eq_none (by omega)]

theorem take_perm_of_perm_drop {l₁ l₂ : List Int} (hp : List.Perm l₁ l₂)
    (m : Nat) (hd : l₁.drop m = l₂.drop m) :
    List.Perm (l₁.take m) (l₂.take m) := by
  have h1 : l₁.take m ++ l₁.drop m = l₁ := List.take_append_drop m l₁
  have h2 : l₂.take m ++ l₂.drop m = l₂ := List.take_append_drop m l₂
  have h3 : List.Perm (l₁.take m ++ l₁.drop m) (l₂.take m ++ l₂.drop m) := by
    rw [h1, h2]
    exact hp
  rw [hd] at h3
  exact (List.perm_append_right_iff (l₂.drop m)).1 h3

theorem seg_perm {l₁ l₂ : List Int} (hp : List.Perm l₁ l₂) (a b : Nat)
    (hab : a ≤ b)
    (hta : l₁.take a = l₂.take a) (htb : l₁.drop b = l₂.drop b) :
    List.Perm ((l₁.take b).drop a) ((l₂.take b).drop a) := by
  have htake : List.Perm (l₁.take b) (l₂.take b) := take_perm_of_perm_drop hp b htb
  have hta2 : (l₁.take b).take a = (l₂.take b).take a := by
    rw [List.take_take, List.take_take, Nat.min_eq_left hab, hta]
  have h3 : List.Perm ((l₁.take b).take a ++ (l₁.take b).drop a)
      ((l₂.take b).take a ++ (l₂.take b).drop a) := by
    rw [List.take_append_drop, List.take_append_drop]
    exact htake
  rw [hta2] at h3
  exact (List.perm_append_left_iff _).1 h3

theorem mem_seg {l : List Int} {a b : Nat} {v : Int} (hb : b ≤ l.length)
    (hv : v ∈ (l.take b).drop a) : ∃ t, a ≤ t ∧ t < b ∧ l.getD t 0 = v := by
  rcases List.getElem_of_mem hv with ⟨idx, hidx, he⟩
  have hlen : ((l.take b).drop a).length = b - a := by
    simp only [List.length_drop, List.length_take]
    omega
  refine ⟨a + idx, by omega, by omega, ?_⟩
  rw [← getD_seg l (by omega : a + idx < b)]
  rw [List.getD_eq_getElem?_getD, List.getElem?_eq_getElem hidx]
  simp [he]

/-! ## Merge sort correctness -/

theorem mergeWrite_arr {α : Type} (le : α → α → Bool) (si : List Nat)
    (start mid endd : Nat) :
    ∀ (fuel : Nat) (ls rs arr : List α) (i j k : Nat),
      fuel = ls.length + rs.length → k + ls.length + rs.length ≤ arr.length →
      (mergeWrite le si start mid endd fuel arr ls rs i j k).2 =
        arr.take k ++ List.merge ls rs le ++ arr.drop (k + (ls.length + rs.length)) := by
  intro fuel
  induction fuel with
  | zero =>
    intro ls rs arr i j k hfuel hk
    have hls : ls = [] := List.length_eq_zero.1 (by omega)
    have hrs : rs = [] := List.length_eq_zero.1 (by omega)
    subst hls
    subst hrs
    simp [mergeWrite]
  | succ fuel ih =>
    intro ls rs arr i j k hfuel hk
    match ls, rs with
    | [], [] => simp at hfuel
    | [], b :: rs =>
      simp only [mergeWrite]
      have hklen : k < arr.length := by
        simp only [List.length_nil, List.length_cons] at hk
        omega
      have hih := ih [] rs (arr.set k b) i (j + 1) (k + 1)
        (by simp at hfuel ⊢; omega) (by simp at hk ⊢; omega)
      rw [hih]
      have hdecomp := set_decomp b arr k hklen
      have ht : (arr.set k b).take (k + 1) = arr.take k ++ [b] := by
        rw [hdecomp]
        have : arr.take k ++ b :: arr.drop (k + 1) =
            (arr.take k ++ [b]) ++ arr.drop (k + 1) := by simp
        rw [this]
        apply List.take_left'
        simp only [List.length_append, List.length_take, List.length_singleton]
        omega
      have hd : (arr.set k b).drop (k + 1 + (List.length ([] : List α) + rs.length)) =
          arr.drop (k + (List.length ([] : List α) + (rs.length + 1))) := by
        rw [hdecomp]
        have h2 : arr.take k ++ b :: arr.drop (k + 1) =
            (arr.take k ++ [b]) ++ arr.drop (k + 1) := by simp
        rw [h2]
        have h3 : k + 1 + (List.length ([] : List α) + rs.length) =
            (arr.take k ++ [b]).length + (List.length ([] : List α) + rs.length) := by
          simp only [List.length_append, List.length_take, List.length_singleton,
            List.length_nil]
          omega
        rw [h3, List.drop_append, List.drop_drop]
        congr 1
        simp only [List.length_nil]
        omega
      rw [ht, hd]
      simp only [List.nil_merge, List.append_assoc, List.singleton_append,
        List.length_cons, List.length_nil]
    | a :: ls, [] =>
      simp only [mergeWrite]
      have hklen : k < arr.length := by
        simp only [List.length_nil, List.length_cons] at hk
        omega
      have hih := ih ls [] (arr.set k a) (i + 1) j (k + 1)
        (by simp at hfuel ⊢; omega) (by simp at hk ⊢; omega)
      rw [hih]
      have hdecomp := set_decomp a arr k hklen
      have ht : (arr.set k a).take (k + 1) = arr.take k ++ [a] := by
        rw [hdecomp]
        have : arr.take k ++ a :: arr.drop (k + 1) =
            (arr.take k ++ [a]) ++ arr.drop (k + 1) := by simp
        rw [this]
        apply List.take_left'
        simp only [List.length_append, List.length_take, List.length_singleton]
        omega
      have hd : (arr.set k a).drop (k + 1 + (ls.length + List.length ([] : List α))) =
          arr.drop (k + ((ls.length + 1) + List.length ([] : List α))) := by
        rw [hdecomp]
        have h2 : arr.take k ++ a :: arr.drop (k + 1) =
            (arr.take k ++ [a]) ++ arr.drop (k + 1) := by simp
        rw [h2]
        have h3 : k + 1 + (ls.length + List.length ([] : List α)) =
            (arr.take k ++ [a]).length + (ls.length + List.length ([] : List α)) := by
          simp only [List.length_append, List.length_take, List.length_singleton,
            List.length_nil]
          omega
        rw [h3, List.drop_append, List.drop_drop]
        congr 1
        simp only [List.length_nil]
        omega
      rw [ht, hd]
      simp only [List.merge_right, List.append_assoc, List.singleton_append,
        List.length_cons, List.length_nil]
    | a :: ls, b :: rs =>
      simp only [mergeWrite]
      have hklen : k < arr.length := by
        simp only [List.length_cons] at hk
        omega
      rw [List.cons_merge_cons]
      by_cases h : le a b
      · simp only [if_pos h]
        have hih := ih ls (b :: rs) (arr.set k a) (i + 1) j (k + 1)
          (by simp at hfuel ⊢; omega) (by simp at hk ⊢; omega)
        rw [hih]
        have hdecomp := set_decomp a arr k hklen
        have ht : (arr.set k a).take (k + 1) = arr.take k ++ [a] := by
          rw [hdecomp]
          have : arr.take k ++ a :: arr.drop (k + 1) =
              (arr.take k ++ [a]) ++ arr.drop (k + 1) := by simp
          rw [this]
          apply List.take_left'
          simp only [List.length_append, List.length_take, List.length_singleton]
          omega
        have hd : (arr.set k a).drop (k + 1 + (ls.length + (b :: rs).length)) =
            arr.drop (k + ((a :: ls).length + (b :: rs).length)) := by
          rw [hdecomp]
          have h2 : arr.take k ++ a :: arr.drop (k + 1) =
              (arr.take k ++ [a]) ++ arr.drop (k + 1) := by simp
          rw [h2]
          have h3 : k + 1 + (ls.length + (b :: rs).length) =
              (arr.take k ++ [a]).length + (ls.length + (b :: rs).length) := by
            simp only [List.length_append, List.length_take, List.length_singleton]
            omega
          rw [h3, List.drop_append, List.drop_drop]
          congr 1
          simp only [List.length_cons]
          omega
        rw [ht, hd]
        simp only [List.append_assoc, List.singleton_append, List.length_cons]
      · simp only [if_neg h]
        have hih := ih (a :: ls) rs (arr.set k b) i (j + 1) (k + 1)
          (by simp at hfuel ⊢; omega) (by simp at hk ⊢; omega)
        rw [hih]
        have hdecomp := set_decomp b arr k hklen
        have ht : (arr.set k b).take (k + 1) = arr.take k ++ [b] := by
          rw [hdecomp]
          have : arr.take k ++ b :: arr.drop (k + 1) =
              (arr.take k ++ [b]) ++ arr.drop (k + 1) := by simp
          rw [this]
          apply List.take_left'
          simp only [List.length_append, List.length_take, List.length_singleton]
          omega
        have hd : (arr.set k b).drop (k + 1 + ((a :: ls).length + rs.length)) =
            arr.drop (k + ((a :: ls).length + (b :: rs).length)) := by
          rw [hdecomp]
          have h2 : arr.take k ++ b :: arr.drop (k + 1) =
              (arr.take k ++ [b]) ++ arr.drop (k + 1) := by simp
          rw [h2]
          have h3 : k + 1 + ((a :: ls).length + rs.length) =
              (arr.take k ++ [b]).length + ((a :: ls).length + rs.length) := by
            simp only [List.length_append, List.length_take, List.length_singleton]
            omega
          rw [h3, List.drop_append, List.drop_drop]
          congr 1
          simp only [List.length_cons]
          omega
        rw [ht, hd]
        simp only [List.append_assoc, List.singleton_append, List.length_cons]

/-- The array effect of `_merge`: the segment `[start, endd]` is replaced
by the (stable, ties-to-left) `List.merge` of its two halves. -/
theorem _merge_arr {α : Type} (le : α → α → Bool) (arr : List α) (start mid endd : Nat)
    (si : List Nat) (hsm : start ≤ mid) (hme : mid ≤ endd) (hlen : endd < arr.length) :
    (_merge le arr start mid endd si).2.1 =
      arr.take start ++
        List.merge ((arr.take (mid + 1)).drop start) ((arr.take (endd + 1)).drop (mid + 1))
          le ++ arr.drop (endd + 1) := by
  have hll : ((arr.take (mid + 1)).drop start).length = mid + 1 - start := by
    simp only [List.length_drop, List.length_take]
    omega
  have hrl : ((arr.take (endd + 1)).drop (mid + 1)).length = endd - mid := by
    simp only [List.length_drop, List.length_take]
    omega
  have h := mergeWrite_arr le si start mid endd
    (((arr.take (mid + 1)).drop start).length + ((arr.take (endd + 1)).drop (mid + 1)).length)
    ((arr.take (mid + 1)).drop start) ((arr.take (endd + 1)).drop (mid + 1)) arr 0 0 start
    rfl (by rw [hll, hrl]; omega)
  show (mergeWrite le si start mid endd _ arr _ _ 0 0 start).2 = _
  rw [h, hll, hrl]
  congr 2
  omega

theorem intLe_iff (a b : Int) : intLe a b = true ↔ a ≤ b := by
  simp [intLe]

theorem pairwise_intLe_iff (l : List Int) :
    l.Pairwise (fun a b => intLe a b = true) ↔ l.Sorted (· ≤ ·) := by
  constructor
  · intro h
    exact h.imp (fun hab => (intLe_iff _ _).1 hab)
  · intro h
    exact h.imp (fun hab => (intLe_iff _ _).2 hab)

theorem intLe_trans : ∀ a b c : Int, intLe a b → intLe b c → intLe a c := by
  intro a b c hab hbc
  rw [intLe_iff] at hab hbc ⊢
  omega

theorem intLe_total : ∀ a b : Int, intLe a b || intLe b a := by
  intro a b
  simp only [intLe, Bool.or_eq_true, decide_eq_true_eq]
  omega

theorem sorted_of_length_le_one {l : List Int} (h : l.length ≤ 1) :
    l.Sorted (· ≤ ·) := by
  match l with
  | [] => exact List.sorted_nil
  | [a] => exact List.sorted_singleton a
  | a :: b :: t => simp at h

theorem seg_split (l : List Int) (a b c : Nat) (hab : a ≤ b) (hbc : b ≤ c) :
    (l.take c).drop a = ((l.take b).drop a) ++ ((l.take c).drop b) := by
  rw [List.drop_take, List.drop_take, List.drop_take]
  have hd : l.drop b = (l.drop a).drop (b - a) := by
    rw [List.drop_drop]
    congr 1
    omega
  rw [hd]
  have he : c - a = (b - a) + (c - b) := by omega
  rw [he, List.take_add]

/-- The array effect of `_merge_sort` with the integer comparison: outside
`[start, endd]` the array is untouched, and the segment becomes a sorted
permutation of what it was. -/
theorem _merge_sort_correct :
    ∀ (fuel : Nat) (arr : List Int) (start endd : Nat) (si : List Nat),
      endd - start < fuel → start ≤ endd → endd < arr.length →
      (_merge_sort intLe fuel arr start endd si).2.1.take start = arr.take start ∧
      (_merge_sort intLe fuel arr start endd si).2.1.drop (endd + 1) =
        arr.drop (endd + 1) ∧
      List.Perm
        (((_merge_sort intLe fuel arr start endd si).2.1.take (endd + 1)).drop start)
        ((arr.take (endd + 1)).drop start) ∧
      List.Sorted (· ≤ ·)
        (((_merge_sort intLe fuel arr start endd si).2.1.take (endd + 1)).drop start) := by
  intro fuel
  induction fuel with
  | zero => intro arr start endd si hf; omega
  | succ fuel ih =>
    intro arr start endd si hf hse hel
    by_cases hbase : start ≥ endd
    · have heq : start = endd := by omega
      subst heq
      simp only [_merge_sort, if_pos hbase]
      refine ⟨trivial, trivial, List.Perm.refl _, ?_⟩
      apply sorted_of_length_le_one
      simp only [List.length_drop, List.length_take]
      omega
    · have hlt : start < endd := by omega
      have hm1 : start ≤ (start + endd) / 2 := by omega
      have hm2 : (start + endd) / 2 + 1 ≤ endd := by omega
      have hLwf := _merge_sort_wf intLe fuel arr start ((start + endd) / 2) si
        (by omega) (by omega)
      have hL := ih arr start ((start + endd) / 2) si (by omega) (by omega) (by omega)
      have hRwf := _merge_sort_wf intLe fuel
        (_merge_sort intLe fuel arr start ((start + endd) / 2) si).2.1
        ((start + endd) / 2 + 1) endd
        (_merge_sort intLe fuel arr start ((start + endd) / 2) si).2.2
        (by omega) (by rw [hLwf.1]; omega)
      have hR := ih (_merge_sort intLe fuel arr start ((start + endd) / 2) si).2.1
        ((start + endd) / 2 + 1) endd
        (_merge_sort intLe fuel arr start ((start + endd) / 2) si).2.2
        (by omega) (by omega) (by rw [hLwf.1]; omega)
      set mid := (start + endd) / 2 with hmid
      set L := (_merge_sort intLe fuel arr start mid si).2.1 with hLdef
      set R := (_merge_sort intLe fuel L (mid + 1) endd
        (_merge_sort intLe fuel arr start mid si).2.2).2.1 with hRdef
      have hRlen : R.length = arr.length := by
        rw [hRwf.1, hLwf.1]
      have hMarr := _merge_arr intLe R start mid endd
        (_merge_sort intLe fuel L (mid + 1) endd
          (_merge_sort intLe fuel arr start mid si).2.2).2.2
        (by omega) (by omega) (by omega)
      simp only [_merge_sort, if_neg hbase]
      rw [← hmid, ← hLdef, ← hRdef]
      rw [hMarr]
      -- facts about the two halves inside R
      have hRtake : R.take (mid + 1) = L.take (mid + 1) := hR.1
      have hleft_eq : (R.take (mid + 1)).drop start = (L.take (mid + 1)).drop start := by
        rw [hRtake]
      have hleft_sorted : List.Sorted (· ≤ ·) ((R.take (mid + 1)).drop start) := by
        rw [hleft_eq]
        exact hL.2.2.2
      have hleft_perm : List.Perm ((R.take (mid + 1)).drop start)
          ((arr.take (mid + 1)).drop start) := by
        rw [hleft_eq]
        exact hL.2.2.1
      have hLdrop : L.drop (mid + 1) = arr.drop (mid + 1) := hL.2.1
      have hsegL_eq : (L.take (endd + 1)).drop (mid + 1) =
          (arr.take (endd + 1)).drop (mid + 1) := by
        rw [List.drop_take, List.drop_take, hLdrop]
      have hright_sorted : List.Sorted (· ≤ ·) ((R.take (endd + 1)).drop (mid + 1)) :=
        hR.2.2.2
      have hright_perm : List.Perm ((R.take (endd + 1)).drop (mid + 1))
          ((arr.take (endd + 1)).drop (mid + 1)) := by
        refine (hR.2.2.1).trans ?_
        rw [hsegL_eq]
      have hlenleft : ((R.take (mid + 1)).drop start).length = mid + 1 - start := by
        simp only [List.length_drop, List.length_take]
        omega
      have hlenright : ((R.take (endd + 1)).drop (mid + 1)).length = endd - mid := by
        simp only [List.length_drop, List.length_take]
        omega
      have hlenmerge : (List.merge ((R.take (mid + 1)).drop start)
          ((R.take (endd + 1)).drop (mid + 1)) intLe).length = endd + 1 - start := by
        rw [List.length_merge, hlenleft, hlenright]
        omega
      have hRstart : R.take start = arr.take start := by
        have h1 : R.take start = (R.take (mid + 1)).take start := by
          rw [List.take_take, Nat.min_eq_left (by omega)]
        have h2 : L.take start = (L.take (mid + 1)).take start := by
          rw [List.take_take, Nat.min_eq_left (by omega)]
        rw [h1, hRtake, ← h2, hL.1]
      have hRdrop : R.drop (endd + 1) = arr.drop (endd + 1) := by
        rw [hR.2.1]
        have h1 : L.drop (endd + 1) = (L.drop (mid + 1)).drop (endd - mid) := by
          rw [List.drop_drop]
          congr 1
          omega
        have h2 : arr.drop (endd + 1) = (arr.drop (mid + 1)).drop (endd - mid) := by
          rw [List.drop_drop]
          congr 1
          omega
        rw [h1, h2, hLdrop]
      have hprefix_len : (R.take start ++ List.merge ((R.take (mid + 1)).drop start)
          ((R.take (endd + 1)).drop (mid + 1)) intLe).length = endd + 1 := by
        rw [List.length_append, hlenmerge, List.length_take]
        omega
      have hPlen : (R.take start).length = start := by
        rw [List.length_take]
        omega
      refine ⟨?_, ?_, ?_, ?_⟩
      · rw [List.append_assoc, List.take_left' hPlen, hRstart]
      · rw [List.drop_left' hprefix_len, hRdrop]
      · rw [List.take_left' hprefix_len, List.drop_left' hPlen]
        refine List.Perm.trans (List.merge_perm_append intLe) ?_
        rw [seg_split arr start (mid + 1) (endd + 1) (by omega) (by omega)]
        exact hleft_perm.append hright_perm
      · rw [List.take_left' hprefix_len, List.drop_left' hPlen]
        rw [← pairwise_intLe_iff]
        exact List.sorted_merge intLe_trans intLe_total _ _
          ((pairwise_intLe_iff _).2 hleft_sorted)
          ((pairwise_intLe_iff _).2 hright_sorted)

/-! ## Sortedness of the final arrays

For each engine the final working array is shown to be an ordered
permutation of the input.  Position-wise order (`getD`) is bridged to
`List.Sorted` by the two lemmas below. -/

theorem sorted_of_getD {l : List Int}
    (h : ∀ p q, p ≤ q → q < l.length → l.getD p 0 ≤ l.getD q 0) :
    l.Sorted (· ≤ ·) := by
  rw [List.Sorted, List.pairwise_iff_getElem]
  intro a b ha hb hab
  have := h a b (by omega) hb
  rwa [List.getD_eq_getElem l 0 ha, List.getD_eq_getElem l 0 hb] at this

theorem sorted_getD_mono {l : List Int} (hs : l.Sorted (· ≤ ·))
    {p q : Nat} (hpq : p ≤ q) (hq : q < l.length) : l.getD p 0 ≤ l.getD q 0 := by
  rcases Nat.eq_or_lt_of_le hpq with rfl | hlt
  · exact le_refl _
  · have hp : p < l.length := by omega
    rw [List.getD_eq_getElem l 0 hp, List.getD_eq_getElem l 0 hq]
    exact List.pairwise_iff_getElem.1 hs p q hp hq hlt

/-- `selInner` returns the index of a minimum over `{min_idx} ∪ [j, j+rem)`. -/
theorem selInner_min_spec (arr : List Int) (si : List Nat) (i : Nat) :
    ∀ (rem : Nat) (min_idx j : Nat),
      arr.getD (selInner arr si i min_idx j rem).2 0 ≤ arr.getD min_idx 0 ∧
      ∀ t, j ≤ t → t < j + rem →
        arr.getD (selInner arr si i min_idx j rem).2 0 ≤ arr.getD t 0 := by
  intro rem
  induction rem with
  | zero =>
    intro min_idx j
    exact ⟨le_refl _, fun t h1 h2 => by omega⟩
  | succ rem ih =>
    intro min_idx j
    simp only [selInner]
    by_cases h : arr.getD j 0 < arr.getD min_idx 0
    · simp only [if_pos h]
      obtain ⟨ih1, ih2⟩ := ih j (j + 1)
      refine ⟨le_of_lt (lt_of_le_of_lt ih1 h), ?_⟩
      intro t ht1 ht2
      rcases Nat.eq_or_lt_of_le ht1 with rfl | hlt
      · exact ih1
      · exact ih2 t (by omega) (by omega)
    · simp only [if_neg h]
      obtain ⟨ih1, ih2⟩ := ih min_idx (j + 1)
      refine ⟨ih1, ?_⟩
      intro t ht1 ht2
      rcases Nat.eq_or_lt_of_le ht1 with rfl | hlt
      · exact le_trans ih1 (by omega)
      · exact ih2 t (by omega) (by omega)

/-- Invariant argument for `selOuter`: if all positions below `i` already
hold values no larger than anything to their right, the loop returns a
permutation of its array that is position-wise sorted. -/
theorem selOuter_correct (n : Nat) :
    ∀ (rem : Nat) (arr : List Int) (si : List Nat) (i : Nat),
      i + rem = n → n = arr.length →
      (∀ p q, p < i → p ≤ q → q < n → arr.getD p 0 ≤ arr.getD q 0) →
      List.Perm (selOuter arr si n i rem).2 arr ∧
      ∀ p q, p ≤ q → q < n →
        (selOuter arr si n i rem).2.getD p 0 ≤ (selOuter arr si n i rem).2.getD q 0 := by
  intro rem
  induction rem with
  | zero =>
    intro arr si i hn hlen hinv
    refine ⟨List.Perm.refl _, ?_⟩
    intro p q hpq hq
    exact hinv p q (by omega) hpq hq
  | succ rem ih =>
    intro arr si i hn hlen hinv
    simp only [selOuter]
    set m := (selInner arr si i i (i + 1) (n - i - 1)).2 with hm
    have hmrange : i ≤ m ∧ m < n := by
      rcases selInner_min arr si i (n - i - 1) i (i + 1) with h | h
      · rw [← hm] at h
        omega
      · rw [← hm] at h
        omega
    obtain ⟨hmspec1, hmspec2⟩ := selInner_min_spec arr si i (n - i - 1) i (i + 1)
    rw [← hm] at hmspec1 hmspec2
    have hmmin : ∀ t, i ≤ t → t < n → arr.getD m 0 ≤ arr.getD t 0 := by
      intro t ht1 ht2
      rcases Nat.eq_or_lt_of_le ht1 with rfl | hlt
      · exact hmspec1
      · exact hmspec2 t (by omega) (by omega)
    have hilen : i < arr.length := by omega
    have hmlen : m < arr.length := by omega
    have hswap := listSwap_perm arr i m hilen hmlen
    have hswlen : (listSwap arr i m).length = arr.length := length_listSwap arr i m
    have hgd : ∀ t, t ≠ i → t ≠ m → (listSwap arr i m).getD t 0 = arr.getD t 0 :=
      fun t h1 h2 => listSwap_getD_other arr h1 h2
    have hgdi : (listSwap arr i m).getD i 0 = arr.getD m 0 := by
      by_cases hei : i = m
      · rw [hei, listSwap_getD_snd arr hmlen]
      · exact listSwap_getD_fst arr hilen hei
    have hgdm : (listSwap arr i m).getD m 0 = arr.getD i 0 :=
      listSwap_getD_snd arr hmlen
    have hvals : ∀ t, i ≤ t → t < n →
        (listSwap arr i m).getD t 0 = arr.getD m 0 ∨
        (listSwap arr i m).getD t 0 = arr.getD i 0 ∨
        ((listSwap arr i m).getD t 0 = arr.getD t 0 ∧ i ≤ t) := by
      intro t ht1 ht2
      by_cases hti : t = i
      · subst hti
        exact Or.inl hgdi
      · by_cases htm : t = m
        · subst htm
          exact Or.inr (Or.inl hgdm)
        · exact Or.inr (Or.inr ⟨hgd t hti htm, ht1⟩)
    have hinv2 : ∀ p q, p < i + 1 → p ≤ q → q < n →
        (listSwap arr i m).getD p 0 ≤ (listSwap arr i m).getD q 0 := by
      intro p q hp hpq hq
      by_cases hpi : p = i
      · subst hpi
        rw [hgdi]
        rcases hvals q (by omega) hq with h | h | h
        · rw [h]
        · rw [h]
          exact hmspec1
        · rw [h.1]
          exact hmmin q h.2 hq
      · have hplt : p < i := by omega
        have hpe : (listSwap arr i m).getD p 0 = arr.getD p 0 :=
          hgd p (by omega) (by omega)
        rw [hpe]
        by_cases hqi : q < i
        · rw [hgd q (by omega) (by omega)]
          exact hinv p q hplt hpq hq
        · rcases hvals q (by omega) hq with h | h | h
          · rw [h]
            exact hinv p m hplt (by omega) (by omega)
          · rw [h]
            exact hinv p i hplt (by omega) (by omega)
          · rw [h.1]
            exact hinv p q hplt hpq hq
    obtain ⟨res_perm, res_sorted⟩ := ih (listSwap arr i m) (si ++ [i]) (i + 1)
      (by omega) (by omega) hinv2
    exact ⟨res_perm.trans hswap, res_sorted⟩

/-- The final working array of `selection_sort` is a sorted permutation of
the input. -/
theorem selection_sort_final (data : List Int) :
    List.Perm (selOuter data [] data.length 0 data.length).2 data ∧
    List.Sorted (· ≤ ·) (selOuter data [] data.length 0 data.length).2 := by
  obtain ⟨hperm, hsorted⟩ := selOuter_correct data.length data.length data [] 0
    (by omega) rfl (fun p q hp _ _ => by omega)
  refine ⟨hperm, sorted_of_getD ?_⟩
  intro p q hpq hq
  have hlen : (selOuter data [] data.length 0 data.length).2.length = data.length :=
    (selOuter_wf data.length data.length data [] 0 (by omega)).1
  exact hsorted p q hpq (by omega)

theorem mem_take_getD {l : List Int} {b : Nat} {v : Int} (hb : b ≤ l.length)
    (hv : v ∈ l.take b) : ∃ t, t < b ∧ l.getD t 0 = v := by
  have hv2 : v ∈ (l.take b).drop 0 := by rwa [List.drop_zero]
  rcases mem_seg hb hv2 with ⟨t, _, ht, he⟩
  exact ⟨t, ht, he⟩

/-- One bubble pass: outside the window `[j, j+rem]` the array is
untouched, the array is permuted, and the window's maximum is carried to
its right end. -/
theorem bubbleInner_spec (si : List Nat) :
    ∀ (rem : Nat) (arr : List Int) (j : Nat), j + rem < arr.length →
      (∀ p, p ≤ j → arr.getD p 0 ≤ arr.getD j 0) →
      (bubbleInner arr si j rem).2.take j = arr.take j ∧
      (bubbleInner arr si j rem).2.drop (j + rem + 1) = arr.drop (j + rem + 1) ∧
      List.Perm (bubbleInner arr si j rem).2 arr ∧
      ∀ p, p ≤ j + rem →
        (bubbleInner arr si j rem).2.getD p 0 ≤
          (bubbleInner arr si j rem).2.getD (j + rem) 0 := by
  intro rem
  induction rem with
  | zero =>
    intro arr j hlt hmax
    refine ⟨rfl, rfl, List.Perm.refl _, ?_⟩
    intro p hp
    exact hmax p (by omega)
  | succ rem ih =>
    intro arr j hlt hmax
    simp only [bubbleInner]
    by_cases h : arr.getD j 0 > arr.getD (j + 1) 0
    · simp only [if_pos h]
      have hjlen : j < arr.length := by omega
      have hj1len : j + 1 < arr.length := by omega
      have hlen2 : (listSwap arr j (j + 1)).length = arr.length :=
        length_listSwap arr j (j + 1)
      have hsnd : (listSwap arr j (j + 1)).getD (j + 1) 0 = arr.getD j 0 :=
        listSwap_getD_snd arr hj1len
      have hfst : (listSwap arr j (j + 1)).getD j 0 = arr.getD (j + 1) 0 :=
        listSwap_getD_fst arr hjlen (by omega)
      have hpre : ∀ p, p ≤ j + 1 →
          (listSwap arr j (j + 1)).getD p 0 ≤ (listSwap arr j (j + 1)).getD (j + 1) 0 := by
        intro p hp
        rw [hsnd]
        rcases Nat.lt_or_ge p j with hplt | hpge
        · rw [listSwap_getD_other arr (by omega) (by omega)]
          exact hmax p (by omega)
        · rcases Nat.eq_or_lt_of_le hpge with rfl | hpgt
          · rw [hfst]
            omega
          · have hpe : p = j + 1 := by omega
            rw [hpe, hsnd]
      obtain ⟨ht, hd, hp, hm⟩ := ih (listSwap arr j (j + 1)) (j + 1) (by omega) hpre
      refine ⟨?_, ?_, ?_, ?_⟩
      · have h1 : (bubbleInner (listSwap arr j (j + 1)) si (j + 1) rem).2.take j =
            ((bubbleInner (listSwap arr j (j + 1)) si (j + 1) rem).2.take (j + 1)).take j := by
          rw [List.take_take, Nat.min_eq_left (by omega)]
        rw [h1, ht, List.take_take, Nat.min_eq_left (by omega)]
        show ((arr.set j (arr.getD (j + 1) 0)).set (j + 1) (arr.getD j 0)).take j = arr.take j
        rw [take_set_of_le _ _ _ (by omega), take_set_of_le _ _ _ (by omega)]
      · have he : j + (rem + 1) + 1 = j + 1 + rem + 1 := by omega
        rw [he, hd]
        show ((arr.set j (arr.getD (j + 1) 0)).set (j + 1) (arr.getD j 0)).drop (j + 1 + rem + 1) =
          arr.drop (j + 1 + rem + 1)
        rw [drop_set_of_lt _ _ _ (by omega), drop_set_of_lt _ _ _ (by omega)]
      · exact hp.trans (listSwap_perm arr j (j + 1) hjlen hj1len)
      · intro p hpb
        have he : j + (rem + 1) = j + 1 + rem := by omega
        rw [he]
        exact hm p (by omega)
    · simp only [if_neg h]
      have hpre : ∀ p, p ≤ j + 1 → arr.getD p 0 ≤ arr.getD (j + 1) 0 := by
        intro p hp
        rcases Nat.eq_or_lt_of_le hp with rfl | hplt
        · exact le_refl _
        · exact le_trans (hmax p (by omega)) (by omega)
      obtain ⟨ht, hd, hp, hm⟩ := ih arr (j + 1) (by omega) hpre
      refine ⟨?_, ?_, hp, ?_⟩
      · have h1 : (bubbleInner arr si (j + 1) rem).2.take j =
            ((bubbleInner arr si (j + 1) rem).2.take (j + 1)).take j := by
          rw [List.take_take, Nat.min_eq_left (by omega)]
        rw [h1, ht, List.take_take, Nat.min_eq_left (by omega)]
      · have he : j + (rem + 1) + 1 = j + 1 + rem + 1 := by omega
        rw [he, hd]
      · intro p hpb
        have he : j + (rem + 1) = j + 1 + rem := by omega
        rw [he]
        exact hm p (by omega)

/-- Invariant argument for `bubbleOuter`: once the tail `[n-i, n)` is
sorted and dominates everything to its left, the remaining passes produce
a position-wise sorted permutation. -/
theorem bubbleOuter_correct (n : Nat) :
    ∀ (rem : Nat) (arr : List Int) (si : List Nat) (i : Nat),
      i + rem = n → n = arr.length →
      (∀ p q, p ≤ q → q < n → n - i ≤ q → arr.getD p 0 ≤ arr.getD q 0) →
      List.Perm (bubbleOuter arr si n i rem).2 arr ∧
      ∀ p q, p ≤ q → q < n →
        (bubbleOuter arr si n i rem).2.getD p 0 ≤
          (bubbleOuter arr si n i rem).2.getD q 0 := by
  intro rem
  induction rem with
  | zero =>
    intro arr si i hn hlen hinv
    refine ⟨List.Perm.refl _, ?_⟩
    intro p q hpq hq
    exact hinv p q hpq hq (by omega)
  | succ rem ih =>
    intro arr si i hn hlen hinv
    simp only [bubbleOuter]
    have hwin : 0 + (n - i - 1) < arr.length := by omega
    obtain ⟨_, hd, hp, hm⟩ := bubbleInner_spec si (n - i - 1) arr 0 hwin
      (fun p hp => by
        have hpe : p = 0 := by omega
        rw [hpe])
    set B := (bubbleInner arr si 0 (n - i - 1)).2 with hB
    have hBlen : B.length = arr.length := (bubbleInner_wf si (n - i - 1) arr 0).1
    have hd2 : B.drop (n - i) = arr.drop (n - i) := by
      have he : 0 + (n - i - 1) + 1 = n - i := by omega
      rwa [he] at hd
    have hpt : ∀ t, n - i ≤ t → B.getD t 0 = arr.getD t 0 := by
      intro t ht
      have h1 : (B.drop (n - i)).getD (t - (n - i)) 0 =
          (arr.drop (n - i)).getD (t - (n - i)) 0 := by rw [hd2]
      rw [getD_drop, getD_drop] at h1
      have he : n - i + (t - (n - i)) = t := by omega
      rwa [he] at h1
    have hm2 : ∀ p, p ≤ n - i - 1 → B.getD p 0 ≤ B.getD (n - i - 1) 0 := by
      intro p hpb
      have := hm p (by omega)
      have he : 0 + (n - i - 1) = n - i - 1 := by omega
      rwa [he] at this
    have htkperm : List.Perm (B.take (n - i)) (arr.take (n - i)) :=
      take_perm_of_perm_drop hp (n - i) hd2
    have hmaxle : ∀ q, n - i ≤ q → q < n → B.getD (n - i - 1) 0 ≤ arr.getD q 0 := by
      intro q hq1 hq2
      have hlt : n - i - 1 < (B.take (n - i)).length := by
        rw [List.length_take]
        omega
      have hmem : B.getD (n - i - 1) 0 ∈ B.take (n - i) := by
        have hgd : B.getD (n - i - 1) 0 = (B.take (n - i))[n - i - 1] := by
          rw [← List.getD_eq_getElem (B.take (n - i)) 0 hlt, getD_take (by omega)]
        rw [hgd]
        exact List.getElem_mem hlt
      have hmem2 : B.getD (n - i - 1) 0 ∈ arr.take (n - i) := htkperm.mem_iff.1 hmem
      rcases mem_take_getD (by omega) hmem2 with ⟨t, htb, hte⟩
      rw [← hte]
      exact hinv t q (by omega) hq2 hq1
    have hinv2 : ∀ p q, p ≤ q → q < n → n - (i + 1) ≤ q → B.getD p 0 ≤ B.getD q 0 := by
      intro p q hpq hq hq2
      rcases Nat.lt_or_ge q (n - i) with hqlt | hqge
      · have hqe : q = n - i - 1 := by omega
        subst hqe
        exact hm2 p hpq
      · rw [hpt q hqge]
        rcases Nat.lt_or_ge p (n - i) with hplt | hpge
        · exact le_trans (hm2 p (by omega)) (hmaxle q hqge hq)
        · rw [hpt p hpge]
          exact hinv p q hpq hq hqge
    obtain ⟨res_perm, res_sorted⟩ := ih B (si ++ [n - i - 1]) (i + 1)
      (by omega) (by omega) hinv2
    exact ⟨res_perm.trans hp, res_sorted⟩

/-- The final working array of `bubble_sort` is a sorted permutation of
the input. -/
theorem bubble_sort_final (data : List Int) :
    List.Perm (bubbleOuter data [] data.length 0 data.length).2 data ∧
    List.Sorted (· ≤ ·) (bubbleOuter data [] data.length 0 data.length).2 := by
  obtain ⟨hperm, hsorted⟩ := bubbleOuter_correct data.length data.length data [] 0
    (by omega) rfl (fun p q hpq hq hge => by omega)
  refine ⟨hperm, sorted_of_getD ?_⟩
  intro p q hpq hq
  have hlen : (bubbleOuter data [] data.length 0 data.length).2.length = data.length :=
    (bubbleOuter_wf data.length data.length data [] 0 (by omega)).1
  exact hsorted p q hpq (by omega)

theorem sorted_insert_mid {pre seg : List Int} {key : Int}
    (h : (pre ++ seg).Sorted (· ≤ ·))
    (hl : ∀ x ∈ pre, x ≤ key) (hr : ∀ y ∈ seg, key ≤ y) :
    (pre ++ (key :: seg)).Sorted (· ≤ ·) := by
  rw [List.Sorted, List.pairwise_append] at h ⊢
  obtain ⟨h1, h2, h3⟩ := h
  refine ⟨h1, ?_, ?_⟩
  · rw [List.pairwise_cons]
    exact ⟨hr, h2⟩
  · intro a ha b hb
    rcases List.mem_cons.1 hb with rfl | hb
    · exact hl a ha
    · exact h3 a ha b hb

/-- The shift loop of `insertion_sort`: writing `key` at the returned
position turns the array into
`prefix ++ key ++ shifted old segment ++ untouched suffix`; the element
left of the insertion point is `≤ key` and every shifted element is
`> key`. -/
theorem insInner_spec (si : List Nat) (key : Int) :
    ∀ (j1 : Nat) (arr : List Int), j1 < arr.length →
      (insInner si key arr j1).2.1.set (insInner si key arr j1).2.2 key =
        arr.take (insInner si key arr j1).2.2 ++
          (key :: ((arr.take j1).drop (insInner si key arr j1).2.2)) ++
          arr.drop (j1 + 1) ∧
      (0 < (insInner si key arr j1).2.2 →
        arr.getD ((insInner si key arr j1).2.2 - 1) 0 ≤ key) ∧
      ∀ m, (insInner si key arr j1).2.2 ≤ m → m < j1 → key < arr.getD m 0 := by
  intro j1
  induction j1 with
  | zero =>
    intro arr hlen
    simp only [insInner]
    refine ⟨?_, by omega, fun m h1 h2 => by omega⟩
    rw [set_decomp key arr 0 hlen]
    simp
  | succ j ih =>
    intro arr hlen
    simp only [insInner]
    by_cases h : arr.getD j 0 > key
    · simp only [if_pos h]
      have hlen2 : (arr.set (j + 1) (arr.getD j 0)).length = arr.length := by
        rw [List.length_set]
      obtain ⟨iha, ihb, ihc⟩ := ih (arr.set (j + 1) (arr.getD j 0)) (by omega)
      set j' := (insInner si key (arr.set (j + 1) (arr.getD j 0)) j).2.2 with hj'
      have hj'le : j' ≤ j :=
        (insInner_wf si key j (arr.set (j + 1) (arr.getD j 0))).2.1
      refine ⟨?_, ?_, ?_⟩
      · rw [iha]
        rw [take_set_of_le _ _ _ (by omega), take_set_of_le _ _ _ (by omega),
          drop_set_self arr (j + 1) hlen (arr.getD j 0)]
        rw [take_succ_getD arr j (by omega),
          List.drop_append_of_le_length (by rw [List.length_take]; omega)]
        simp only [List.cons_append, List.append_assoc, List.singleton_append,
          List.nil_append]
      · intro hj'pos
        have := ihb hj'pos
        rwa [getD_set_ne2 (by omega)] at this
      · intro m hm1 hm2
        rcases Nat.lt_or_ge m j with hmlt | hmge
        · have := ihc m hm1 hmlt
          rwa [getD_set_ne2 (by omega)] at this
        · have hme : m = j := by omega
          rw [hme]
          exact h
    · simp only [if_neg h]
      refine ⟨?_, ?_, fun m h1 h2 => by omega⟩
      · rw [set_decomp key arr (j + 1) hlen]
        have hnil : (arr.take (j + 1)).drop (j + 1) = [] :=
          List.drop_eq_nil_of_le (by rw [List.length_take]; omega)
        rw [hnil]
        simp
      · intro _
        simp only [Nat.add_sub_cancel]
        omega

/-- Invariant argument for `insOuter`: a sorted prefix of length `i` grows
to cover the whole array, which stays a permutation of itself. -/
theorem insOuter_correct :
    ∀ (rem : Nat) (arr : List Int) (si : List Nat) (i : Nat),
      i + rem = arr.length → 1 ≤ i →
      List.Sorted (· ≤ ·) (arr.take i) →
      List.Perm (insOuter arr si i rem).2 arr ∧
      List.Sorted (· ≤ ·) (insOuter arr si i rem).2 := by
  intro rem
  induction rem with
  | zero =>
    intro arr si i hn _ hsort
    have he : i = arr.length := by omega
    rw [he, List.take_length] at hsort
    exact ⟨List.Perm.refl _, hsort⟩
  | succ rem ih =>
    intro arr si i hn hi1 hsort
    have hilen : i < arr.length := by omega
    simp only [insOuter]
    obtain ⟨hdec, hc, hd⟩ := insInner_spec si (arr.getD i 0) i arr hilen
    set j' := (insInner si (arr.getD i 0) arr i).2.2 with hj'
    have hj'i : j' ≤ i := (insInner_wf si (arr.getD i 0) i arr).2.1
    set key := arr.getD i 0 with hkey
    set arr3 := (insInner si key arr i).2.1.set j' key with harr3
    have hlen3 : arr3.length = arr.length := by
      rw [harr3, List.length_set, (insInner_wf si key i arr).1]
    have hpre_len : (arr.take j').length = j' := by
      rw [List.length_take]
      omega
    have hseg_len : ((arr.take i).drop j').length = i - j' := by
      simp only [List.length_drop, List.length_take]
      omega
    have htake_split : arr.take j' ++ (arr.take i).drop j' = arr.take i := by
      have h1 : (arr.take i).take j' = arr.take j' := by
        rw [List.take_take, Nat.min_eq_left hj'i]
      rw [← h1, List.take_append_drop]
    have hdropi : arr.drop i = key :: arr.drop (i + 1) := by
      rw [List.drop_eq_getElem_cons hilen, hkey, List.getD_eq_getElem arr 0 hilen]
    have harr_split : arr =
        arr.take j' ++ ((arr.take i).drop j' ++ (key :: arr.drop (i + 1))) := by
      rw [← List.append_assoc, htake_split, ← hdropi, List.take_append_drop]
    have hdec2 : arr3 =
        arr.take j' ++ (key :: ((arr.take i).drop j' ++ arr.drop (i + 1))) := by
      rw [hdec]
      simp only [List.cons_append, List.append_assoc]
    have hperm3 : List.Perm arr3 arr := by
      rw [hdec2]
      conv_rhs => rw [harr_split]
      exact List.Perm.append_left _ (List.perm_middle.symm)
    have hall_le : ∀ x ∈ arr.take j', x ≤ key := by
      intro x hx
      rcases mem_take_getD (by omega) hx with ⟨t, htj, hte⟩
      have h1 : arr.getD t 0 ≤ arr.getD (j' - 1) 0 := by
        have h2 : (arr.take i).getD t 0 ≤ (arr.take i).getD (j' - 1) 0 :=
          sorted_getD_mono hsort (by omega) (by rw [List.length_take]; omega)
        rwa [getD_take (by omega), getD_take (by omega)] at h2
      rw [← hte]
      exact le_trans h1 (hc (by omega))
    have hall_ge : ∀ y ∈ (arr.take i).drop j', key ≤ y := by
      intro y hy
      rcases mem_seg (by omega) hy with ⟨t, ht1, ht2, hte⟩
      rw [← hte]
      exact le_of_lt (hd t ht1 ht2)
    have hsort3 : List.Sorted (· ≤ ·) (arr3.take (i + 1)) := by
      have htk : arr3.take (i + 1) =
          arr.take j' ++ (key :: (arr.take i).drop j') := by
        rw [hdec]
        apply List.take_left'
        simp only [List.length_append, List.length_cons, hpre_len, hseg_len]
        omega
      rw [htk]
      apply sorted_insert_mid (by rwa [htake_split]) hall_le hall_ge
    obtain ⟨hperm, hsorted⟩ := ih arr3 (si ++ List.range (i + 1)) (i + 1)
      (by omega) (by omega) hsort3
    exact ⟨hperm.trans hperm3, hsorted⟩

/-- The final working array of `insertion_sort` is a sorted permutation of
the input. -/
theorem insertion_sort_final (data : List Int) :
    List.Perm (insOuter data [] 1 (data.length - 1)).2 data ∧
    List.Sorted (· ≤ ·) (insOuter data [] 1 (data.length - 1)).2 := by
  rcases Nat.eq_zero_or_pos data.length with hz | hpos
  · have hnil : data = [] := List.length_eq_zero.1 hz
    subst hnil
    exact ⟨List.Perm.refl _, List.sorted_nil⟩
  · apply insOuter_correct (data.length - 1) data [] 1 (by omega) (le_refl 1)
    apply sorted_of_length_le_one
    rw [List.length_take]
    omega

/-- The Lomuto partition loop: the boundary `i` only grows and stays left
of the scan front, positions outside the scanned window are untouched, the
array is permuted, values in `[low, i]` are `≤ pivot`, values in
`(i, front)` are `> pivot`, and any uniform bound on the window's values is
preserved. -/
theorem partLoop_spec (si : List Nat) (pivot high low : Int) :
    ∀ (rem : Nat) (arr : List Int) (i j : Int),
      0 ≤ low → 0 ≤ j → i < j → low ≤ i + 1 → j + (rem : Int) ≤ high →
      high < (arr.length : Int) →
      (∀ t : Nat, low ≤ (t : Int) → (t : Int) ≤ i → arr.getD t 0 ≤ pivot) →
      (∀ t : Nat, i < (t : Int) → (t : Int) < j → pivot < arr.getD t 0) →
      i ≤ (partLoop si pivot high arr i j rem).2.2 ∧
      (partLoop si pivot high arr i j rem).2.2 < j + (rem : Int) ∧
      (∀ t : Nat, ((t : Int) ≤ i ∨ j + (rem : Int) ≤ (t : Int)) →
        (partLoop si pivot high arr i j rem).2.1.getD t 0 = arr.getD t 0) ∧
      List.Perm (partLoop si pivot high arr i j rem).2.1 arr ∧
      (∀ t : Nat, low ≤ (t : Int) → (t : Int) ≤ (partLoop si pivot high arr i j rem).2.2 →
        (partLoop si pivot high arr i j rem).2.1.getD t 0 ≤ pivot) ∧
      (∀ t : Nat, (partLoop si pivot high arr i j rem).2.2 < (t : Int) →
        (t : Int) < j + (rem : Int) →
        pivot < (partLoop si pivot high arr i j rem).2.1.getD t 0) ∧
      (∀ B : Int,
        (∀ t : Nat, i < (t : Int) → (t : Int) < j + (rem : Int) → arr.getD t 0 ≤ B) →
        ∀ t : Nat, i < (t : Int) → (t : Int) < j + (rem : Int) →
          (partLoop si pivot high arr i j rem).2.1.getD t 0 ≤ B) ∧
      (∀ B : Int,
        (∀ t : Nat, i < (t : Int) → (t : Int) < j + (rem : Int) → B < arr.getD t 0) →
        ∀ t : Nat, i < (t : Int) → (t : Int) < j + (rem : Int) →
          B < (partLoop si pivot high arr i j rem).2.1.getD t 0) := by
  intro rem
  induction rem with
  | zero =>
    intro arr i j hlow hj hij hli hrem hlen hle hgt
    simp only [partLoop]
    refine ⟨le_refl _, by omega, fun t _ => trivial, List.Perm.refl _, ?_, ?_, ?_, ?_⟩
    · exact fun t h1 h2 => hle t h1 h2
    · exact fun t h1 h2 => hgt t h1 (by omega)
    · exact fun B hB t h1 h2 => hB t h1 h2
    · exact fun B hB t h1 h2 => hB t h1 h2
  | succ rem ih =>
    intro arr i j hlow hj hij hli hrem hlen hle hgt
    have hjlen : j.toNat < arr.length := by omega
    have hi1len : (i + 1).toNat < arr.length := by omega
    simp only [partLoop]
    by_cases h : arr.getD j.toNat 0 ≤ pivot
    · simp only [if_pos h]
      have hswlen : (listSwap arr (i + 1).toNat j.toNat).length = arr.length :=
        length_listSwap arr (i + 1).toNat j.toNat
      have harr2j : (listSwap arr (i + 1).toNat j.toNat).getD j.toNat 0 =
          arr.getD (i + 1).toNat 0 := listSwap_getD_snd arr hjlen
      have harr2i1 : (listSwap arr (i + 1).toNat j.toNat).getD (i + 1).toNat 0 =
          arr.getD j.toNat 0 := by
        by_cases hEq : (i + 1).toNat = j.toNat
        · rw [hEq]
          exact listSwap_getD_snd arr hjlen
        · exact listSwap_getD_fst arr hi1len hEq
      have harr2o : ∀ t : Nat, t ≠ (i + 1).toNat → t ≠ j.toNat →
          (listSwap arr (i + 1).toNat j.toNat).getD t 0 = arr.getD t 0 :=
        fun t h1 h2 => listSwap_getD_other arr h1 h2
      have hle2 : ∀ t : Nat, low ≤ (t : Int) → (t : Int) ≤ i + 1 →
          (listSwap arr (i + 1).toNat j.toNat).getD t 0 ≤ pivot := by
        intro t h1 h2
        by_cases ht : (t : Int) = i + 1
        · have hte : t = (i + 1).toNat := by omega
          rw [hte, harr2i1]
          exact h
        · rw [harr2o t (by omega) (by omega)]
          exact hle t h1 (by omega)
      have hgt2 : ∀ t : Nat, i + 1 < (t : Int) → (t : Int) < j + 1 →
          pivot < (listSwap arr (i + 1).toNat j.toNat).getD t 0 := by
        intro t h1 h2
        by_cases ht : (t : Int) = j
        · have hte : t = j.toNat := by omega
          rw [hte, harr2j]
          exact hgt (i + 1).toNat (by omega) (by omega)
        · rw [harr2o t (by omega) (by omega)]
          exact hgt t (by omega) (by omega)
      obtain ⟨ih1, ih2, ihu, ihp, ihle, ihgt, ihtl, ihtg⟩ :=
        ih (listSwap arr (i + 1).toNat j.toNat) (i + 1) (j + 1)
          hlow (by omega) (by omega) (by omega) (by omega) (by omega) hle2 hgt2
      refine ⟨by omega, by omega, ?_, ?_, ?_, ?_, ?_, ?_⟩
      · intro t ht
        rw [ihu t (by omega)]
        exact harr2o t (by omega) (by omega)
      · exact ihp.trans (listSwap_perm arr (i + 1).toNat j.toNat hi1len hjlen)
      · exact ihle
      · intro t h1 h2
        exact ihgt t h1 (by omega)
      · intro B hB t h1 h2
        have hB2 : ∀ t : Nat, i + 1 < (t : Int) → (t : Int) < j + 1 + (rem : Int) →
            (listSwap arr (i + 1).toNat j.toNat).getD t 0 ≤ B := by
          intro u h3 h4
          by_cases hu : u = j.toNat
          · rw [hu, harr2j]
            exact hB (i + 1).toNat (by omega) (by omega)
          · rw [harr2o u (by omega) hu]
            exact hB u (by omega) (by omega)
        by_cases ht : (t : Int) = i + 1
        · rw [ihu t (by omega)]
          have hte : t = (i + 1).toNat := by omega
          rw [hte, harr2i1]
          exact hB j.toNat (by omega) (by omega)
        · exact ihtl B hB2 t (by omega) (by omega)
      · intro B hB t h1 h2
        have hB2 : ∀ t : Nat, i + 1 < (t : Int) → (t : Int) < j + 1 + (rem : Int) →
            B < (listSwap arr (i + 1).toNat j.toNat).getD t 0 := by
          intro u h3 h4
          by_cases hu : u = j.toNat
          · rw [hu, harr2j]
            exact hB (i + 1).toNat (by omega) (by omega)
          · rw [harr2o u (by omega) hu]
            exact hB u (by omega) (by omega)
        by_cases ht : (t : Int) = i + 1
        · rw [ihu t (by omega)]
          have hte : t = (i + 1).toNat := by omega
          rw [hte, harr2i1]
          exact hB j.toNat (by omega) (by omega)
        · exact ihtg B hB2 t (by omega) (by omega)
    · simp only [if_neg h]
      have hgt2 : ∀ t : Nat, i < (t : Int) → (t : Int) < j + 1 →
          pivot < arr.getD t 0 := by
        intro t h1 h2
        by_cases ht : (t : Int) = j
        · have hte : t = j.toNat := by omega
          rw [hte]
          omega
        · exact hgt t h1 (by omega)
      obtain ⟨ih1, ih2, ihu, ihp, ihle, ihgt, ihtl, ihtg⟩ :=
        ih arr i (j + 1) hlow (by omega) (by omega) (by omega) (by omega) (by omega)
          hle hgt2
      refine ⟨ih1, by omega, ?_, ihp, ihle, ?_, ?_, ?_⟩
      · intro t ht
        exact ihu t (by omega)
      · intro t h1 h2
        exact ihgt t h1 (by omega)
      · intro B hB t h1 h2
        exact ihtl B (fun u h3 h4 => hB u h3 (by omega)) t h1 (by omega)
      · intro B hB t h1 h2
        exact ihtg B (fun u h3 h4 => hB u h3 (by omega)) t h1 (by omega)

/-- `_quick_sort` leaves positions outside `[low, high]` untouched, permutes
the array, leaves the segment `[low, high]` position-wise sorted, and
preserves any uniform bound on the segment's values. -/
theorem _quick_sort_correct :
    ∀ (fuel : Nat) (arr : List Int) (low high : Int) (si : List Nat),
      (high - low + 1).toNat < fuel → 0 ≤ low → high < (arr.length : Int) →
      (∀ t : Nat, ((t : Int) < low ∨ high < (t : Int)) →
        (_quick_sort fuel arr low high si).2.1.getD t 0 = arr.getD t 0) ∧
      List.Perm (_quick_sort fuel arr low high si).2.1 arr ∧
      (∀ p q : Nat, low ≤ (p : Int) → p ≤ q → (q : Int) ≤ high →
        (_quick_sort fuel arr low high si).2.1.getD p 0 ≤
          (_quick_sort fuel arr low high si).2.1.getD q 0) ∧
      (∀ B : Int, (∀ t : Nat, low ≤ (t : Int) → (t : Int) ≤ high → arr.getD t 0 ≤ B) →
        ∀ t : Nat, low ≤ (t : Int) → (t : Int) ≤ high →
          (_quick_sort fuel arr low high si).2.1.getD t 0 ≤ B) ∧
      (∀ B : Int, (∀ t : Nat, low ≤ (t : Int) → (t : Int) ≤ high → B < arr.getD t 0) →
        ∀ t : Nat, low ≤ (t : Int) → (t : Int) ≤ high →
          B < (_quick_sort fuel arr low high si).2.1.getD t 0) := by
  intro fuel
  induction fuel with
  | zero =>
    intro arr low high si hfuel
    exact absurd hfuel (by omega)
  | succ fuel ih =>
    intro arr low high si hfuel hlow hhigh
    simp only [_quick_sort]
    by_cases hbase : low ≥ high
    · simp only [if_pos hbase]
      by_cases heq : low = high
      · simp only [if_pos heq]
        refine ⟨fun t _ => trivial, List.Perm.refl _, ?_, ?_, ?_⟩
        · intro p q h1 h2 h3
          have hpe : p = q := by omega
          rw [hpe]
        · exact fun B hB t h1 h2 => hB t h1 h2
        · exact fun B hB t h1 h2 => hB t h1 h2
      · simp only [if_neg heq]
        refine ⟨fun t _ => trivial, List.Perm.refl _, ?_, ?_, ?_⟩
        · intro p q h1 h2 h3
          exact absurd h3 (by omega)
        · exact fun B hB t h1 h2 => hB t h1 h2
        · exact fun B hB t h1 h2 => hB t h1 h2
    · simp only [if_neg hbase]
      have hlh : low < high := by omega
      obtain ⟨hp1, hp2, hpu, hpp, hple, hpgt, hptl, hptg⟩ :=
        partLoop_spec si (arr.getD high.toNat 0) high low (high - low).toNat arr
          (low - 1) low hlow hlow (by omega) (by omega) (by omega) hhigh
          (fun t h1 h2 => absurd h2 (by omega)) (fun t h1 h2 => absurd h2 (by omega))
      have hPlen := (partLoop_wf si (arr.getD high.toNat 0) high (high - low).toNat arr
        (low - 1) low (by omega) (by omega) (by omega)).1
      set pivot := arr.getD high.toNat 0 with hpivdef
      set i1 := (partLoop si pivot high arr (low - 1) low (high - low).toNat).2.2
        with hi1def
      set P := (partLoop si pivot high arr (low - 1) low (high - low).toNat).2.1
        with hPdef
      set A3 := listSwap P (i1 + 1).toNat high.toNat with hA3def
      have hA3len : A3.length = arr.length := by
        rw [hA3def, length_listSwap, hPlen]
      have hPhigh : P.getD high.toNat 0 = pivot := by
        rw [hpu high.toNat (Or.inr (by omega))]
      have hA3piv : A3.getD (i1 + 1).toNat 0 = pivot := by
        rw [hA3def]
        by_cases hEq : (i1 + 1).toNat = high.toNat
        · rw [hEq, listSwap_getD_snd P (by omega)]
          exact hPhigh
        · rw [listSwap_getD_fst P (by omega) hEq]
          exact hPhigh
      have hA3high : A3.getD high.toNat 0 = P.getD (i1 + 1).toNat 0 := by
        rw [hA3def]
        exact listSwap_getD_snd P (by omega)
      have hA3o : ∀ t : Nat, t ≠ (i1 + 1).toNat → t ≠ high.toNat →
          A3.getD t 0 = P.getD t 0 := by
        intro t h1 h2
        rw [hA3def]
        exact listSwap_getD_other P h1 h2
      have hA3le : ∀ t : Nat, low ≤ (t : Int) → (t : Int) < i1 + 1 →
          A3.getD t 0 ≤ pivot := by
        intro t h1 h2
        rw [hA3o t (by omega) (by omega)]
        exact hple t h1 (by omega)
      have hA3gt : ∀ t : Nat, i1 + 1 < (t : Int) → (t : Int) ≤ high →
          pivot < A3.getD t 0 := by
        intro t h1 h2
        by_cases hth : (t : Int) = high
        · have hte : t = high.toNat := by omega
          rw [hte, hA3high]
          exact hpgt (i1 + 1).toNat (by omega) (by omega)
        · rw [hA3o t (by omega) (by omega)]
          exact hpgt t (by omega) (by omega)
      have hA3u : ∀ t : Nat, ((t : Int) < low ∨ high < (t : Int)) →
          A3.getD t 0 = arr.getD t 0 := by
        intro t ht
        rw [hA3o t (by omega) (by omega)]
        exact hpu t (by omega)
      have hA3perm : List.Perm A3 arr := by
        rw [hA3def]
        exact (listSwap_perm P (i1 + 1).toNat high.toNat (by omega) (by omega)).trans hpp
      set si2 := si ++ [(i1 + 1).toNat] with hsi2def
      obtain ⟨ihLu, ihLp, ihLs, ihLtl, ihLtg⟩ :=
        ih A3 low (i1 + 1 - 1) si2 (by omega) hlow (by omega)
      have hLlen : (_quick_sort fuel A3 low (i1 + 1 - 1) si2).2.1.length = arr.length := by
        rw [(_quick_sort_wf fuel A3 low (i1 + 1 - 1) si2 hlow).1, hA3len]
      set L := (_quick_sort fuel A3 low (i1 + 1 - 1) si2).2.1 with hLdef
      set Lsi := (_quick_sort fuel A3 low (i1 + 1 - 1) si2).2.2 with hLsidef
      obtain ⟨ihRu, ihRp, ihRs, ihRtl, ihRtg⟩ :=
        ih L (i1 + 1 + 1) high Lsi (by omega) (by omega) (by omega)
      set R2 := (_quick_sort fuel L (i1 + 1 + 1) high Lsi).2.1 with hR2def
      have hLA3 : ∀ t : Nat, ((t : Int) < low ∨ i1 < (t : Int)) →
          L.getD t 0 = A3.getD t 0 := by
        intro t ht
        exact ihLu t (by omega)
      have hLle : ∀ t : Nat, low ≤ (t : Int) → (t : Int) ≤ i1 → L.getD t 0 ≤ pivot := by
        intro t h1 h2
        exact ihLtl pivot (fun u h3 h4 => hA3le u h3 (by omega)) t h1 (by omega)
      have hLgt : ∀ t : Nat, i1 + 1 < (t : Int) → (t : Int) ≤ high →
          pivot < L.getD t 0 := by
        intro t h1 h2
        rw [hLA3 t (by omega)]
        exact hA3gt t h1 h2
      have hLpiv : L.getD (i1 + 1).toNat 0 = pivot := by
        rw [hLA3 (i1 + 1).toNat (by omega)]
        exact hA3piv
      have hR2L : ∀ t : Nat, ((t : Int) ≤ i1 + 1 ∨ high < (t : Int)) →
          R2.getD t 0 = L.getD t 0 := by
        intro t ht
        exact ihRu t (by omega)
      have hR2le : ∀ t : Nat, low ≤ (t : Int) → (t : Int) ≤ i1 → R2.getD t 0 ≤ pivot := by
        intro t h1 h2
        rw [hR2L t (by omega)]
        exact hLle t h1 h2
      have hR2piv : R2.getD (i1 + 1).toNat 0 = pivot := by
        rw [hR2L (i1 + 1).toNat (by omega)]
        exact hLpiv
      have hR2gt : ∀ t : Nat, i1 + 1 < (t : Int) → (t : Int) ≤ high →
          pivot < R2.getD t 0 := by
        intro t h1 h2
        exact ihRtg pivot (fun u h3 h4 => hLgt u (by omega) h4) t (by omega) h2
      refine ⟨?_, ?_, ?_, ?_, ?_⟩
      · intro t ht
        rw [ihRu t (by omega), ihLu t (by omega)]
        exact hA3u t ht
      · exact ihRp.trans (ihLp.trans hA3perm)
      · intro p q h1 h2 h3
        by_cases hq : (q : Int) ≤ i1
        · rw [hR2L p (by omega), hR2L q (by omega)]
          exact ihLs p q h1 h2 (by omega)
        · by_cases hp : (p : Int) ≤ i1
          · have hple2 : R2.getD p 0 ≤ pivot := hR2le p h1 hp
            by_cases hq2 : (q : Int) = i1 + 1
            · have hqe : q = (i1 + 1).toNat := by omega
              rw [hqe, hR2piv]
              exact hple2
            · exact le_trans hple2 (le_of_lt (hR2gt q (by omega) h3))
          · by_cases hp2 : (p : Int) = i1 + 1
            · have hpe : p = (i1 + 1).toNat := by omega
              by_cases hq2 : (q : Int) = i1 + 1
              · have hqe : q = (i1 + 1).toNat := by omega
                rw [hpe, hqe]
              · rw [hpe, hR2piv]
                exact le_of_lt (hR2gt q (by omega) h3)
            · exact ihRs p q (by omega) h2 h3
      · intro B hB t h1 h2
        have hPB : ∀ u : Nat, low ≤ (u : Int) → (u : Int) ≤ high → P.getD u 0 ≤ B := by
          intro u h3 h4
          by_cases hu : (u : Int) = high
          · have hue : u = high.toNat := by omega
            rw [hue, hPhigh, hpivdef]
            exact hB high.toNat (by omega) (by omega)
          · exact hptl B (fun v h5 h6 => hB v (by omega) (by omega)) u (by omega) (by omega)
        have hA3B : ∀ u : Nat, low ≤ (u : Int) → (u : Int) ≤ high → A3.getD u 0 ≤ B := by
          intro u h3 h4
          by_cases hu1 : u = (i1 + 1).toNat
          · rw [hu1, hA3piv, hpivdef]
            exact hB high.toNat (by omega) (by omega)
          · by_cases hu2 : u = high.toNat
            · rw [hu2, hA3high]
              exact hPB (i1 + 1).toNat (by omega) (by omega)
            · rw [hA3o u hu1 hu2]
              exact hPB u h3 h4
        have hLB : ∀ u : Nat, low ≤ (u : Int) → (u : Int) ≤ high → L.getD u 0 ≤ B := by
          intro u h3 h4
          by_cases hu : (u : Int) ≤ i1
          · exact ihLtl B (fun v h5 h6 => hA3B v h5 (by omega)) u h3 (by omega)
          · rw [hLA3 u (by omega)]
            exact hA3B u h3 h4
        by_cases ht : (t : Int) ≤ i1 + 1
        · rw [hR2L t (by omega)]
          exact hLB t h1 (by omega)
        · exact ihRtl B (fun v h5 h6 => hLB v (by omega) h6) t (by omega) h2
      · intro B hB t h1 h2
        have hPB : ∀ u : Nat, low ≤ (u : Int) → (u : Int) ≤ high → B < P.getD u 0 := by
          intro u h3 h4
          by_cases hu : (u : Int) = high
          · have hue : u = high.toNat := by omega
            rw [hue, hPhigh, hpivdef]
            exact hB high.toNat (by omega) (by omega)
          · exact hptg B (fun v h5 h6 => hB v (by omega) (by omega)) u (by omega) (by omega)
        have hA3B : ∀ u : Nat, low ≤ (u : Int) → (u : Int) ≤ high → B < A3.getD u 0 := by
          intro u h3 h4
          by_cases hu1 : u = (i1 + 1).toNat
          · rw [hu1, hA3piv, hpivdef]
            exact hB high.toNat (by omega) (by omega)
          · by_cases hu2 : u = high.toNat
            · rw [hu2, hA3high]
              exact hPB (i1 + 1).toNat (by omega) (by omega)
            · rw [hA3o u hu1 hu2]
              exact hPB u h3 h4
        have hLB : ∀ u : Nat, low ≤ (u : Int) → (u : Int) ≤ high → B < L.getD u 0 := by
          intro u h3 h4
          by_cases hu : (u : Int) ≤ i1
          · exact ihLtg B (fun v h5 h6 => hA3B v h5 (by omega)) u h3 (by omega)
          · rw [hLA3 u (by omega)]
            exact hA3B u h3 h4
        by_cases ht : (t : Int) ≤ i1 + 1
        · rw [hR2L t (by omega)]
          exact hLB t h1 (by omega)
        · exact ihRtg B (fun v h5 h6 => hLB v (by omega) h6) t (by omega) h2

/-- The final working array of `quick_sort` is a sorted permutation of the
input. -/
theorem quick_sort_final (data : List Int) :
    List.Perm (_quick_sort (data.length + 1) data 0 ((data.length : Int) - 1) []).2.1 data ∧
    List.Sorted (· ≤ ·)
      (_quick_sort (data.length + 1) data 0 ((data.length : Int) - 1) []).2.1 := by
  obtain ⟨hu, hp, hs, _, _⟩ := _quick_sort_correct (data.length + 1) data 0
    ((data.length : Int) - 1) [] (by omega) (by omega) (by omega)
  refine ⟨hp, sorted_of_getD ?_⟩
  intro p q hpq hq
  have hlen := (_quick_sort_wf (data.length + 1) data 0 ((data.length : Int) - 1) []
    (by omega)).1
  exact hs p q (by omega) hpq (by omega)

/-- The final working array of `merge_sort` (over the integer comparison)
is a sorted permutation of the input. -/
theorem merge_sort_final (data : List Int) :
    List.Perm (if data.isEmpty then ([], data, ([] : List Nat))
      else _merge_sort intLe data.length data 0 (data.length - 1) []).2.1 data ∧
    List.Sorted (· ≤ ·) (if data.isEmpty then ([], data, ([] : List Nat))
      else _merge_sort intLe data.length data 0 (data.length - 1) []).2.1 := by
  by_cases he : data.isEmpty
  · simp only [if_pos he]
    have hnil : data = [] := List.isEmpty_iff.1 he
    subst hnil
    exact ⟨List.Perm.refl _, List.sorted_nil⟩
  · simp only [if_neg he]
    have hpos : 0 < data.length := by
      rcases data with _ | ⟨a, t⟩
      · simp at he
      · simp
    have hwf := (_merge_sort_wf intLe data.length data 0 (data.length - 1) []
      (by omega) (by omega)).1
    obtain ⟨_, _, hperm, hsort⟩ := _merge_sort_correct data.length data 0
      (data.length - 1) [] (by omega) (by omega) (by omega)
    have he1 : data.length - 1 + 1 = data.length := by omega
    rw [he1, List.drop_zero, List.drop_zero] at hperm
    rw [he1, List.drop_zero] at hsort
    have hres : (_merge_sort intLe data.length data 0 (data.length - 1) []).2.1.take
        data.length = (_merge_sort intLe data.length data 0 (data.length - 1) []).2.1 :=
      List.take_of_length_le (by omega)
    have hdata : data.take data.length = data := List.take_length data
    rw [hres, hdata] at hperm
    rw [hres] at hsort
    exact ⟨hperm, hsort⟩

/-- C1: for every integer input and each of the five engines, the last
snapshot yielded has a non-decreasing array that is a permutation of the
input, and its finalized-index set is the full index range `0..n-1`. -/
theorem C1_final_snapshot_sorted (data : List Int) :
    finalSnapshotOK data (bubble_sort data) ∧
    finalSnapshotOK data (insertion_sort data) ∧
    finalSnapshotOK data (selection_sort data) ∧
    finalSnapshotOK data (quick_sort data) ∧
    finalSnapshotOK data (merge_sort intLe data) := by
  unfold finalSnapshotOK
  refine ⟨?_, ?_, ?_, ?_, ?_⟩
  · simp only [bubble_sort]
    refine ⟨_, List.getLast?_concat _, ?_, ?_, ?_⟩
    · rw [state_array]
      exact (bubble_sort_final data).2
    · rw [state_array]
      exact (bubble_sort_final data).1
    · rw [state_sorted_indices, sortedSet_range]
  · simp only [insertion_sort]
    refine ⟨_, List.getLast?_concat _, ?_, ?_, ?_⟩
    · rw [state_array]
      exact (insertion_sort_final data).2
    · rw [state_array]
      exact (insertion_sort_final data).1
    · rw [state_sorted_indices, sortedSet_range]
  · simp only [selection_sort]
    refine ⟨_, List.getLast?_concat _, ?_, ?_, ?_⟩
    · rw [state_array]
      exact (selection_sort_final data).2
    · rw [state_array]
      exact (selection_sort_final data).1
    · rw [state_sorted_indices, sortedSet_range]
  · simp only [quick_sort]
    refine ⟨_, List.getLast?_concat _, ?_, ?_, ?_⟩
    · rw [state_array]
      exact (quick_sort_final data).2
    · rw [state_array]
      exact (quick_sort_final data).1
    · rw [state_sorted_indices, sortedSet_range]
  · simp only [merge_sort]
    refine ⟨_, List.getLast?_concat _, ?_, ?_, ?_⟩
    · rw [state_array]
      exact (merge_sort_final data).2
    · rw [state_array]
      exact (merge_sort_final data).1
    · rw [state_sorted_indices, sortedSet_range]

/-- C5: `_quick_sort` on an empty subrange (`low > high`) yields no
snapshot and changes nothing; on a single-index subrange it finalizes that
index with one SORTED snapshot; on a proper subrange it announces the last
element of the subrange as pivot, partitions so that exactly the values
`≤ pivot` end up left of the pivot's resting index (values right of it are
`> pivot`), and emits a SORTED snapshot for the resting index with that
index added to the finalized set. -/
theorem C5_quick_sort_partition :
    (∀ (fuel : Nat) (arr : List Int) (low high : Int) (si : List Nat), high < low →
      _quick_sort (fuel + 1) arr low high si = ([], arr, si)) ∧
    (∀ (fuel : Nat) (arr : List Int) (low : Int) (si : List Nat),
      _quick_sort (fuel + 1) arr low low si =
        ([_state Int arr [(low.toNat, HighlightType.SORTED)] (si ++ [low.toNat])
            ("Index " ++ (toString low ++ " is sorted"))], arr, si ++ [low.toNat])) ∧
    (∀ (fuel : Nat) (arr : List Int) (low high : Int) (si : List Nat),
      low < high → 0 ≤ low → high < (arr.length : Int) →
      ∃ settledArr : List Int, ∃ pivot_idx : Int,
        low ≤ pivot_idx ∧ pivot_idx ≤ high ∧
        List.Perm settledArr arr ∧
        settledArr.getD pivot_idx.toNat 0 = arr.getD high.toNat 0 ∧
        (∀ t : Nat, low ≤ (t : Int) → (t : Int) < pivot_idx →
          settledArr.getD t 0 ≤ arr.getD high.toNat 0) ∧
        (∀ t : Nat, pivot_idx < (t : Int) → (t : Int) ≤ high →
          arr.getD high.toNat 0 < settledArr.getD t 0) ∧
        _state Int settledArr [(pivot_idx.toNat, HighlightType.SORTED)]
            (si ++ [pivot_idx.toNat])
            ("Pivot settled at index " ++ toString pivot_idx) ∈
          (_quick_sort (fuel + 1) arr low high si).1 ∧
        (_quick_sort (fuel + 1) arr low high si).1.head? =
          some (_state Int arr [(high.toNat, HighlightType.PIVOT)] si
            ("Pivot chosen at index " ++ toString high))) := by
  refine ⟨?_, ?_, ?_⟩
  · intro fuel arr low high si hlt
    have h1 : low ≥ high := by omega
    have h2 : ¬(low = high) := by omega
    simp only [_quick_sort, if_pos h1, if_neg h2]
  · intro fuel arr low si
    simp only [_quick_sort, if_pos (le_refl low), if_pos rfl]
    simp
  · intro fuel arr low high si hlt hlow hhigh
    obtain ⟨hp1, hp2, hpu, hpp, hple, hpgt, hptl, hptg⟩ :=
      partLoop_spec si (arr.getD high.toNat 0) high low (high - low).toNat arr
        (low - 1) low hlow hlow (by omega) (by omega) (by omega) hhigh
        (fun t h1 h2 => absurd h2 (by omega)) (fun t h1 h2 => absurd h2 (by omega))
    have hPlen := (partLoop_wf si (arr.getD high.toNat 0) high (high - low).toNat arr
      (low - 1) low (by omega) (by omega) (by omega)).1
    simp only [_quick_sort, if_neg (by omega : ¬ low ≥ high)]
    set pivot := arr.getD high.toNat 0 with hpivdef
    set i1 := (partLoop si pivot high arr (low - 1) low (high - low).toNat).2.2
      with hi1def
    set P := (partLoop si pivot high arr (low - 1) low (high - low).toNat).2.1
      with hPdef
    have hPhigh : P.getD high.toNat 0 = pivot := by
      rw [hpu high.toNat (Or.inr (by omega))]
    set A3 := listSwap P (i1 + 1).toNat high.toNat with hA3def
    have hA3piv : A3.getD (i1 + 1).toNat 0 = pivot := by
      rw [hA3def]
      by_cases hEq : (i1 + 1).toNat = high.toNat
      · rw [hEq, listSwap_getD_snd P (by omega)]
        exact hPhigh
      · rw [listSwap_getD_fst P (by omega) hEq]
        exact hPhigh
    have hA3high : A3.getD high.toNat 0 = P.getD (i1 + 1).toNat 0 := by
      rw [hA3def]
      exact listSwap_getD_snd P (by omega)
    have hA3o : ∀ t : Nat, t ≠ (i1 + 1).toNat → t ≠ high.toNat →
        A3.getD t 0 = P.getD t 0 := by
      intro t h1 h2
      rw [hA3def]
      exact listSwap_getD_other P h1 h2
    have hA3le : ∀ t : Nat, low ≤ (t : Int) → (t : Int) < i1 + 1 →
        A3.getD t 0 ≤ pivot := by
      intro t h1 h2
      rw [hA3o t (by omega) (by omega)]
      exact hple t h1 (by omega)
    have hA3gt : ∀ t : Nat, i1 + 1 < (t : Int) → (t : Int) ≤ high →
        pivot < A3.getD t 0 := by
      intro t h1 h2
      by_cases hth : (t : Int) = high
      · have hte : t = high.toNat := by omega
        rw [hte, hA3high]
        exact hpgt (i1 + 1).toNat (by omega) (by omega)
      · rw [hA3o t (by omega) (by omega)]
        exact hpgt t (by omega) (by omega)
    have hA3perm : List.Perm A3 arr := by
      rw [hA3def]
      exact (listSwap_perm P (i1 + 1).toNat high.toNat (by omega) (by omega)).trans hpp
    refine ⟨A3, i1 + 1, by omega, by omega, hA3perm, hA3piv, hA3le, hA3gt, ?_, rfl⟩
    exact List.mem_cons_of_mem _ (List.mem_append.2 (Or.inr (List.mem_cons_self _ _)))

/-- Witness for C5 at concrete inputs: the empty subrange `[1, 0]` of
`[7]`, the single-index subrange of `[7]`, and the proper subrange of
`[2, 1]`. -/
theorem C5_quick_sort_partition_witness :
    ((0 : Int) < (1 : Int) ∧ _quick_sort (0 + 1) [7] 1 0 [] = ([], [7], [])) ∧
    (_quick_sort (0 + 1) [7] 0 0 [] =
      ([_state Int [7] [((0 : Int).toNat, HighlightType.SORTED)] ([] ++ [(0 : Int).toNat])
          ("Index " ++ (toString (0 : Int) ++ " is sorted"))], [7],
        [] ++ [(0 : Int).toNat])) ∧
    ((0 : Int) < (1 : Int) ∧ (0 : Int) ≤ (0 : Int) ∧
      (1 : Int) < (([2, 1] : List Int).length : Int) ∧
      ∃ settledArr : List Int, ∃ pivot_idx : Int,
        (0 : Int) ≤ pivot_idx ∧ pivot_idx ≤ 1 ∧
        List.Perm settledArr [2, 1] ∧
        settledArr.getD pivot_idx.toNat 0 = ([2, 1] : List Int).getD (1 : Int).toNat 0 ∧
        (∀ t : Nat, (0 : Int) ≤ (t : Int) → (t : Int) < pivot_idx →
          settledArr.getD t 0 ≤ ([2, 1] : List Int).getD (1 : Int).toNat 0) ∧
        (∀ t : Nat, pivot_idx < (t : Int) → (t : Int) ≤ 1 →
          ([2, 1] : List Int).getD (1 : Int).toNat 0 < settledArr.getD t 0) ∧
        _state Int settledArr [(pivot_idx.toNat, HighlightType.SORTED)]
            ([] ++ [pivot_idx.toNat])
            ("Pivot settled at index " ++ toString pivot_idx) ∈
          (_quick_sort (1 + 1) [2, 1] 0 1 []).1 ∧
        (_quick_sort (1 + 1) [2, 1] 0 1 []).1.head? =
          some (_state Int [2, 1] [((1 : Int).toNat, HighlightType.PIVOT)] []
            ("Pivot chosen at index " ++ toString (1 : Int)))) :=
  ⟨⟨by decide, C5_quick_sort_partition.1 0 [7] 1 0 [] (by decide)⟩,
    C5_quick_sort_partition.2.1 0 [7] 0 [],
    ⟨by decide, by decide, by decide,
      C5_quick_sort_partition.2.2 1 [2, 1] 0 1 [] (by decide) (by decide) (by decide)⟩⟩

theorem foldl_dictInsert_fresh :
    ∀ (ps d : List (Nat × HighlightType)),
      (∀ p ∈ ps, ∀ q ∈ d, p.1 ≠ q.1) → (ps.map Prod.fst).Nodup →
      ps.foldl (fun d2 p => dictInsert d2 p.1 p.2) d = d ++ ps := by
  intro ps
  induction ps with
  | nil => intro d _ _; simp
  | cons p ps ih =>
    intro d hfresh hnodup
    simp only [List.map_cons, List.nodup_cons] at hnodup
    simp only [List.foldl_cons]
    have hany : d.any (fun q => q.1 == p.1) = false := by
      rw [List.any_eq_false]
      intro q hq
      simp only [beq_iff_eq]
      exact fun he => hfresh p (List.mem_cons_self _ _) q hq (by rw [he])
    have hins : dictInsert d p.1 p.2 = d ++ [p] := by
      unfold dictInsert
      rw [hany]
      simp
    rw [hins, ih (d ++ [p]) ?_ hnodup.2]
    · rw [List.append_assoc, List.singleton_append]
    · intro x hx q hq
      rcases List.mem_append.1 hq with hq | hq
      · exact hfresh x (List.mem_cons_of_mem _ hx) q hq
      · rcases List.mem_singleton.1 hq with rfl
        intro he
        exact hnodup.1 (by rw [← he]; exact List.mem_map_of_mem Prod.fst hx)

/-- The Python dict comprehension is the identity on a pair list whose keys
are distinct. -/
theorem dictOfPairs_eq_self {ps : List (Nat × HighlightType)}
    (h : (ps.map Prod.fst).Nodup) : dictOfPairs ps = ps := by
  unfold dictOfPairs
  rw [foldl_dictInsert_fresh ps [] (fun p _ q hq => absurd hq (List.not_mem_nil q)) h]
  rw [List.nil_append]

/-- The right-drain loop of `_merge`: one snapshot per copied element, each
with a singleton SWAP highlight and the drain description. -/
theorem mergeWrite_drain_right {α : Type} (le : α → α → Bool) (si : List Nat)
    (start mid endd : Nat) :
    ∀ (fuel : Nat) (rs arr : List α) (i j k : Nat), rs.length ≤ fuel →
      (mergeWrite le si start mid endd fuel arr [] rs i j k).1.length = rs.length ∧
      ∀ s ∈ (mergeWrite le si start mid endd fuel arr [] rs i j k).1,
        ∃ k2 : Nat, s.highlights = [(k2, HighlightType.SWAP)] ∧
          s.description = "Copying remaining right element to index " ++ toString k2 := by
  intro fuel
  induction fuel with
  | zero =>
    intro rs arr i j k hf
    have hrs : rs = [] := List.length_eq_zero.1 (by omega)
    subst hrs
    refine ⟨rfl, ?_⟩
    intro s hs
    simp [mergeWrite] at hs
  | succ fuel ih =>
    intro rs arr i j k hf
    rcases rs with _ | ⟨b, rs⟩
    · refine ⟨rfl, ?_⟩
      intro s hs
      simp [mergeWrite] at hs
    · simp only [mergeWrite]
      obtain ⟨ih1, ih2⟩ := ih rs (arr.set k b) i (j + 1) (k + 1)
        (by simp only [List.length_cons] at hf; omega)
      refine ⟨by simp only [List.length_cons, ih1], ?_⟩
      intro s hs
      rcases List.mem_cons.1 hs with rfl | hs
      · exact ⟨k, rfl, rfl⟩
      · exact ih2 s hs

/-- The left-drain loop of `_merge`: one snapshot per copied element, each
with a singleton SWAP highlight and the drain description. -/
theorem mergeWrite_drain_left {α : Type} (le : α → α → Bool) (si : List Nat)
    (start mid endd : Nat) :
    ∀ (fuel : Nat) (ls arr : List α) (i j k : Nat), ls.length ≤ fuel →
      (mergeWrite le si start mid endd fuel arr ls [] i j k).1.length = ls.length ∧
      ∀ s ∈ (mergeWrite le si start mid endd fuel arr ls [] i j k).1,
        ∃ k2 : Nat, s.highlights = [(k2, HighlightType.SWAP)] ∧
          s.description = "Copying remaining left element to index " ++ toString k2 := by
  intro fuel
  induction fuel with
  | zero =>
    intro ls arr i j k hf
    have hls : ls = [] := List.length_eq_zero.1 (by omega)
    subst hls
    refine ⟨rfl, ?_⟩
    intro s hs
    simp [mergeWrite] at hs
  | succ fuel ih =>
    intro ls arr i j k hf
    rcases ls with _ | ⟨a, ls⟩
    · refine ⟨rfl, ?_⟩
      intro s hs
      simp [mergeWrite] at hs
    · simp only [mergeWrite]
      obtain ⟨ih1, ih2⟩ := ih ls (arr.set k a) (i + 1) j (k + 1)
        (by simp only [List.length_cons] at hf; omega)
      refine ⟨by simp only [List.length_cons, ih1], ?_⟩
      intro s hs
      rcases List.mem_cons.1 hs with rfl | hs
      · exact ⟨k, rfl, rfl⟩
      · exact ih2 s hs

/-- C6: the merge step compares the current heads with `le` and places the
left-half element exactly when `le a b` (ties go left); tagging duplicates
shows the two equal `1`s of `[3, 1, 2, 1]` keep their original order; the
drain loops emit one singleton-SWAP snapshot per copied element; and the
merged range is then finalized by one SORTED snapshot spanning every index
of `[start, end]`. -/
theorem C6_merge_stability :
    ((merge_sort tagLe [(3, 0), (1, 1), (2, 2), (1, 3)]).getLast?.map SortState.array =
      some [(1, 1), (1, 3), (2, 2), (3, 0)]) ∧
    ((merge_sort intLe [3, 1, 2, 1]).getLast?.map SortState.array =
      some [1, 1, 2, 3]) ∧
    (∀ (le : Int → Int → Bool) (si : List Nat) (start mid endd : Nat) (arr : List Int)
        (a b : Int) (ls rs : List Int) (i j k : Nat),
      k + (a :: ls).length + (b :: rs).length ≤ arr.length →
      (mergeWrite le si start mid endd ((a :: ls).length + (b :: rs).length) arr
          (a :: ls) (b :: rs) i j k).2.getD k 0 = if le a b then a else b) ∧
    (∀ (α : Type) (le : α → α → Bool) (si : List Nat) (start mid endd : Nat)
        (fuel : Nat) (rs arr : List α) (i j k : Nat), rs.length ≤ fuel →
      (mergeWrite le si start mid endd fuel arr [] rs i j k).1.length = rs.length ∧
      ∀ s ∈ (mergeWrite le si start mid endd fuel arr [] rs i j k).1,
        ∃ k2 : Nat, s.highlights = [(k2, HighlightType.SWAP)] ∧
          s.description = "Copying remaining right element to index " ++ toString k2) ∧
    (∀ (α : Type) (le : α → α → Bool) (si : List Nat) (start mid endd : Nat)
        (fuel : Nat) (ls arr : List α) (i j k : Nat), ls.length ≤ fuel →
      (mergeWrite le si start mid endd fuel arr ls [] i j k).1.length = ls.length ∧
      ∀ s ∈ (mergeWrite le si start mid endd fuel arr ls [] i j k).1,
        ∃ k2 : Nat, s.highlights = [(k2, HighlightType.SWAP)] ∧
          s.description = "Copying remaining left element to index " ++ toString k2) ∧
    (∀ (le : Int → Int → Bool) (arr : List Int) (start mid endd : Nat) (si : List Nat),
      ∃ s : SortState Int,
        (_merge le arr start mid endd si).1.getLast? = some s ∧
        s.array = (_merge le arr start mid endd si).2.1 ∧
        s.highlights = (List.range' start (endd + 1 - start)).map
          (fun idx => (idx, HighlightType.SORTED)) ∧
        ∀ idx : Nat, start ≤ idx → idx ≤ endd → idx ∈ s.sorted_indices) := by
  refine ⟨by decide, by decide, ?_, ?_, ?_, ?_⟩
  · intro le si start mid endd arr a b ls rs i j k hk
    rw [mergeWrite_arr le si start mid endd ((a :: ls).length + (b :: rs).length)
      (a :: ls) (b :: rs) arr i j k rfl hk]
    rw [List.append_assoc]
    have h1 : (arr.take k).length = k := by
      rw [List.length_take]
      simp only [List.length_cons] at hk
      omega
    rw [List.getD_eq_getElem?_getD, List.getElem?_append_right (by omega), h1,
      Nat.sub_self, List.cons_merge_cons]
    by_cases h : le a b
    · simp [h]
    · simp [h]
  · intro α le si start mid endd fuel rs arr i j k hf
    exact mergeWrite_drain_right le si start mid endd fuel rs arr i j k hf
  · intro α le si start mid endd fuel ls arr i j k hf
    exact mergeWrite_drain_left le si start mid endd fuel ls arr i j k hf
  · intro le arr start mid endd si
    simp only [_merge]
    refine ⟨_, List.getLast?_concat _, rfl, ?_, ?_⟩
    · rw [state_highlights]
      apply dictOfPairs_eq_self
      rw [List.map_map]
      have he : (Prod.fst ∘ fun idx => ((idx, HighlightType.SORTED) : Nat × HighlightType)) =
          id := rfl
      rw [he, List.map_id]
      exact List.nodup_range' _ _ 1 Nat.one_pos
    · intro idx h1 h2
      rw [state_sorted_indices, mem_sortedSet]
      refine List.mem_append.2 (Or.inr ?_)
      exact List.mem_range'_1.2 ⟨h1, by omega⟩

/-- Witness for C6 at concrete inputs: a head comparison of two equal
values, and one-element drains on each side. -/
theorem C6_merge_stability_witness :
    (0 + ([1] : List Int).length + ([1] : List Int).length ≤ ([5, 7] : List Int).length ∧
      (mergeWrite intLe [] 0 0 1 (([1] : List Int).length + ([1] : List Int).length)
          [5, 7] [1] [1] 0 0 0).2.getD 0 0 = if intLe 1 1 then (1 : Int) else 1) ∧
    (([9] : List Int).length ≤ 1 ∧
      (mergeWrite intLe [] 0 0 1 1 [5, 7] [] [9] 0 0 0).1.length =
        ([9] : List Int).length ∧
      ∀ s ∈ (mergeWrite intLe [] 0 0 1 1 [5, 7] [] [9] 0 0 0).1,
        ∃ k2 : Nat, s.highlights = [(k2, HighlightType.SWAP)] ∧
          s.description = "Copying remaining right element to index " ++ toString k2) ∧
    (([9] : List Int).length ≤ 1 ∧
      (mergeWrite intLe [] 0 0 1 1 [5, 7] [9] [] 0 0 0).1.length =
        ([9] : List Int).length ∧
      ∀ s ∈ (mergeWrite intLe [] 0 0 1 1 [5, 7] [9] [] 0 0 0).1,
        ∃ k2 : Nat, s.highlights = [(k2, HighlightType.SWAP)] ∧
          s.description = "Copying remaining left element to index " ++ toString k2) :=
  ⟨⟨by decide, C6_merge_stability.2.2.1 intLe [] 0 0 1 [5, 7] 1 1 [] [] 0 0 0 (by decide)⟩,
    ⟨by decide, C6_merge_stability.2.2.2.1 Int intLe [] 0 0 1 1 [9] [5, 7] 0 0 0 (by decide)⟩,
    ⟨by decide, C6_merge_stability.2.2.2.2.1 Int intLe [] 0 0 1 1 [9] [5, 7] 0 0 0 (by decide)⟩⟩

/-! ## Claim theorems: concrete runs -/

/-- C7: for every engine, input `[]` yields exactly one snapshot — a
completion snapshot with empty array and empty finalized set; input `[7]`
ends in a completion snapshot with array `[7]` and finalized set `{0}`;
and every engine yields at least one snapshot on every input. -/
theorem C7_empty_and_singleton_edge_cases :
    (bubble_sort [] =
        [{ array := [], highlights := [], sorted_indices := [],
           description := "Bubble sort complete" }] ∧
      insertion_sort [] =
        [{ array := [], highlights := [], sorted_indices := [],
           description := "Insertion sort complete" }] ∧
      selection_sort [] =
        [{ array := [], highlights := [], sorted_indices := [],
           description := "Selection sort complete" }] ∧
      quick_sort [] =
        [{ array := [], highlights := [], sorted_indices := [],
           description := "Quick sort complete" }] ∧
      merge_sort intLe [] =
        [{ array := [], highlights := [], sorted_indices := [],
           description := "Merge sort complete" }]) ∧
    ((bubble_sort [7]).getLast? = some ⟨[7], [], [0], "Bubble sort complete"⟩ ∧
      (insertion_sort [7]).getLast? = some ⟨[7], [], [0], "Insertion sort complete"⟩ ∧
      (selection_sort [7]).getLast? = some ⟨[7], [], [0], "Selection sort complete"⟩ ∧
      (quick_sort [7]).getLast? = some ⟨[7], [], [0], "Quick sort complete"⟩ ∧
      (merge_sort intLe [7]).getLast? = some ⟨[7], [], [0], "Merge sort complete"⟩) ∧
    ((∀ data : List Int, bubble_sort data ≠ []) ∧
      (∀ data : List Int, insertion_sort data ≠ []) ∧
      (∀ data : List Int, selection_sort data ≠ []) ∧
      (∀ data : List Int, quick_sort data ≠ []) ∧
      (∀ data : List Int, merge_sort intLe data ≠ [])) := by
  refine ⟨by decide, by decide, ?_, ?_, ?_, ?_, ?_⟩
  · intro data
    exact append_singleton_ne_nil _ _
  · intro data
    exact append_singleton_ne_nil _ _
  · intro data
    exact append_singleton_ne_nil _ _
  · intro data
    exact append_singleton_ne_nil _ _
  · intro data
    exact append_singleton_ne_nil _ _

/-- C8: on `[5, 1]`, bubble sort yields a COMPARE snapshot (position 0 of
the run) strictly before a distinct SWAP snapshot (position 1), and its
final snapshot is `[1, 5]` with both indices finalized. -/
theorem C8_bubble_step_presence :
    (bubble_sort [5, 1]).length = 5 ∧
    ((bubble_sort [5, 1]).getD 0 (_state Int [] [] [] "")).highlights =
      [(0, HighlightType.COMPARE), (1, HighlightType.COMPARE)] ∧
    ((bubble_sort [5, 1]).getD 0 (_state Int [] [] [] "")).array = [5, 1] ∧
    ((bubble_sort [5, 1]).getD 1 (_state Int [] [] [] "")).highlights =
      [(0, HighlightType.SWAP), (1, HighlightType.SWAP)] ∧
    ((bubble_sort [5, 1]).getD 1 (_state Int [] [] [] "")).array = [1, 5] ∧
    (bubble_sort [5, 1]).getD 0 (_state Int [] [] [] "") ≠
      (bubble_sort [5, 1]).getD 1 (_state Int [] [] [] "") ∧
    (bubble_sort [5, 1]).getLast? = some ⟨[1, 5], [], [0, 1], "Bubble sort complete"⟩ := by
  decide

/-- C2 (evidence of the code bug): a finalized index later changes value.
In `merge_sort` on `[2, 1]`, snapshot 1 has index 0 finalized with value 2,
while the later snapshot 3 still has index 0 finalized but value 1.
In `insertion_sort` on `[2, 3, 1]`, snapshot 1 has index 1 finalized with
value 3, while the later snapshot 6 has value 2 at index 1. -/
theorem C2_finalized_value_changes :
    (0 ∈ ((merge_sort intLe [2, 1]).getD 1 (_state Int [] [] [] "")).sorted_indices ∧
      0 ∈ ((merge_sort intLe [2, 1]).getD 3 (_state Int [] [] [] "")).sorted_indices ∧
      ((merge_sort intLe [2, 1]).getD 1 (_state Int [] [] [] "")).array.getD 0 0 = 2 ∧
      ((merge_sort intLe [2, 1]).getD 3 (_state Int [] [] [] "")).array.getD 0 0 = 1 ∧
      (merge_sort intLe [2, 1]).length = 7) ∧
    (1 ∈ ((insertion_sort [2, 3, 1]).getD 1 (_state Int [] [] [] "")).sorted_indices ∧
      1 ∈ ((insertion_sort [2, 3, 1]).getD 6 (_state Int [] [] [] "")).sorted_indices ∧
      ((insertion_sort [2, 3, 1]).getD 1 (_state Int [] [] [] "")).array.getD 1 0 = 3 ∧
      ((insertion_sort [2, 3, 1]).getD 6 (_state Int [] [] [] "")).array.getD 1 0 = 2 ∧
      (insertion_sort [2, 3, 1]).length = 9) := by
  decide

/-- C3 (counterexample to "full coverage only at the end"): on `[7]`,
bubble sort's first snapshot already has `finalizedIndices = {0}`, the full
index range of its one-element array, yet it is not the last snapshot of
the run (which has two snapshots). -/
theorem C3_full_coverage_before_end :
    ((bubble_sort [7]).getD 0 (_state Int [] [] [] "")).sorted_indices = [0] ∧
    ((bubble_sort [7]).getD 0 (_state Int [] [] [] "")).array = [7] ∧
    (bubble_sort [7]).length = 2 ∧
    (bubble_sort [7]).getD 0 (_state Int [] [] [] "") ≠
      (bubble_sort [7]).getD 1 (_state Int [] [] [] "") := by
  decide

end SortingViz
